import Mathlib

/-!
# pog: LR parsing-table compiler and parser states

A shallow embedding of `include/pog/parsing_table.h`, `include/pog/state.h` and
`include/pog/utils.h`, followed by theorems about the table compiler
(`ParsingTable::add_accept`, `add_state_transition`, `add_reduction`,
`calculate`, `get_action`, `get_transition`) and about the members of `State`
(`add_item`, `add_transition`, `add_back_transition`, `is_accepting`,
`get_production_items`, `get_partitions`, `contains`, `operator==`).

Conventions of the embedding

* A pointer to an immutable grammar object (`const Symbol*`, `const Rule*`) is
  the object itself; every such object carries its index, so two pointers are
  equal exactly when the values are.
* A `const State*` is the index of the state (the spec: every state has a
  unique index, and table keys are index pairs).
* `std::unordered_map` is a finite partial function; `find`, `emplace` and
  assignment through an iterator are the three operations the code uses.
* `assert(false && "...")` aborts the build: the functions return `Except`,
  the error carrying the assertion that fired and the table at that moment.
-/

namespace pog

/-! ## Grammar objects (headers outside the three embedded files) -/

/-- Modelled from the spec: associativity of a precedence declaration
(`pog/precedence.h` is not among the embedded headers). The spec names left-,
right- and non-associative operators. -/
inductive Associativity where
  | Left
  | Right
  | NonAssoc
  deriving DecidableEq, Repr

/-- Modelled from the spec: the value type `Precedence` of `pog/precedence.h`,
a pair `(precedence_level, associativity)`. -/
structure Precedence where
  level : Nat
  assoc : Associativity
  deriving DecidableEq, Repr

/-- Modelled from the spec: `Precedence::operator<`, "strictly lower" on the
precedence level; associativity is not consulted. -/
def Precedence.lt (a b : Precedence) : Bool := decide (a.level < b.level)

/-- Modelled from the spec: `Precedence::operator>`, "strictly higher" on the
precedence level; associativity is not consulted. -/
def Precedence.gt (a b : Precedence) : Bool := decide (b.level < a.level)

/-- Modelled from the spec: the kind of a symbol (`pog/symbol.h`). Terminal and
nonterminal are mutually exclusive; `End` is the kind of a symbol that is
neither, which the `if / else if` of `add_state_transition` leaves room for
(the spec: action keys are "terminal or end-of-input"). -/
inductive SymbolKind where
  | End
  | Nonterminal
  | Terminal
  deriving DecidableEq, Repr

/-- Modelled from the spec: an interned grammar symbol (`pog/symbol.h`): its
identity, its kind and its optional declared precedence. -/
structure Symbol where
  index : Nat
  kind : SymbolKind
  precedence : Option Precedence
  deriving DecidableEq, Repr

/-- Accessor `Symbol::is_terminal`. -/
def Symbol.is_terminal (s : Symbol) : Bool := decide (s.kind = SymbolKind.Terminal)

/-- Accessor `Symbol::is_nonterminal`. -/
def Symbol.is_nonterminal (s : Symbol) : Bool := decide (s.kind = SymbolKind.Nonterminal)

/-- Accessor `Symbol::has_precedence`. -/
def Symbol.has_precedence (s : Symbol) : Bool := s.precedence.isSome

/-- Modelled from the spec: a production (`pog/rule.h`): identity, right-hand
side, optional explicit precedence, and whether it is the augmented start
rule. -/
structure Rule where
  index : Nat
  rhs : List Symbol
  precedence : Option Precedence
  start : Bool
  deriving DecidableEq, Repr

/-- Accessor `Rule::has_precedence`. -/
def Rule.has_precedence (r : Rule) : Bool := r.precedence.isSome

/-- Modelled from the spec: `Rule::get_rightmost_terminal`, the last terminal
symbol of the right-hand side, or none. -/
def Rule.get_rightmost_terminal (r : Rule) : Option Symbol :=
  r.rhs.reverse.find? Symbol.is_terminal

/-- Modelled from the spec: an LR item (`pog/item.h`), a rule with a dot
position. -/
structure Item where
  rule : Rule
  read_pos : Nat
  deriving DecidableEq, Repr

/-- Accessor `Item::get_rule`. -/
def Item.get_rule (i : Item) : Rule := i.rule

/-- Modelled from the spec: `Item::is_final`, the dot is at the end of the
right-hand side. -/
def Item.is_final (i : Item) : Bool := decide (i.read_pos = i.rule.rhs.length)

/-- Modelled from the spec: `Item::is_accepting`, the final item of the
augmented start rule. -/
def Item.is_accepting (i : Item) : Bool := i.is_final && i.rule.start

/-- Modelled from the spec: `Item::get_read_symbol`, the symbol the dot points
at; there is none when the dot is not inside the right-hand side. -/
def Item.get_read_symbol (i : Item) : Option Symbol := i.rule.rhs.get? i.read_pos

/-- Modelled from the spec: `Item::operator<`, the total order "primarily by
rule identity, secondarily by dot position". -/
def Item.lt (a b : Item) : Bool :=
  decide (a.rule.index < b.rule.index) ||
    (decide (a.rule.index = b.rule.index) && decide (a.read_pos < b.read_pos))

/-- Modelled from the spec: `Item::operator==`, same rule identity and same dot
position. -/
def Item.eq (a b : Item) : Bool :=
  decide (a.rule.index = b.rule.index) && decide (a.read_pos = b.read_pos)

/-- Modelled from the spec: `Item::operator!=`. -/
def Item.ne (a b : Item) : Bool := !(Item.eq a b)

/-! ## utils.h -/

/-- The template `transform_if`: the images under `op` of the elements that
satisfy `pred`, appended to the output in input order. -/
def transform_if {α β : Type} (xs : List α) (pred : α → Bool) (op : α → β) : List β :=
  match xs with
  | [] => []
  | x :: rest =>
    if pred x then op x :: transform_if rest pred op else transform_if rest pred op

/-! ## state.h -/

/-- The class `State`: `_index`, `_items` (kept sorted by `add_item`),
`_transitions` and `_back_transitions`. The two hash maps are association
lists; the list order stands for the iteration order of the map. A pointer to
a state is the index of that state. -/
structure State where
  index : Nat
  items : List Item
  transitions : List (Symbol × Nat)
  back_transitions : List (Symbol × List Nat)
  deriving DecidableEq, Repr

/-- The algorithm `std::lower_bound` with the comparator `*left < needle`, by
its contract on a range partitioned by the comparator (a sorted `_items`): the
position of the first element that is not less than the needle, `end()` being
the length of the list. -/
def lower_bound (items : List Item) (needle : Item) : Nat :=
  (items.takeWhile (fun left => Item.lt left needle)).length

/-- The call `_items.insert(itr, x)`: `x` is placed before position `itr`. -/
def insert_at (items : List Item) (itr : Nat) (x : Item) : List Item :=
  items.take itr ++ x :: items.drop itr

/-- The member `State::add_item`: the updated state, the item the returned
pointer refers to, and the flag. -/
def State.add_item (s : State) (item : Item) : State × Item × Bool :=
  let itr := lower_bound s.items item
  match s.items.get? itr with
  | none => ({ s with items := insert_at s.items itr item }, item, true)
  | some found =>
    if Item.ne found item then
      ({ s with items := insert_at s.items itr item }, item, true)
    else
      (s, found, false)

/-- The member `State::size`. -/
def State.size (s : State) : Nat := s.items.length

/-- The member `State::is_accepting`: exactly one item is accepting. -/
def State.is_accepting (s : State) : Bool :=
  decide (s.items.countP Item.is_accepting = 1)

/-- The member `State::get_production_items`: the final items, in order. -/
def State.get_production_items (s : State) : List Item :=
  transform_if s.items Item.is_final (fun item => item)

/-- The member `State::get_transitions`. -/
def State.get_transitions (s : State) : List (Symbol × Nat) := s.transitions

/-- The member `State::add_item` called for each item of a sequence in turn,
keeping the state. -/
def State.add_items (s : State) (xs : List Item) : State :=
  xs.foldl (fun acc x => (acc.add_item x).1) s

/-- The call `m.find(k)` on a hash map kept as an association list: the value
of the entry with key `k`, if there is one. -/
def map_find {K V : Type} [DecidableEq K] (m : List (K × V)) (k : K) : Option V :=
  match m with
  | [] => none
  | e :: rest => if e.1 = k then some e.2 else map_find rest k

/-- A write `itr->second = f(itr->second)` through the iterator `m.find(k)`
returned: the value of the entry with key `k` is replaced, nothing else. -/
def map_update {K V : Type} [DecidableEq K] (m : List (K × V)) (k : K) (f : V → V) :
    List (K × V) :=
  match m with
  | [] => []
  | e :: rest => if e.1 = k then (e.1, f e.2) :: rest else e :: map_update rest k f

/-- The call `m.emplace(k, v)`: a new entry when the key is absent, no effect
when it is present. -/
def map_emplace {K V : Type} [DecidableEq K] (m : List (K × V)) (k : K) (v : V) :
    List (K × V) :=
  match map_find m k with
  | some _ => m
  | none => m ++ [(k, v)]

/-- The member `State::add_transition`. -/
def State.add_transition (s : State) (symbol : Symbol) (state : Nat) : State :=
  { s with transitions := map_emplace s.transitions symbol state }

/-- The member `State::add_transition` called for each pair of a sequence in
turn. -/
def State.add_transitions (s : State) (calls : List (Symbol × Nat)) : State :=
  calls.foldl (fun acc c => acc.add_transition c.1 c.2) s

/-- The algorithm `std::lower_bound` over a vector of states with the
comparator `left->get_index() < needle`, by its contract on a vector sorted by
index: the position of the first state whose index is not below the needle. -/
def lower_bound_index (states : List Nat) (needle : Nat) : Nat :=
  (states.takeWhile (fun left => decide (left < needle))).length

/-- The body of `add_back_transition` once the entry of the symbol is found:
the vector with the state inserted at its sorted position, unless a state of
the same index is there. -/
def insert_back_state (states : List Nat) (state : Nat) : List Nat :=
  let state_itr := lower_bound_index states state
  match states.get? state_itr with
  | none => states.take state_itr ++ state :: states.drop state_itr
  | some found =>
    if found ≠ state then states.take state_itr ++ state :: states.drop state_itr
    else states

/-- The member `State::add_back_transition`. -/
def State.add_back_transition (s : State) (symbol : Symbol) (state : Nat) : State :=
  match map_find s.back_transitions symbol with
  | none => { s with back_transitions := map_emplace s.back_transitions symbol [state] }
  | some _ =>
    { s with back_transitions :=
        map_update s.back_transitions symbol (fun states => insert_back_state states state) }

/-- The back-transition vector of a symbol, empty when the map has no entry. -/
def State.back_states (s : State) (symbol : Symbol) : List Nat :=
  (map_find s.back_transitions symbol).getD []

/-- One round of the loop of `get_partitions`: a final item is skipped, another
item opens the group of its read symbol or is pushed at the back of it. -/
def partition_step (result : List (Option Symbol × List Item)) (item : Item) :
    List (Option Symbol × List Item) :=
  if item.is_final then result
  else
    match map_find result item.get_read_symbol with
    | none => map_emplace result item.get_read_symbol [item]
    | some _ => map_update result item.get_read_symbol (fun group => group ++ [item])

/-- An item is advanceable past `X`: it is not final and its dot points at
`X`. -/
def Item.reads (X : Option Symbol) (item : Item) : Bool :=
  !item.is_final && decide (item.get_read_symbol = X)

/-- The member `State::get_partitions`. -/
def State.get_partitions (s : State) : List (Option Symbol × List Item) :=
  s.items.foldl partition_step []

/-- The member `State::contains`. -/
def State.contains (s : State) (item : Item) : Bool :=
  decide (lower_bound s.items item ≠ s.items.length)

/-- The algorithm `std::equal` on two ranges with the predicate
`*left == *right`: same length and equal items position by position. -/
def std_equal (xs ys : List Item) : Bool :=
  match xs, ys with
  | [], [] => true
  | x :: xs', y :: ys' => Item.eq x y && std_equal xs' ys'
  | _, _ => false

/-- The member `State::operator==`. -/
def State.eq (s rhs : State) : Bool := std_equal s.items rhs.items

/-- The member `State::operator!=`. -/
def State.ne (s rhs : State) : Bool := !(State.eq s rhs)

/-! ## parsing_table.h -/

/-- Modelled from the spec: the tagged value `Action` (`pog/action.h`), one of
`Shift(target state)`, `Reduce(rule)`, `Accept`. -/
inductive Action where
  | Shift (state : Nat)
  | Reduce (rule : Rule)
  | Accept
  deriving DecidableEq, Repr

/-- Modelled from the spec: the composite key `StateAndSymbol`
(`pog/types/state_and_symbol.h`), compared by the identity of both parts. -/
structure StateAndSymbol where
  state : Nat
  symbol : Symbol
  deriving DecidableEq, Repr

/-- Modelled from the spec: what the table compiler reads from the automaton
(`pog/automaton.h`): its states in creation order. -/
structure Automaton where
  states : List State

/-- The member `Automaton::get_states`. -/
def Automaton.get_states (a : Automaton) : List State := a.states

/-- Modelled from the spec: what the table compiler reads from the grammar
(`pog/grammar.h`): the designated end-of-input symbol. -/
structure Grammar where
  end_of_input_symbol : Symbol

/-- The member `Grammar::get_end_of_input_symbol`. -/
def Grammar.get_end_of_input_symbol (g : Grammar) : Symbol := g.end_of_input_symbol

/-- Modelled from the spec: the lookahead oracle (`pog/operations/lookahead.h`),
`lookahead(state, rule)`; the list order stands for the iteration order of the
returned set. -/
abbrev Lookahead := Nat → Rule → List Symbol

/-- A hash map `std::unordered_map<StateAndSymbol, V>` as a partial function. -/
abbrev TableMap (V : Type) := StateAndSymbol → Option V

/-- The call `m.emplace(k, v)`: inserts only when the key is absent. -/
def TableMap.emplace {V : Type} (m : TableMap V) (k : StateAndSymbol) (v : V) : TableMap V :=
  match m k with
  | some _ => m
  | none => fun k' => if k' = k then some v else m k'

/-- The assignment `itr->second = v` for the iterator found at key `k`. -/
def TableMap.assign {V : Type} (m : TableMap V) (k : StateAndSymbol) (v : V) : TableMap V :=
  fun k' => if k' = k then some v else m k'

/-- The mutable members of `ParsingTable`: `_action_table` and `_goto_table`. -/
structure ParsingTable where
  action_table : TableMap Action
  goto_table : TableMap Nat

/-- A freshly constructed `ParsingTable`: both maps are empty. -/
def ParsingTable.empty : ParsingTable :=
  { action_table := fun _ => none, goto_table := fun _ => none }

/-- The assertion messages of `parsing_table.h`; the two assertions of
`add_reduction` share the message `!!! CONFLICT !!!`. -/
inductive Conflict where
  | placing_accepting
  | placing_shifts
  | filling_goto
  | conflict
  deriving DecidableEq, Repr

/-- Outcome of a table-building step: the new table, or the assertion that
fired together with the table at that moment. -/
abbrev Result := Except (Conflict × ParsingTable) ParsingTable

/-- The member `ParsingTable::get_action`. -/
def ParsingTable.get_action (T : ParsingTable) (state : Nat) (symbol : Symbol) : Option Action :=
  T.action_table { state := state, symbol := symbol }

/-- The member `ParsingTable::get_transition`. -/
def ParsingTable.get_transition (T : ParsingTable) (state : Nat) (symbol : Symbol) : Option Nat :=
  T.goto_table { state := state, symbol := symbol }

/-- The member `ParsingTable::add_accept`. -/
def ParsingTable.add_accept (T : ParsingTable) (state : Nat) (symbol : Symbol) : Result :=
  let ss : StateAndSymbol := { state := state, symbol := symbol }
  match T.action_table ss with
  | some _ => Except.error (Conflict.placing_accepting, T)
  | none => Except.ok { T with action_table := T.action_table.emplace ss Action.Accept }

/-- The member `ParsingTable::add_state_transition`. -/
def ParsingTable.add_state_transition (T : ParsingTable) (src_state : Nat) (symbol : Symbol)
    (dest_state : Nat) : Result :=
  let ss : StateAndSymbol := { state := src_state, symbol := symbol }
  if symbol.is_terminal then
    match T.action_table ss with
    | some _ => Except.error (Conflict.placing_shifts, T)
    | none => Except.ok { T with action_table := T.action_table.emplace ss (Action.Shift dest_state) }
  else if symbol.is_nonterminal then
    match T.goto_table ss with
    | some _ => Except.error (Conflict.filling_goto, T)
    | none => Except.ok { T with goto_table := T.goto_table.emplace ss dest_state }
  else
    Except.ok T

/-- The local `stack_prec` of `add_reduction` (lines 92-96): the explicit
precedence of the rule, else the precedence of its rightmost terminal. -/
def stack_prec (rule : Rule) : Option Precedence :=
  if rule.has_precedence then
    rule.precedence
  else
    match rule.get_rightmost_terminal with
    | some op_symbol => if op_symbol.has_precedence then op_symbol.precedence else none
    | none => none

/-- The member `ParsingTable::add_reduction`. -/
def ParsingTable.add_reduction (T : ParsingTable) (state : Nat) (symbol : Symbol)
    (rule : Rule) : Result :=
  let ss : StateAndSymbol := { state := state, symbol := symbol }
  match T.action_table ss with
  | some _ =>
    match stack_prec rule, symbol.precedence with
    | some sp, some input_prec =>
      if Precedence.lt sp input_prec then
        Except.ok T
      else if Precedence.gt sp input_prec then
        Except.ok { T with action_table := T.action_table.assign ss (Action.Reduce rule) }
      else
        Except.error (Conflict.conflict, T)
    | _, _ => Except.error (Conflict.conflict, T)
  | none => Except.ok { T with action_table := T.action_table.emplace ss (Action.Reduce rule) }

/-- The loop `for (sym, dest_state) : state->get_transitions()` of `calculate`
for the state of index `idx`, stopping at the first failed assertion. -/
def add_state_transitions (idx : Nat) (trs : List (Symbol × Nat)) (T : ParsingTable) : Result :=
  trs.foldlM (fun acc tr => acc.add_state_transition idx tr.1 tr.2) T

/-- The inner loop `for sym : _lookahead_op[{state, rule}]` of `calculate`. -/
def add_reductions_of_rule (idx : Nat) (rule : Rule) (syms : List Symbol)
    (T : ParsingTable) : Result :=
  syms.foldlM (fun acc sym => acc.add_reduction idx sym rule) T

/-- The loop `for item : state->get_production_items()` of `calculate`. -/
def add_reductions (lookahead_op : Lookahead) (idx : Nat) (items : List Item)
    (T : ParsingTable) : Result :=
  items.foldlM
    (fun acc item => add_reductions_of_rule idx item.get_rule (lookahead_op idx item.get_rule) acc)
    T

/-- The body of the outer loop of `calculate` for one state: the accept
action, then the forward transitions, then the reductions. -/
def ParsingTable.calculate_state (grammar : Grammar) (lookahead_op : Lookahead)
    (T : ParsingTable) (state : State) : Result := do
  let T1 ← if state.is_accepting then T.add_accept state.index grammar.get_end_of_input_symbol
           else pure T
  let T2 ← add_state_transitions state.index state.get_transitions T1
  add_reductions lookahead_op state.index state.get_production_items T2

/-- The member `ParsingTable::calculate`, run on the table `T`. -/
def ParsingTable.calculate (automaton : Automaton) (grammar : Grammar)
    (lookahead_op : Lookahead) (T : ParsingTable) : Result :=
  automaton.get_states.foldlM (fun acc state => acc.calculate_state grammar lookahead_op state) T

/-- What `add_reduction` decides from the content `old` of its slot: `none`
stands for the conflict assertion, `some v` for the content `v` the slot has
afterwards. -/
def reduction_outcome (old : Option Action) (symbol : Symbol) (rule : Rule) :
    Option (Option Action) :=
  match old with
  | some a =>
    match stack_prec rule, symbol.precedence with
    | some sp, some input_prec =>
      if Precedence.lt sp input_prec then some (some a)
      else if Precedence.gt sp input_prec then some (some (Action.Reduce rule))
      else none
    | _, _ => none
  | none => some (some (Action.Reduce rule))

/-- Two outcomes agree: both runs stop at an assertion, or both complete with
the same result. -/
def agree {ε β : Type} (r1 r2 : Except ε β) : Prop :=
  match r1, r2 with
  | Except.ok a, Except.ok b => a = b
  | Except.error _, Except.error _ => True
  | _, _ => False

/-- The same state visited in another order: same index and items, the forward
transitions in another iteration order. -/
def State.reordered (s s' : State) : Prop :=
  s'.index = s.index ∧ s'.items = s.items ∧ s'.transitions.Perm s.transitions

/-- The source of an action at a key, read off the state `st`: a shift comes
from a terminal forward transition, a reduction from a final item whose
lookahead holds the symbol, the accept from the accepting state on the end of
input. -/
def Justified (grammar : Grammar) (lookahead_op : Lookahead) (st : State)
    (k : StateAndSymbol) (a : Action) : Prop :=
  st.index = k.state ∧
    match a with
    | Action.Shift d => k.symbol.is_terminal = true ∧ (k.symbol, d) ∈ st.transitions
    | Action.Reduce r =>
      (∃ item ∈ st.items, item.is_final = true ∧ item.get_rule = r) ∧
        k.symbol ∈ lookahead_op st.index r
    | Action.Accept => st.is_accepting = true ∧ k.symbol = grammar.get_end_of_input_symbol

/-! ## Worked data: the expression grammar `E -> E + E | E * E | id` -/

/-- Terminal `+`, precedence level 1, left-associative. -/
def sym_plus : Symbol := ⟨0, SymbolKind.Terminal, some ⟨1, Associativity.Left⟩⟩

/-- Terminal `*`, precedence level 2, left-associative. -/
def sym_star : Symbol := ⟨1, SymbolKind.Terminal, some ⟨2, Associativity.Left⟩⟩

/-- Terminal `id`, no precedence. -/
def sym_id : Symbol := ⟨2, SymbolKind.Terminal, none⟩

/-- Nonterminal `E`. -/
def sym_E : Symbol := ⟨3, SymbolKind.Nonterminal, none⟩

/-- The end-of-input symbol, no precedence. -/
def sym_end : Symbol := ⟨4, SymbolKind.End, none⟩

/-- Rule `E -> E + E`. -/
def rule_plus : Rule := ⟨1, [sym_E, sym_plus, sym_E], none, false⟩

/-- Rule `E -> E * E`. -/
def rule_star : Rule := ⟨2, [sym_E, sym_star, sym_E], none, false⟩

/-- Rule `E -> id`. -/
def rule_id : Rule := ⟨3, [sym_id], none, false⟩

/-- The shifts of the two states that hold a completed binary rule: state 5
holds `E -> E + E .`, state 6 holds `E -> E * E .`; both shift `+` to state 3
and `*` to state 4. -/
def expr_shifts : ParsingTable :=
  { action_table := fun k =>
      if k = ⟨5, sym_plus⟩ then some (Action.Shift 3)
      else if k = ⟨5, sym_star⟩ then some (Action.Shift 4)
      else if k = ⟨6, sym_plus⟩ then some (Action.Shift 3)
      else if k = ⟨6, sym_star⟩ then some (Action.Shift 4)
      else none,
    goto_table := fun _ => none }

/-! ## Worked data: two rules with the same right-hand side -/

/-- Terminal `a`, precedence level 2. -/
def sym_a : Symbol := ⟨5, SymbolKind.Terminal, some ⟨2, Associativity.Left⟩⟩

/-- Rule `A -> a`. -/
def rule_A : Rule := ⟨4, [sym_a], none, false⟩

/-- Rule `B -> a`. -/
def rule_B : Rule := ⟨5, [sym_a], none, false⟩

/-- Rule `C -> +`, whose only terminal has precedence level 1. -/
def rule_C : Rule := ⟨6, [sym_plus], none, false⟩

/-- Rule `E -> - E` with the explicit precedence level 3; its rightmost
terminal is written `+` here so that the two sources of precedence differ. -/
def rule_neg : Rule := ⟨7, [sym_plus, sym_E], some ⟨3, Associativity.Right⟩, false⟩

/-! ## Worked data: dangling else, `S -> if E then S | if E then S else S` -/

/-- Terminal `if`. -/
def sym_if : Symbol := ⟨10, SymbolKind.Terminal, none⟩

/-- Terminal `then`. -/
def sym_then : Symbol := ⟨11, SymbolKind.Terminal, none⟩

/-- Terminal `else`. -/
def sym_else : Symbol := ⟨12, SymbolKind.Terminal, none⟩

/-- Nonterminal `S`. -/
def sym_S : Symbol := ⟨13, SymbolKind.Nonterminal, none⟩

/-- Rule `S -> if E then S`. -/
def rule_if_then : Rule := ⟨8, [sym_if, sym_E, sym_then, sym_S], none, false⟩

/-- The state 9 holding `S -> if E then S .` and `S -> if E then S . else S`
shifts `else` to state 10. -/
def dangling_shifts : ParsingTable :=
  { action_table := fun k => if k = ⟨9, sym_else⟩ then some (Action.Shift 10) else none,
    goto_table := fun _ => none }

/-! ## Worked data: the automaton of `S' -> S`, `S -> id` -/

/-- The augmented start rule `S' -> S`. -/
def rule_start : Rule := ⟨10, [sym_S], none, true⟩

/-- Rule `S -> id`. -/
def rule_S_id : Rule := ⟨11, [sym_id], none, false⟩

/-- The three states of the automaton built from the start rule `start`:
state 0 holds `S' -> . S` and `S -> . id`, state 1 holds `S' -> S .` and is
accepting, state 2 holds `S -> id .`. -/
def start_states (start : Rule) : List State :=
  [⟨0, [⟨start, 0⟩, ⟨rule_S_id, 0⟩], [(sym_S, 1), (sym_id, 2)], []⟩,
   ⟨1, [⟨start, 1⟩], [], [(sym_S, [0])]⟩,
   ⟨2, [⟨rule_S_id, 1⟩], [], [(sym_id, [0])]⟩]

/-- The automaton of `S' -> S`, `S -> id`. -/
def tiny_automaton : Automaton := ⟨start_states rule_start⟩

/-- The grammar view of the table compiler: the end-of-input symbol. -/
def tiny_grammar : Grammar := ⟨sym_end⟩

/-- Lookahead of the tiny grammar: `S -> id` is reduced in state 2 on the end
of input; the start rule is never reduced. -/
def tiny_lookahead : Lookahead :=
  fun idx rule => if idx = 2 ∧ rule = rule_S_id then [sym_end] else []

/-- The table `calculate` compiles for the tiny grammar. -/
def tiny_table : ParsingTable :=
  match ParsingTable.empty.calculate tiny_automaton tiny_grammar tiny_lookahead with
  | Except.ok T => T
  | Except.error e => e.2

/-- Lookahead with the textbook item `[S' -> S ., $]` on the tiny grammar: the
reduction of the start rule meets the `Accept` of state 1. -/
def tiny_conflict_lookahead : Lookahead :=
  fun idx rule =>
    if idx = 2 ∧ rule = rule_S_id then [sym_end]
    else if idx = 1 ∧ rule.start = true then [sym_end]
    else []

/-- The tiny automaton with the forward transitions of state 0 visited in the
other order. -/
def tiny_automaton_reordered : Automaton :=
  ⟨[⟨0, [⟨rule_start, 0⟩, ⟨rule_S_id, 0⟩], [(sym_id, 2), (sym_S, 1)], []⟩,
    ⟨1, [⟨rule_start, 1⟩], [], [(sym_S, [0])]⟩,
    ⟨2, [⟨rule_S_id, 1⟩], [], [(sym_id, [0])]⟩]⟩

/-- An end-of-input symbol that declares the precedence level 1. -/
def sym_end_prec : Symbol := ⟨20, SymbolKind.End, some ⟨1, Associativity.Left⟩⟩

/-- The augmented start rule `S' -> S` declaring the precedence level 2. -/
def rule_start_prec : Rule := ⟨12, [sym_S], some ⟨2, Associativity.Left⟩, true⟩

/-- Lookahead in which the completed start rule is reduced on the end of
input in the accepting state, as in the textbook LR(1) item `[S' -> S ., $]`. -/
def start_lookahead (end_sym : Symbol) : Lookahead :=
  fun idx rule =>
    if idx = 2 ∧ rule = rule_S_id then [end_sym]
    else if idx = 1 ∧ rule.start = true then [end_sym]
    else []

/-! ## Theorems: `add_reduction` -/

/-- C1. Shift/reduce resolution by precedence: when `(s, t)` holds `Shift d`,
the rule has stack precedence `p_r` and the terminal has precedence `p_t`,
a strictly lower `p_r` keeps `Shift d` and a strictly higher `p_r` writes
`Reduce r`; in both cases without a conflict, and every other action entry
and the whole goto table are unchanged. -/
theorem add_reduction_precedence_resolution (T : ParsingTable) (s d : Nat) (t : Symbol)
    (r : Rule) (p_r p_t : Precedence)
    (hshift : T.get_action s t = some (Action.Shift d))
    (hr : stack_prec r = some p_r) (ht : t.precedence = some p_t) :
    (p_r.level < p_t.level →
      ∃ T', T.add_reduction s t r = Except.ok T' ∧
        T'.get_action s t = some (Action.Shift d) ∧
        (∀ s' t', (s' ≠ s ∨ t' ≠ t) → T'.get_action s' t' = T.get_action s' t') ∧
        (∀ s' X, T'.get_transition s' X = T.get_transition s' X)) ∧
    (p_t.level < p_r.level →
      ∃ T', T.add_reduction s t r = Except.ok T' ∧
        T'.get_action s t = some (Action.Reduce r) ∧
        (∀ s' t', (s' ≠ s ∨ t' ≠ t) → T'.get_action s' t' = T.get_action s' t') ∧
        (∀ s' X, T'.get_transition s' X = T.get_transition s' X)) := by
  unfold ParsingTable.get_action at hshift
  constructor
  · intro hlt
    refine ⟨T, ?_, hshift, fun _ _ _ => rfl, fun _ _ => rfl⟩
    simp [ParsingTable.add_reduction, hshift, hr, ht, Precedence.lt, hlt]
  · intro hgt
    refine ⟨{ T with action_table := T.action_table.assign ⟨s, t⟩ (Action.Reduce r) }, ?_, ?_, ?_,
      fun _ _ => rfl⟩
    · simp [ParsingTable.add_reduction, hshift, hr, ht, Precedence.lt, Precedence.gt, hgt,
        Nat.lt_asymm hgt]
    · simp [ParsingTable.get_action, TableMap.assign]
    · intro s' t' hne
      have hk : ¬ (({ state := s', symbol := t' } : StateAndSymbol) = ⟨s, t⟩) := by
        intro h
        injection h with h1 h2
        cases hne with
        | inl h => exact h h1
        | inr h => exact h h2
      simp [ParsingTable.get_action, TableMap.assign, hk]

/-- Witness of C1 on the expression grammar: state 5 (`E -> E + E .`) keeps the
shift on `*`, state 6 (`E -> E * E .`) reduces on `+`. -/
theorem add_reduction_precedence_resolution_witness :
    (∃ T', expr_shifts.add_reduction 5 sym_star rule_plus = Except.ok T' ∧
        T'.get_action 5 sym_star = some (Action.Shift 4) ∧
        (∀ s' t', (s' ≠ 5 ∨ t' ≠ sym_star) →
          T'.get_action s' t' = expr_shifts.get_action s' t') ∧
        (∀ s' X, T'.get_transition s' X = expr_shifts.get_transition s' X)) ∧
    (∃ T', expr_shifts.add_reduction 6 sym_plus rule_star = Except.ok T' ∧
        T'.get_action 6 sym_plus = some (Action.Reduce rule_star) ∧
        (∀ s' t', (s' ≠ 6 ∨ t' ≠ sym_plus) →
          T'.get_action s' t' = expr_shifts.get_action s' t') ∧
        (∀ s' X, T'.get_transition s' X = expr_shifts.get_transition s' X)) :=
  ⟨(add_reduction_precedence_resolution expr_shifts 5 4 sym_star rule_plus
      ⟨1, Associativity.Left⟩ ⟨2, Associativity.Left⟩ (by decide) (by decide) (by decide)).1
      (by decide),
   (add_reduction_precedence_resolution expr_shifts 6 3 sym_plus rule_star
      ⟨2, Associativity.Left⟩ ⟨1, Associativity.Left⟩ (by decide) (by decide) (by decide)).2
      (by decide)⟩

/-- C2 (the code departs from the claim). Two reductions colliding on one slot
are resolved silently when the precedences differ: after `Reduce(A -> a)` is
placed at `(7, +)`, registering `B -> a` there (stack precedence 2 from `a`,
lookahead `+` of precedence 1) reports no conflict and overwrites the entry
with `Reduce(B -> a)`; registering `C -> +` (stack precedence 1) on the
lookahead `a` of precedence 2 over `Reduce(A -> a)` reports no conflict and
keeps the existing reduce. -/
theorem add_reduction_reduce_reduce_silent :
    (∃ T1 T2, ParsingTable.empty.add_reduction 7 sym_plus rule_A = Except.ok T1 ∧
      T1.get_action 7 sym_plus = some (Action.Reduce rule_A) ∧
      T1.add_reduction 7 sym_plus rule_B = Except.ok T2 ∧
      T2.get_action 7 sym_plus = some (Action.Reduce rule_B)) ∧
    (∃ T1 T2, ParsingTable.empty.add_reduction 7 sym_a rule_A = Except.ok T1 ∧
      T1.get_action 7 sym_a = some (Action.Reduce rule_A) ∧
      T1.add_reduction 7 sym_a rule_C = Except.ok T2 ∧
      T2.get_action 7 sym_a = some (Action.Reduce rule_A)) :=
  ⟨⟨_, _, rfl, by decide, rfl, by decide⟩, ⟨_, _, rfl, by decide, rfl, by decide⟩⟩

/-- The rule has no stack precedence when it declares none and its rightmost
terminal, if any, declares none. -/
theorem stack_prec_eq_none (r : Rule) (h1 : r.precedence = none)
    (h2 : ∀ op, r.get_rightmost_terminal = some op → op.precedence = none) :
    stack_prec r = none := by
  unfold stack_prec
  simp only [Rule.has_precedence, h1, Option.isSome_none]
  cases hrt : r.get_rightmost_terminal with
  | none => simp
  | some op => simp [Symbol.has_precedence, h2 op hrt]

/-- On an occupied slot, a missing precedence on either side makes
`add_reduction` fail with the conflict assertion on the table it was given. -/
theorem add_reduction_missing_precedence_conflict_aux (T : ParsingTable) (s : Nat) (t : Symbol)
    (r : Rule) (a : Action)
    (hocc : T.action_table ⟨s, t⟩ = some a)
    (hmiss : stack_prec r = none ∨ t.precedence = none) :
    T.add_reduction s t r = Except.error (Conflict.conflict, T) := by
  cases hmiss with
  | inl h => simp [ParsingTable.add_reduction, hocc, h]
  | inr h => cases hsp : stack_prec r <;> simp [ParsingTable.add_reduction, hocc, h, hsp]

/-- C3. Unresolvable conflict when a precedence is missing: when `(s, t)` holds
an action and either the rule has no stack precedence (no explicit precedence
and no rightmost terminal with a declared precedence) or the lookahead terminal
has no declared precedence, `add_reduction` fails with the conflict assertion
and the table is the one it was given, so the entry at `(s, t)` is unchanged. -/
theorem add_reduction_missing_precedence_conflict (T : ParsingTable) (s : Nat) (t : Symbol)
    (r : Rule) (a : Action)
    (hocc : T.get_action s t = some a)
    (hmiss : (r.precedence = none ∧
        ∀ op, r.get_rightmost_terminal = some op → op.precedence = none) ∨
      t.precedence = none) :
    T.add_reduction s t r = Except.error (Conflict.conflict, T) ∧
      T.get_action s t = some a := by
  refine ⟨?_, hocc⟩
  cases hmiss with
  | inl h =>
    exact add_reduction_missing_precedence_conflict_aux T s t r a hocc
      (Or.inl (stack_prec_eq_none r h.1 h.2))
  | inr h => exact add_reduction_missing_precedence_conflict_aux T s t r a hocc (Or.inr h)

/-- Witness of C3 on the dangling else: reducing `S -> if E then S` on `else`
against the shift of `else` is a conflict, and the shift stays in the table. -/
theorem add_reduction_missing_precedence_conflict_witness :
    dangling_shifts.add_reduction 9 sym_else rule_if_then =
        Except.error (Conflict.conflict, dangling_shifts) ∧
      dangling_shifts.get_action 9 sym_else = some (Action.Shift 10) :=
  add_reduction_missing_precedence_conflict dangling_shifts 9 sym_else rule_if_then
    (Action.Shift 10) (by decide) (Or.inr (by decide))

/-- C4. Equal precedence is never resolved silently: when `(s, t)` holds an
action and the stack precedence of the rule and the precedence of the terminal
both exist with equal levels, `add_reduction` fails with the conflict
assertion, leaving the table it was given: the existing entry is not kept as a
success and `Reduce r` is not written. -/
theorem add_reduction_equal_precedence_conflict (T : ParsingTable) (s : Nat) (t : Symbol)
    (r : Rule) (a : Action) (p_r p_t : Precedence)
    (hocc : T.get_action s t = some a)
    (hr : stack_prec r = some p_r) (ht : t.precedence = some p_t)
    (heq : p_r.level = p_t.level) :
    T.add_reduction s t r = Except.error (Conflict.conflict, T) := by
  unfold ParsingTable.get_action at hocc
  simp [ParsingTable.add_reduction, hocc, hr, ht, Precedence.lt, Precedence.gt, heq]

/-- Witness of C4 on the expression grammar: in state 5 (`E -> E + E .`) the
reduction on `+` meets the shift of `+` at equal precedence. -/
theorem add_reduction_equal_precedence_conflict_witness :
    expr_shifts.add_reduction 5 sym_plus rule_plus =
      Except.error (Conflict.conflict, expr_shifts) :=
  add_reduction_equal_precedence_conflict expr_shifts 5 sym_plus rule_plus (Action.Shift 3)
    ⟨1, Associativity.Left⟩ ⟨1, Associativity.Left⟩ (by decide) (by decide) (by decide) rfl

/-- The last terminal of `pre ++ op :: post` is `op` when `op` is terminal and
`post` holds no terminal. -/
theorem find_rightmost_terminal (pre post : List Symbol) (op : Symbol)
    (hop : op.is_terminal = true) (hpost : ∀ x ∈ post, x.is_terminal = false) :
    (pre ++ op :: post).reverse.find? Symbol.is_terminal = some op := by
  have hnone : post.reverse.find? Symbol.is_terminal = none := by
    rw [List.find?_eq_none]
    intro x hx
    simp [hpost x (List.mem_reverse.mp hx)]
  simp [List.find?_append, hnone, hop]

/-- C5. The stack precedence of a rule: the explicit precedence when the rule
declares one, whatever its rightmost terminal declares; otherwise the
precedence of the rightmost terminal, when there is one; otherwise none. The
other symbols of the right-hand side play no part: for a right-hand side
`pre ++ op :: post` whose last terminal is `op`, the result depends on the
explicit precedence and on `op` only. -/
theorem stack_prec_rule_precedence (r : Rule) :
    (∀ p, r.precedence = some p → stack_prec r = some p) ∧
    (r.precedence = none → ∀ op, r.get_rightmost_terminal = some op →
      stack_prec r = op.precedence) ∧
    (r.precedence = none → r.get_rightmost_terminal = none → stack_prec r = none) ∧
    (∀ pre post op, r.rhs = pre ++ op :: post → op.is_terminal = true →
      (∀ x ∈ post, x.is_terminal = false) →
      stack_prec r = match r.precedence with
        | some p => some p
        | none => op.precedence) ∧
    (r.precedence = none → (∀ x ∈ r.rhs, x.is_terminal = false) → stack_prec r = none) := by
  have hop : ∀ op : Symbol, r.precedence = none → r.get_rightmost_terminal = some op →
      stack_prec r = op.precedence := by
    intro op h1 h2
    unfold stack_prec
    cases hp : op.precedence <;>
      simp [Rule.has_precedence, h1, h2, Symbol.has_precedence, hp]
  refine ⟨?_, fun h1 op h2 => hop op h1 h2, ?_, ?_, ?_⟩
  · intro p hp
    simp [stack_prec, Rule.has_precedence, hp]
  · intro h1 h2
    simp [stack_prec, Rule.has_precedence, h1, h2]
  · intro pre post op hrhs hterm hpost
    cases hp : r.precedence with
    | some p => simp [stack_prec, Rule.has_precedence, hp]
    | none =>
      have hrt : r.get_rightmost_terminal = some op := by
        unfold Rule.get_rightmost_terminal
        rw [hrhs]
        exact find_rightmost_terminal pre post op hterm hpost
      simpa using hop op hp hrt
  · intro h1 hall
    have hrt : r.get_rightmost_terminal = none := by
      unfold Rule.get_rightmost_terminal
      rw [List.find?_eq_none]
      intro x hx
      simp [hall x (List.mem_reverse.mp hx)]
    simp [stack_prec, Rule.has_precedence, h1, hrt]

/-- Witness of C5: the explicit level 3 of `rule_neg` wins over the level 1 of
its rightmost terminal, and `E -> E + E` takes the level 1 of `+`. -/
theorem stack_prec_rule_precedence_witness :
    stack_prec rule_neg = some ⟨3, Associativity.Right⟩ ∧
      stack_prec rule_plus = sym_plus.precedence :=
  ⟨(stack_prec_rule_precedence rule_neg).1 ⟨3, Associativity.Right⟩ rfl,
   (stack_prec_rule_precedence rule_plus).2.2.2.1 [sym_E] [sym_E] sym_plus rfl rfl
     (by decide)⟩

/-- C6. Conflict-free reduce insertion and its frame: when the table has no
action at `(s, t)`, `add_reduction` reports no conflict whatever the
precedences are; afterwards the action at `(s, t)` is `Reduce r`, the action at
every other key is unchanged and the goto table is unchanged. -/
theorem add_reduction_unoccupied (T : ParsingTable) (s : Nat) (t : Symbol) (r : Rule)
    (hfree : T.get_action s t = none) :
    ∃ T', T.add_reduction s t r = Except.ok T' ∧
      T'.get_action s t = some (Action.Reduce r) ∧
      (∀ s' t', (s' ≠ s ∨ t' ≠ t) → T'.get_action s' t' = T.get_action s' t') ∧
      (∀ s' X, T'.get_transition s' X = T.get_transition s' X) := by
  unfold ParsingTable.get_action at hfree
  refine ⟨{ T with action_table := T.action_table.emplace ⟨s, t⟩ (Action.Reduce r) }, ?_, ?_, ?_,
    fun _ _ => rfl⟩
  · simp [ParsingTable.add_reduction, hfree]
  · simp [ParsingTable.get_action, TableMap.emplace, hfree]
  · intro s' t' hne
    have hk : ¬ (({ state := s', symbol := t' } : StateAndSymbol) = ⟨s, t⟩) := by
      intro h
      injection h with h1 h2
      cases hne with
      | inl h => exact h h1
      | inr h => exact h h2
    simp [ParsingTable.get_action, TableMap.emplace, hfree, hk]

/-- Witness of C6: the first reduction placed in an empty table. -/
theorem add_reduction_unoccupied_witness :
    ∃ T', ParsingTable.empty.add_reduction 7 sym_plus rule_A = Except.ok T' ∧
      T'.get_action 7 sym_plus = some (Action.Reduce rule_A) ∧
      (∀ s' t', (s' ≠ 7 ∨ t' ≠ sym_plus) →
        T'.get_action s' t' = ParsingTable.empty.get_action s' t') ∧
      (∀ s' X, T'.get_transition s' X = ParsingTable.empty.get_transition s' X) :=
  add_reduction_unoccupied ParsingTable.empty 7 sym_plus rule_A rfl

/-! ## Loops that stop at the first failed assertion -/

/-- A property that holds before a loop and is kept by every successful step
holds after the loop, when the loop completes. -/
theorem foldlM_ok_invariant {α β ε : Type} (f : β → α → Except ε β) (P : β → Prop) :
    ∀ (xs : List α) (init res : β), P init →
      (∀ acc x acc', x ∈ xs → P acc → f acc x = Except.ok acc' → P acc') →
      xs.foldlM f init = Except.ok res → P res := by
  intro xs
  induction xs with
  | nil =>
    intro init res hinit _ h
    simp only [List.foldlM_nil, pure, Except.pure, Except.ok.injEq] at h
    exact h ▸ hinit
  | cons x xs ih =>
    intro init res hinit hstep h
    rw [List.foldlM_cons] at h
    cases hfx : f init x with
    | error e =>
      rw [hfx] at h
      simp [bind, Except.bind] at h
    | ok acc' =>
      rw [hfx] at h
      simp only [bind, Except.bind] at h
      exact ih acc' res (hstep init x acc' (List.mem_cons_self _ _) hinit hfx)
        (fun a y a' hy => hstep a y a' (List.mem_cons_of_mem _ hy)) h

/-- A completed loop over `pre ++ x :: post` ran the step for `x` successfully,
between a completed loop over `pre` and a completed loop over `post`. -/
theorem foldlM_ok_split {α β ε : Type} (f : β → α → Except ε β) (x : α) (post : List α) :
    ∀ (pre : List α) (init res : β),
      (pre ++ x :: post).foldlM f init = Except.ok res →
      ∃ a b, pre.foldlM f init = Except.ok a ∧ f a x = Except.ok b ∧
        post.foldlM f b = Except.ok res := by
  intro pre
  induction pre with
  | nil =>
    intro init res h
    rw [List.nil_append, List.foldlM_cons] at h
    cases hfx : f init x with
    | error e =>
      rw [hfx] at h
      simp [bind, Except.bind] at h
    | ok b =>
      rw [hfx] at h
      simp only [bind, Except.bind] at h
      exact ⟨init, b, rfl, hfx, h⟩
  | cons y pre ih =>
    intro init res h
    rw [List.cons_append, List.foldlM_cons] at h
    cases hfy : f init y with
    | error e =>
      rw [hfy] at h
      simp [bind, Except.bind] at h
    | ok c =>
      rw [hfy] at h
      simp only [bind, Except.bind] at h
      obtain ⟨a, b, h1, h2, h3⟩ := ih c res h
      refine ⟨a, b, ?_, h2, h3⟩
      rw [List.foldlM_cons, hfy]
      simpa [bind, Except.bind] using h1

/-! ## Single steps of the table compiler -/

/-- Two keys differ when their states differ or their symbols differ. -/
theorem key_ne_of (s s' : Nat) (t t' : Symbol) (h : s' ≠ s ∨ t' ≠ t) :
    ¬ (({ state := s', symbol := t' } : StateAndSymbol) = ⟨s, t⟩) := by
  intro hk
  injection hk with h1 h2
  cases h with
  | inl h => exact h h1
  | inr h => exact h h2

/-- A successful `add_accept` found the slot free, wrote `Accept` there, kept
every other action and the goto table. -/
theorem add_accept_ok (T T' : ParsingTable) (s : Nat) (t : Symbol)
    (h : T.add_accept s t = Except.ok T') :
    T.action_table ⟨s, t⟩ = none ∧ T'.action_table ⟨s, t⟩ = some Action.Accept ∧
      (∀ k, k ≠ ⟨s, t⟩ → T'.action_table k = T.action_table k) ∧
      T'.goto_table = T.goto_table := by
  unfold ParsingTable.add_accept at h
  cases hfind : T.action_table ⟨s, t⟩ with
  | some a => simp [hfind] at h
  | none =>
    simp only [hfind, Except.ok.injEq] at h
    subst h
    refine ⟨rfl, ?_, ?_, rfl⟩
    · simp [TableMap.emplace, hfind]
    · intro k hk
      simp [TableMap.emplace, hfind, hk]

/-- A successful `add_state_transition` on a terminal found the action slot
free, wrote the shift there, kept every other action and the goto table. -/
theorem add_state_transition_terminal_ok (T T' : ParsingTable) (s d : Nat) (t : Symbol)
    (hterm : t.is_terminal = true)
    (h : T.add_state_transition s t d = Except.ok T') :
    T.action_table ⟨s, t⟩ = none ∧ T'.action_table ⟨s, t⟩ = some (Action.Shift d) ∧
      (∀ k, k ≠ ⟨s, t⟩ → T'.action_table k = T.action_table k) ∧
      T'.goto_table = T.goto_table := by
  unfold ParsingTable.add_state_transition at h
  simp only [hterm, if_true] at h
  cases hfind : T.action_table ⟨s, t⟩ with
  | some a => simp [hfind] at h
  | none =>
    simp only [hfind, Except.ok.injEq] at h
    subst h
    refine ⟨rfl, ?_, ?_, rfl⟩
    · simp [TableMap.emplace, hfind]
    · intro k hk
      simp [TableMap.emplace, hfind, hk]

/-- A successful `add_state_transition` on a nonterminal found the goto slot
free, wrote the destination there, kept every other goto entry and the action
table. -/
theorem add_state_transition_nonterminal_ok (T T' : ParsingTable) (s d : Nat) (t : Symbol)
    (hnt : t.is_nonterminal = true)
    (h : T.add_state_transition s t d = Except.ok T') :
    T.goto_table ⟨s, t⟩ = none ∧ T'.goto_table ⟨s, t⟩ = some d ∧
      (∀ k, k ≠ ⟨s, t⟩ → T'.goto_table k = T.goto_table k) ∧
      T'.action_table = T.action_table := by
  have hterm : t.is_terminal = false := by
    simp only [Symbol.is_nonterminal, decide_eq_true_eq] at hnt
    simp [Symbol.is_terminal, hnt]
  unfold ParsingTable.add_state_transition at h
  simp only [hterm, hnt, if_true, Bool.false_eq_true, if_false] at h
  cases hfind : T.goto_table ⟨s, t⟩ with
  | some a => simp [hfind] at h
  | none =>
    simp only [hfind, Except.ok.injEq] at h
    subst h
    refine ⟨rfl, ?_, ?_, rfl⟩
    · simp [TableMap.emplace, hfind]
    · intro k hk
      simp [TableMap.emplace, hfind, hk]

/-- A successful `add_state_transition` on a symbol that is neither terminal
nor nonterminal leaves the table as it is. -/
theorem add_state_transition_other_ok (T T' : ParsingTable) (s d : Nat) (t : Symbol)
    (hterm : t.is_terminal = false) (hnt : t.is_nonterminal = false)
    (h : T.add_state_transition s t d = Except.ok T') : T' = T := by
  unfold ParsingTable.add_state_transition at h
  simp only [hterm, hnt, Bool.false_eq_true, if_false, Except.ok.injEq] at h
  exact h.symm

/-- A successful `add_reduction` keeps the goto table and every action outside
its own slot. -/
theorem add_reduction_ok_frame (T T' : ParsingTable) (s : Nat) (t : Symbol) (r : Rule)
    (h : T.add_reduction s t r = Except.ok T') :
    (∀ k, k ≠ ⟨s, t⟩ → T'.action_table k = T.action_table k) ∧
      T'.goto_table = T.goto_table := by
  unfold ParsingTable.add_reduction at h
  cases hfind : T.action_table ⟨s, t⟩ with
  | none =>
    simp only [hfind, Except.ok.injEq] at h
    subst h
    refine ⟨?_, rfl⟩
    intro k hk
    simp [TableMap.emplace, hfind, hk]
  | some a =>
    simp only [hfind] at h
    split at h
    · split at h
      · simp only [Except.ok.injEq] at h
        subst h
        exact ⟨fun _ _ => rfl, rfl⟩
      · split at h
        · simp only [Except.ok.injEq] at h
          subst h
          refine ⟨?_, rfl⟩
          intro k hk
          simp [TableMap.assign, hk]
        · simp at h
    · simp at h

/-- A symbol is terminal, or nonterminal and not terminal, or neither. -/
theorem symbol_kind_cases (t : Symbol) :
    t.is_terminal = true ∨ (t.is_terminal = false ∧ t.is_nonterminal = true) ∨
      (t.is_terminal = false ∧ t.is_nonterminal = false) := by
  cases hk : t.kind <;> simp [Symbol.is_terminal, Symbol.is_nonterminal, hk]

/-- A successful `add_state_transition` never changes an action that is already
in the table. -/
theorem add_state_transition_keeps_actions (T T' : ParsingTable) (s d : Nat) (t : Symbol)
    (h : T.add_state_transition s t d = Except.ok T') (k : StateAndSymbol) (a : Action)
    (hk : T.action_table k = some a) : T'.action_table k = some a := by
  rcases symbol_kind_cases t with ht | ⟨ht, hn⟩ | ⟨ht, hn⟩
  · obtain ⟨hfree, _, hframe, _⟩ := add_state_transition_terminal_ok T T' s d t ht h
    have hne : k ≠ ⟨s, t⟩ := by
      intro heq
      rw [heq, hfree] at hk
      exact Option.noConfusion hk
    rw [hframe k hne]
    exact hk
  · obtain ⟨_, _, _, hact⟩ := add_state_transition_nonterminal_ok T T' s d t hn h
    rw [hact]
    exact hk
  · rw [add_state_transition_other_ok T T' s d t ht hn h]
    exact hk

/-- A successful `add_state_transition` never changes a goto entry that is
already in the table. -/
theorem add_state_transition_keeps_gotos (T T' : ParsingTable) (s d : Nat) (t : Symbol)
    (h : T.add_state_transition s t d = Except.ok T') (k : StateAndSymbol) (v : Nat)
    (hk : T.goto_table k = some v) : T'.goto_table k = some v := by
  rcases symbol_kind_cases t with ht | ⟨ht, hn⟩ | ⟨ht, hn⟩
  · obtain ⟨_, _, _, hgoto⟩ := add_state_transition_terminal_ok T T' s d t ht h
    rw [hgoto]
    exact hk
  · obtain ⟨hfree, _, hframe, _⟩ := add_state_transition_nonterminal_ok T T' s d t hn h
    have hne : k ≠ ⟨s, t⟩ := by
      intro heq
      rw [heq, hfree] at hk
      exact Option.noConfusion hk
    rw [hframe k hne]
    exact hk
  · rw [add_state_transition_other_ok T T' s d t ht hn h]
    exact hk

/-- Every goto entry after a successful `add_state_transition` was there
before, or is the destination just registered for a nonterminal. -/
theorem add_state_transition_goto_origin (T T' : ParsingTable) (s d : Nat) (t : Symbol)
    (h : T.add_state_transition s t d = Except.ok T') (k : StateAndSymbol) (v : Nat)
    (hk : T'.goto_table k = some v) :
    T.goto_table k = some v ∨ (k = ⟨s, t⟩ ∧ v = d ∧ t.is_nonterminal = true) := by
  rcases symbol_kind_cases t with ht | ⟨ht, hn⟩ | ⟨ht, hn⟩
  · obtain ⟨_, _, _, hgoto⟩ := add_state_transition_terminal_ok T T' s d t ht h
    left
    rw [← hgoto]
    exact hk
  · obtain ⟨_, hset, hframe, _⟩ := add_state_transition_nonterminal_ok T T' s d t hn h
    by_cases hkey : k = ⟨s, t⟩
    · right
      rw [hkey, hset] at hk
      exact ⟨hkey, (Option.some.inj hk).symm, hn⟩
    · left
      rw [← hframe k hkey]
      exact hk
  · left
    rw [add_state_transition_other_ok T T' s d t ht hn h] at hk
    exact hk

/-! ## The loop over the forward transitions of one state -/

/-- The completed transition loop keeps every action that was in the table. -/
theorem add_state_transitions_keeps_actions (idx : Nat) (trs : List (Symbol × Nat))
    (T T' : ParsingTable) (h : add_state_transitions idx trs T = Except.ok T')
    (k : StateAndSymbol) (a : Action) (hk : T.action_table k = some a) :
    T'.action_table k = some a :=
  foldlM_ok_invariant
    (fun (acc : ParsingTable) (tr : Symbol × Nat) => acc.add_state_transition idx tr.1 tr.2)
    (fun acc : ParsingTable => acc.action_table k = some a) trs T T' hk
    (fun acc tr acc' _ hacc hstep =>
      add_state_transition_keeps_actions acc acc' idx tr.2 tr.1 hstep k a hacc) h

/-- The completed transition loop keeps every goto entry that was in the
table. -/
theorem add_state_transitions_keeps_gotos (idx : Nat) (trs : List (Symbol × Nat))
    (T T' : ParsingTable) (h : add_state_transitions idx trs T = Except.ok T')
    (k : StateAndSymbol) (v : Nat) (hk : T.goto_table k = some v) :
    T'.goto_table k = some v :=
  foldlM_ok_invariant
    (fun (acc : ParsingTable) (tr : Symbol × Nat) => acc.add_state_transition idx tr.1 tr.2)
    (fun acc : ParsingTable => acc.goto_table k = some v) trs T T' hk
    (fun acc tr acc' _ hacc hstep =>
      add_state_transition_keeps_gotos acc acc' idx tr.2 tr.1 hstep k v hacc) h

/-- Every goto entry after the completed transition loop was there before, or
is a nonterminal transition of the list, registered for the state `idx`. -/
theorem add_state_transitions_goto_origin (idx : Nat) (trs : List (Symbol × Nat))
    (T T' : ParsingTable) (h : add_state_transitions idx trs T = Except.ok T')
    (k : StateAndSymbol) (v : Nat) (hk : T'.goto_table k = some v) :
    T.goto_table k = some v ∨
      (k.state = idx ∧ (k.symbol, v) ∈ trs ∧ k.symbol.is_nonterminal = true) := by
  have hinv := foldlM_ok_invariant
    (fun (acc : ParsingTable) (tr : Symbol × Nat) => acc.add_state_transition idx tr.1 tr.2)
    (fun acc : ParsingTable => acc.goto_table k = some v → T.goto_table k = some v ∨
      (k.state = idx ∧ (k.symbol, v) ∈ trs ∧ k.symbol.is_nonterminal = true)) trs T T'
    (fun h0 => Or.inl h0)
    (fun acc tr acc' hmem hacc hstep hk' => by
      rcases add_state_transition_goto_origin acc acc' idx tr.2 tr.1 hstep k v hk' with
        hold | ⟨hkey, hv, hn⟩
      · exact hacc hold
      · right
        subst hkey
        subst hv
        exact ⟨rfl, hmem, hn⟩) h
  exact hinv hk

/-- After the completed transition loop every nonterminal transition of the
list is in the goto table. -/
theorem add_state_transitions_goto_complete (idx : Nat) (trs : List (Symbol × Nat))
    (T T' : ParsingTable) (h : add_state_transitions idx trs T = Except.ok T')
    (X : Symbol) (d : Nat) (hmem : (X, d) ∈ trs) (hn : X.is_nonterminal = true) :
    T'.goto_table ⟨idx, X⟩ = some d := by
  obtain ⟨pre, post, hsplit⟩ := List.append_of_mem hmem
  unfold add_state_transitions at h
  rw [hsplit] at h
  obtain ⟨a, b, _, hstep, hpost⟩ := foldlM_ok_split _ (X, d) post pre T T' h
  obtain ⟨_, hset, _, _⟩ := add_state_transition_nonterminal_ok a b idx d X hn hstep
  exact add_state_transitions_keeps_gotos idx post b T' hpost ⟨idx, X⟩ d hset

/-- After the completed transition loop every terminal transition of the list
is a shift in the action table. -/
theorem add_state_transitions_shift_complete (idx : Nat) (trs : List (Symbol × Nat))
    (T T' : ParsingTable) (h : add_state_transitions idx trs T = Except.ok T')
    (t : Symbol) (d : Nat) (hmem : (t, d) ∈ trs) (ht : t.is_terminal = true) :
    T'.action_table ⟨idx, t⟩ = some (Action.Shift d) := by
  obtain ⟨pre, post, hsplit⟩ := List.append_of_mem hmem
  unfold add_state_transitions at h
  rw [hsplit] at h
  obtain ⟨a, b, _, hstep, hpost⟩ := foldlM_ok_split _ (t, d) post pre T T' h
  obtain ⟨_, hset, _, _⟩ := add_state_transition_terminal_ok a b idx d t ht hstep
  exact add_state_transitions_keeps_actions idx post b T' hpost ⟨idx, t⟩ _ hset

/-! ## The loops over the reductions of one state -/

/-- The completed inner reduction loop keeps the goto table. -/
theorem add_reductions_of_rule_goto (idx : Nat) (rule : Rule) (syms : List Symbol)
    (T T' : ParsingTable) (h : add_reductions_of_rule idx rule syms T = Except.ok T') :
    T'.goto_table = T.goto_table :=
  foldlM_ok_invariant
    (fun (acc : ParsingTable) (sym : Symbol) => acc.add_reduction idx sym rule)
    (fun acc : ParsingTable => acc.goto_table = T.goto_table) syms T T' rfl
    (fun acc sym acc' _ hacc hstep =>
      (add_reduction_ok_frame acc acc' idx sym rule hstep).2.trans hacc) h

/-- The completed inner reduction loop keeps the action at every key that is
not `(idx, sym)` for a symbol `sym` of the lookahead list. -/
theorem add_reductions_of_rule_frame (idx : Nat) (rule : Rule) (syms : List Symbol)
    (T T' : ParsingTable) (h : add_reductions_of_rule idx rule syms T = Except.ok T')
    (k : StateAndSymbol) (hk : k.state ≠ idx ∨ k.symbol ∉ syms) :
    T'.action_table k = T.action_table k :=
  foldlM_ok_invariant
    (fun (acc : ParsingTable) (sym : Symbol) => acc.add_reduction idx sym rule)
    (fun acc : ParsingTable => acc.action_table k = T.action_table k) syms T T' rfl
    (fun acc sym acc' hmem hacc hstep => by
      have hne : k ≠ ⟨idx, sym⟩ := by
        intro heq
        subst heq
        cases hk with
        | inl h1 => exact h1 rfl
        | inr h2 => exact h2 hmem
      exact ((add_reduction_ok_frame acc acc' idx sym rule hstep).1 k hne).trans hacc) h

/-- The completed reduction loop of a state keeps the goto table. -/
theorem add_reductions_goto (L : Lookahead) (idx : Nat) (items : List Item)
    (T T' : ParsingTable) (h : add_reductions L idx items T = Except.ok T') :
    T'.goto_table = T.goto_table :=
  foldlM_ok_invariant
    (fun (acc : ParsingTable) (item : Item) =>
      add_reductions_of_rule idx item.get_rule (L idx item.get_rule) acc)
    (fun acc : ParsingTable => acc.goto_table = T.goto_table) items T T' rfl
    (fun acc item acc' _ hacc hstep =>
      (add_reductions_of_rule_goto idx item.get_rule _ acc acc' hstep).trans hacc) h

/-- The completed reduction loop of a state keeps the action at every key that
is not `(idx, sym)` for a symbol `sym` in the lookahead of one of the items. -/
theorem add_reductions_frame (L : Lookahead) (idx : Nat) (items : List Item)
    (T T' : ParsingTable) (h : add_reductions L idx items T = Except.ok T')
    (k : StateAndSymbol)
    (hk : k.state ≠ idx ∨ ∀ item ∈ items, k.symbol ∉ L idx item.get_rule) :
    T'.action_table k = T.action_table k :=
  foldlM_ok_invariant
    (fun (acc : ParsingTable) (item : Item) =>
      add_reductions_of_rule idx item.get_rule (L idx item.get_rule) acc)
    (fun acc : ParsingTable => acc.action_table k = T.action_table k) items T T' rfl
    (fun acc item acc' hmem hacc hstep => by
      have hk' : k.state ≠ idx ∨ k.symbol ∉ L idx item.get_rule := by
        cases hk with
        | inl h1 => exact Or.inl h1
        | inr h2 => exact Or.inr (h2 item hmem)
      exact (add_reductions_of_rule_frame idx item.get_rule _ acc acc' hstep k hk').trans hacc) h

/-- The elements `transform_if` outputs are the images of the elements that
satisfy the predicate. -/
theorem mem_transform_if {α β : Type} (pred : α → Bool) (op : α → β) (y : β) :
    ∀ xs : List α, y ∈ transform_if xs pred op ↔ ∃ x ∈ xs, pred x = true ∧ op x = y := by
  intro xs
  induction xs with
  | nil => simp [transform_if]
  | cons x rest ih =>
    unfold transform_if
    by_cases hp : pred x = true
    · simp only [hp, if_true, List.mem_cons, ih]
      constructor
      · rintro (h | ⟨z, hz, hpz, hop⟩)
        · exact ⟨x, Or.inl rfl, hp, h.symm⟩
        · exact ⟨z, Or.inr hz, hpz, hop⟩
      · rintro ⟨z, hz | hz, hpz, hop⟩
        · left
          rw [← hop, hz]
        · exact Or.inr ⟨z, hz, hpz, hop⟩
    · simp only [hp, if_false, List.mem_cons, ih, Bool.false_eq_true]
      constructor
      · rintro ⟨z, hz, hpz, hop⟩
        exact ⟨z, Or.inr hz, hpz, hop⟩
      · rintro ⟨z, hz | hz, hpz, hop⟩
        · rw [hz] at hpz
          exact absurd hpz hp
        · exact ⟨z, hz, hpz, hop⟩

/-- The production items of a state are its final items. -/
theorem mem_get_production_items (s : State) (item : Item) :
    item ∈ s.get_production_items ↔ item ∈ s.items ∧ item.is_final = true := by
  unfold State.get_production_items
  rw [mem_transform_if]
  constructor
  · rintro ⟨x, hx, hp, rfl⟩
    exact ⟨hx, hp⟩
  · rintro ⟨hx, hp⟩
    exact ⟨item, hx, hp, rfl⟩

/-! ## The loop body of `calculate` for one state -/

/-- A completed pass over one state is a completed accept step, a completed
transition loop and a completed reduction loop, in this order. -/
theorem calculate_state_ok (G : Grammar) (L : Lookahead) (T T' : ParsingTable) (st : State)
    (h : T.calculate_state G L st = Except.ok T') :
    ∃ T1 T2,
      (if st.is_accepting then T.add_accept st.index G.get_end_of_input_symbol
        else Except.ok T) = Except.ok T1 ∧
      add_state_transitions st.index st.get_transitions T1 = Except.ok T2 ∧
      add_reductions L st.index st.get_production_items T2 = Except.ok T' := by
  unfold ParsingTable.calculate_state at h
  by_cases hacc : st.is_accepting = true
  · simp only [hacc, if_true] at h ⊢
    cases h1 : T.add_accept st.index G.get_end_of_input_symbol with
    | error e =>
      rw [h1] at h
      simp [bind, Except.bind] at h
    | ok T1 =>
      rw [h1] at h
      simp only [bind, Except.bind] at h
      cases h2 : add_state_transitions st.index st.get_transitions T1 with
      | error e =>
        rw [h2] at h
        simp at h
      | ok T2 =>
        rw [h2] at h
        exact ⟨T1, T2, rfl, h2, h⟩
  · simp only [hacc, if_false, Bool.false_eq_true] at h ⊢
    simp only [bind, Except.bind, pure, Except.pure] at h
    cases h2 : add_state_transitions st.index st.get_transitions T with
    | error e =>
      rw [h2] at h
      simp at h
    | ok T2 =>
      rw [h2] at h
      exact ⟨T, T2, rfl, h2, h⟩

/-- The accept step of a state keeps every action already in the table and the
goto table. -/
theorem accept_step_keeps (G : Grammar) (T T1 : ParsingTable) (st : State)
    (h : (if st.is_accepting then T.add_accept st.index G.get_end_of_input_symbol
        else Except.ok T) = Except.ok T1) :
    (∀ k a, T.action_table k = some a → T1.action_table k = some a) ∧
      T1.goto_table = T.goto_table := by
  by_cases hacc : st.is_accepting = true
  · simp only [hacc, if_true] at h
    obtain ⟨hfree, _, hframe, hgoto⟩ := add_accept_ok T T1 st.index _ h
    refine ⟨?_, hgoto⟩
    intro k a hk
    have hne : k ≠ ⟨st.index, G.get_end_of_input_symbol⟩ := by
      intro heq
      rw [heq, hfree] at hk
      exact Option.noConfusion hk
    rw [hframe k hne]
    exact hk
  · simp only [hacc, if_false, Except.ok.injEq, Bool.false_eq_true] at h
    subst h
    exact ⟨fun _ _ hk => hk, rfl⟩

/-- Every goto entry after a completed pass over one state was there before, or
is a nonterminal transition of that state. -/
theorem calculate_state_goto_origin (G : Grammar) (L : Lookahead) (T T' : ParsingTable)
    (st : State) (h : T.calculate_state G L st = Except.ok T')
    (k : StateAndSymbol) (v : Nat) (hk : T'.goto_table k = some v) :
    T.goto_table k = some v ∨
      (k.state = st.index ∧ (k.symbol, v) ∈ st.transitions ∧
        k.symbol.is_nonterminal = true) := by
  obtain ⟨T1, T2, h1, h2, h3⟩ := calculate_state_ok G L T T' st h
  rw [add_reductions_goto L _ _ T2 T' h3] at hk
  rcases add_state_transitions_goto_origin _ _ T1 T2 h2 k v hk with hold | hnew
  · left
    rw [← (accept_step_keeps G T T1 st h1).2]
    exact hold
  · exact Or.inr hnew

/-- A completed pass over one state keeps every goto entry already in the
table. -/
theorem calculate_state_keeps_gotos (G : Grammar) (L : Lookahead) (T T' : ParsingTable)
    (st : State) (h : T.calculate_state G L st = Except.ok T')
    (k : StateAndSymbol) (v : Nat) (hk : T.goto_table k = some v) :
    T'.goto_table k = some v := by
  obtain ⟨T1, T2, h1, h2, h3⟩ := calculate_state_ok G L T T' st h
  rw [add_reductions_goto L _ _ T2 T' h3]
  apply add_state_transitions_keeps_gotos _ _ T1 T2 h2
  rw [(accept_step_keeps G T T1 st h1).2]
  exact hk

/-- After a completed pass over one state every nonterminal transition of that
state is in the goto table. -/
theorem calculate_state_goto_complete (G : Grammar) (L : Lookahead) (T T' : ParsingTable)
    (st : State) (h : T.calculate_state G L st = Except.ok T')
    (X : Symbol) (d : Nat) (hmem : (X, d) ∈ st.transitions) (hn : X.is_nonterminal = true) :
    T'.goto_table ⟨st.index, X⟩ = some d := by
  obtain ⟨T1, T2, _, h2, h3⟩ := calculate_state_ok G L T T' st h
  rw [add_reductions_goto L _ _ T2 T' h3]
  exact add_state_transitions_goto_complete _ _ T1 T2 h2 X d hmem hn

/-- A completed pass over one state keeps every action already in the table at
a key that is not a reduction key of that state. -/
theorem calculate_state_keeps_actions (G : Grammar) (L : Lookahead) (T T' : ParsingTable)
    (st : State) (h : T.calculate_state G L st = Except.ok T')
    (k : StateAndSymbol) (a : Action) (hk : T.action_table k = some a)
    (hfree : k.state ≠ st.index ∨
      ∀ item ∈ st.items, item.is_final = true → k.symbol ∉ L st.index item.get_rule) :
    T'.action_table k = some a := by
  obtain ⟨T1, T2, h1, h2, h3⟩ := calculate_state_ok G L T T' st h
  have hfree' : k.state ≠ st.index ∨
      ∀ item ∈ st.get_production_items, k.symbol ∉ L st.index item.get_rule := by
    cases hfree with
    | inl h => exact Or.inl h
    | inr h =>
      right
      intro item hitem
      obtain ⟨hi, hf⟩ := (mem_get_production_items st item).mp hitem
      exact h item hi hf
  rw [add_reductions_frame L _ _ T2 T' h3 k hfree']
  exact add_state_transitions_keeps_actions _ _ T1 T2 h2 k a
    ((accept_step_keeps G T T1 st h1).1 k a hk)

/-- After a completed pass over one state every terminal transition of that
state whose symbol is in no lookahead of a final item is a shift in the
table. -/
theorem calculate_state_shift_complete (G : Grammar) (L : Lookahead) (T T' : ParsingTable)
    (st : State) (h : T.calculate_state G L st = Except.ok T')
    (t : Symbol) (d : Nat) (hmem : (t, d) ∈ st.transitions) (ht : t.is_terminal = true)
    (hfree : ∀ item ∈ st.items, item.is_final = true → t ∉ L st.index item.get_rule) :
    T'.action_table ⟨st.index, t⟩ = some (Action.Shift d) := by
  obtain ⟨T1, T2, _, h2, h3⟩ := calculate_state_ok G L T T' st h
  have hfree' : (⟨st.index, t⟩ : StateAndSymbol).state ≠ st.index ∨
      ∀ item ∈ st.get_production_items,
        (⟨st.index, t⟩ : StateAndSymbol).symbol ∉ L st.index item.get_rule := by
    right
    intro item hitem
    obtain ⟨hi, hf⟩ := (mem_get_production_items st item).mp hitem
    exact hfree item hi hf
  rw [add_reductions_frame L _ _ T2 T' h3 _ hfree']
  exact add_state_transitions_shift_complete _ _ T1 T2 h2 t d hmem ht

/-! ## The compiled table -/

/-- In a list of states with pairwise distinct indices, the states after a
given one have another index. -/
theorem index_ne_of_nodup (pre post : List State) (s : State)
    (h : ((pre ++ s :: post).map State.index).Nodup) :
    ∀ st ∈ post, st.index ≠ s.index := by
  rw [List.map_append, List.map_cons] at h
  have h1 : (s.index :: post.map State.index).Nodup := (List.nodup_append.mp h).2.1
  have h2 : s.index ∉ post.map State.index := (List.nodup_cons.mp h1).1
  intro st hst heq
  apply h2
  rw [← heq]
  exact List.mem_map_of_mem _ hst

/-- Every goto entry of the compiled table is a nonterminal transition of a
state of the automaton. -/
theorem calculate_goto_origin (A : Automaton) (G : Grammar) (L : Lookahead) (T : ParsingTable)
    (hok : ParsingTable.empty.calculate A G L = Except.ok T)
    (k : StateAndSymbol) (v : Nat) (hk : T.goto_table k = some v) :
    ∃ st ∈ A.states, st.index = k.state ∧ (k.symbol, v) ∈ st.transitions ∧
      k.symbol.is_nonterminal = true := by
  have hinv := foldlM_ok_invariant
    (fun (acc : ParsingTable) (state : State) => acc.calculate_state G L state)
    (fun acc : ParsingTable => acc.goto_table k = some v →
      ∃ st ∈ A.states, st.index = k.state ∧ (k.symbol, v) ∈ st.transitions ∧
        k.symbol.is_nonterminal = true)
    A.get_states ParsingTable.empty T
    (fun h0 => by simp [ParsingTable.empty] at h0)
    (fun acc st acc' hmem hacc hstep hk' => by
      rcases calculate_state_goto_origin G L acc acc' st hstep k v hk' with hold | hnew
      · exact hacc hold
      · exact ⟨st, hmem, hnew.1.symm, hnew.2.1, hnew.2.2⟩) hok
  exact hinv hk

/-- C8. The goto table is exactly the nonterminal transitions: when `calculate`
completes without a conflict on an automaton whose states have pairwise
distinct indices, for every state `s` of the automaton and every symbol `X`,
`get_transition(s, X)` is `d` if and only if `X` is a nonterminal and `s` has
the forward transition `X -> d`; it is absent when `X` is not a nonterminal or
`s` has no transition on `X`. -/
theorem calculate_goto_exact (A : Automaton) (G : Grammar) (L : Lookahead) (T : ParsingTable)
    (hdistinct : (A.states.map State.index).Nodup)
    (hok : ParsingTable.empty.calculate A G L = Except.ok T)
    (s : State) (hs : s ∈ A.states) (X : Symbol) :
    (∀ d, T.get_transition s.index X = some d ↔
      (X.is_nonterminal = true ∧ (X, d) ∈ s.transitions)) ∧
    ((X.is_nonterminal = false ∨ ∀ d, (X, d) ∉ s.transitions) →
      T.get_transition s.index X = none) := by
  have hiff : ∀ d, T.get_transition s.index X = some d ↔
      (X.is_nonterminal = true ∧ (X, d) ∈ s.transitions) := by
    intro d
    constructor
    · intro hget
      obtain ⟨st, hst, hidx, hmem, hn⟩ := calculate_goto_origin A G L T hok ⟨s.index, X⟩ d hget
      have hsame : st = s := List.inj_on_of_nodup_map hdistinct hst hs hidx
      rw [hsame] at hmem
      exact ⟨hn, hmem⟩
    · rintro ⟨hn, hmem⟩
      obtain ⟨pre, post, hsplit⟩ := List.append_of_mem hs
      unfold ParsingTable.calculate Automaton.get_states at hok
      rw [hsplit] at hok
      obtain ⟨a, b, _, hstep, hpost⟩ := foldlM_ok_split _ s post pre _ T hok
      have hset := calculate_state_goto_complete G L a b s hstep X d hmem hn
      exact foldlM_ok_invariant
        (fun (acc : ParsingTable) (state : State) => acc.calculate_state G L state)
        (fun acc : ParsingTable => acc.goto_table ⟨s.index, X⟩ = some d) post b T hset
        (fun acc st acc' _ hacc hst =>
          calculate_state_keeps_gotos G L acc acc' st hst _ d hacc) hpost
  refine ⟨hiff, ?_⟩
  intro habsent
  cases hget : T.get_transition s.index X with
  | none => rfl
  | some d =>
    obtain ⟨hn, hmem⟩ := (hiff d).mp hget
    cases habsent with
    | inl h => rw [h] at hn; exact absurd hn (by simp)
    | inr h => exact absurd hmem (h d)

/-- Witness of C8 on the tiny automaton: state 0 has the goto `S -> 1` and no
goto on the terminal `id`. -/
theorem calculate_goto_exact_witness :
    (∀ d, tiny_table.get_transition 0 sym_S = some d ↔
      (sym_S.is_nonterminal = true ∧
        (sym_S, d) ∈ [(sym_S, 1), (sym_id, 2)])) ∧
    ((sym_S.is_nonterminal = false ∨ ∀ d, (sym_S, d) ∉ [(sym_S, 1), (sym_id, 2)]) →
      tiny_table.get_transition 0 sym_S = none) :=
  calculate_goto_exact tiny_automaton tiny_grammar tiny_lookahead tiny_table (by decide) rfl
    ⟨0, [⟨rule_start, 0⟩, ⟨rule_S_id, 0⟩], [(sym_S, 1), (sym_id, 2)], []⟩
    (List.mem_cons_self _ _) sym_S

/-- C9. Shifts are in the compiled table: when `calculate` completes without a
conflict on an automaton whose states have pairwise distinct indices, for every
state `s` and every terminal `t` such that `s` has the forward transition
`t -> d` and no final item of `s` has `t` in its lookahead,
`get_action(s, t)` is `Shift d`. -/
theorem calculate_shift_present (A : Automaton) (G : Grammar) (L : Lookahead) (T : ParsingTable)
    (hdistinct : (A.states.map State.index).Nodup)
    (hok : ParsingTable.empty.calculate A G L = Except.ok T)
    (s : State) (hs : s ∈ A.states) (t : Symbol) (d : Nat)
    (ht : t.is_terminal = true) (hmem : (t, d) ∈ s.transitions)
    (hfree : ∀ item ∈ s.items, item.is_final = true → t ∉ L s.index item.get_rule) :
    T.get_action s.index t = some (Action.Shift d) := by
  obtain ⟨pre, post, hsplit⟩ := List.append_of_mem hs
  rw [hsplit] at hdistinct
  have hne := index_ne_of_nodup pre post s hdistinct
  unfold ParsingTable.calculate Automaton.get_states at hok
  rw [hsplit] at hok
  obtain ⟨a, b, _, hstep, hpost⟩ := foldlM_ok_split _ s post pre _ T hok
  have hset := calculate_state_shift_complete G L a b s hstep t d hmem ht hfree
  exact foldlM_ok_invariant
    (fun (acc : ParsingTable) (state : State) => acc.calculate_state G L state)
    (fun acc : ParsingTable => acc.action_table ⟨s.index, t⟩ = some (Action.Shift d))
    post b T hset
    (fun acc st acc' hst hacc hrun =>
      calculate_state_keeps_actions G L acc acc' st hrun _ _ hacc
        (Or.inl (fun h => hne st hst h.symm))) hpost

/-- Witness of C9 on the tiny automaton: state 0 shifts `id` to state 2. -/
theorem calculate_shift_present_witness :
    tiny_table.get_action 0 sym_id = some (Action.Shift 2) :=
  calculate_shift_present tiny_automaton tiny_grammar tiny_lookahead tiny_table (by decide) rfl
    ⟨0, [⟨rule_start, 0⟩, ⟨rule_S_id, 0⟩], [(sym_S, 1), (sym_id, 2)], []⟩
    (List.mem_cons_self _ _) sym_id 2 rfl (by decide) (by decide)

/-- A successful `add_reduction` on a lookahead symbol without a declared
precedence changes no action that is already in the table. -/
theorem add_reduction_keeps_actions_of_no_precedence (T T' : ParsingTable) (s : Nat)
    (t : Symbol) (r : Rule) (h : T.add_reduction s t r = Except.ok T')
    (k : StateAndSymbol) (a : Action) (hk : T.action_table k = some a)
    (hprec : k.symbol.precedence = none) : T'.action_table k = some a := by
  by_cases hkey : k = ⟨s, t⟩
  · subst hkey
    have hbad : T.add_reduction s t r = Except.error (Conflict.conflict, T) :=
      (add_reduction_missing_precedence_conflict_aux T s t r a hk (Or.inr hprec))
    rw [hbad] at h
    exact Except.noConfusion h
  · rw [(add_reduction_ok_frame T T' s t r h).1 k hkey]
    exact hk

/-- The completed reduction loop of a state changes no action that is already
in the table at a key whose symbol declares no precedence. -/
theorem add_reductions_keeps_actions_of_no_precedence (L : Lookahead) (idx : Nat)
    (items : List Item) (T T' : ParsingTable) (h : add_reductions L idx items T = Except.ok T')
    (k : StateAndSymbol) (a : Action) (hk : T.action_table k = some a)
    (hprec : k.symbol.precedence = none) : T'.action_table k = some a :=
  foldlM_ok_invariant
    (fun (acc : ParsingTable) (item : Item) =>
      add_reductions_of_rule idx item.get_rule (L idx item.get_rule) acc)
    (fun acc : ParsingTable => acc.action_table k = some a) items T T' hk
    (fun acc item acc' _ hacc hstep =>
      foldlM_ok_invariant
        (fun (acc2 : ParsingTable) (sym : Symbol) => acc2.add_reduction idx sym item.get_rule)
        (fun acc2 : ParsingTable => acc2.action_table k = some a)
        (L idx item.get_rule) acc acc' hacc
        (fun acc2 sym acc3 _ hacc2 hstep2 =>
          add_reduction_keeps_actions_of_no_precedence acc2 acc3 idx sym item.get_rule hstep2
            k a hacc2 hprec) hstep) h

/-- When the end-of-input symbol declares no precedence, or no final item of
the accepting state has the end of input in its lookahead, a completed
`calculate` on an automaton whose states have pairwise distinct indices has
`Accept` at `(s, end of input)` for every accepting state `s`. -/
theorem calculate_accept_present (A : Automaton) (G : Grammar) (L : Lookahead)
    (T : ParsingTable) (hdistinct : (A.states.map State.index).Nodup)
    (hok : ParsingTable.empty.calculate A G L = Except.ok T)
    (s : State) (hs : s ∈ A.states) (hacc : s.is_accepting = true)
    (hsafe : G.end_of_input_symbol.precedence = none ∨
      ∀ item ∈ s.items, item.is_final = true →
        G.end_of_input_symbol ∉ L s.index item.get_rule) :
    T.get_action s.index G.end_of_input_symbol = some Action.Accept := by
  obtain ⟨pre, post, hsplit⟩ := List.append_of_mem hs
  rw [hsplit] at hdistinct
  have hne := index_ne_of_nodup pre post s hdistinct
  unfold ParsingTable.calculate Automaton.get_states at hok
  rw [hsplit] at hok
  obtain ⟨a, b, _, hstep, hpost⟩ := foldlM_ok_split _ s post pre _ T hok
  obtain ⟨T1, T2, h1, h2, h3⟩ := calculate_state_ok G L a b s hstep
  simp only [hacc, if_true] at h1
  have hset1 := (add_accept_ok a T1 s.index _ h1).2.1
  have hset2 := add_state_transitions_keeps_actions _ _ T1 T2 h2 _ _ hset1
  have hset : b.action_table ⟨s.index, G.end_of_input_symbol⟩ = some Action.Accept := by
    cases hsafe with
    | inl hprec =>
      exact add_reductions_keeps_actions_of_no_precedence L _ _ T2 b h3 _ _ hset2 hprec
    | inr hfree =>
      rw [add_reductions_frame L _ _ T2 b h3 ⟨s.index, G.end_of_input_symbol⟩
        (Or.inr (fun item hitem =>
          hfree item ((mem_get_production_items s item).mp hitem).1
            ((mem_get_production_items s item).mp hitem).2))]
      exact hset2
  exact foldlM_ok_invariant
    (fun (acc : ParsingTable) (state : State) => acc.calculate_state G L state)
    (fun acc : ParsingTable =>
      acc.action_table ⟨s.index, G.end_of_input_symbol⟩ = some Action.Accept)
    post b T hset
    (fun acc st acc' hst hacc' hrun =>
      calculate_state_keeps_actions G L acc acc' st hrun _ _ hacc'
        (Or.inl (fun h => hne st hst h.symm))) hpost

/-- C7 (the code departs from the claim). On the automaton of `S' -> S`,
`S -> id` in which the end-of-input symbol declares precedence 1, the start
rule declares precedence 2 and the completed start rule has the end of input
in its lookahead, `calculate` completes without a conflict, state 1 is
accepting, and the action at `(1, end of input)` is the reduction of the start
rule: `add_reduction` overwrote the `Accept` that `add_accept` had placed. -/
theorem calculate_accept_overwritten :
    ∃ T, ParsingTable.empty.calculate ⟨start_states rule_start_prec⟩ ⟨sym_end_prec⟩
        (start_lookahead sym_end_prec) = Except.ok T ∧
      (⟨1, [⟨rule_start_prec, 1⟩], [], [(sym_S, [0])]⟩ : State) ∈
        start_states rule_start_prec ∧
      ((start_states rule_start_prec).map State.index).Nodup ∧
      State.is_accepting ⟨1, [⟨rule_start_prec, 1⟩], [], [(sym_S, [0])]⟩ = true ∧
      T.get_action 1 sym_end_prec = some (Action.Reduce rule_start_prec) ∧
      T.get_action 1 sym_end_prec ≠ some Action.Accept :=
  ⟨_, rfl, by decide, by decide, by decide, by decide, by decide⟩

/-! ## `State::add_item` -/

/-- An item below another in the item order is not equal to it. -/
theorem Item.eq_false_of_lt (a b : Item) (h : Item.lt a b = true) : Item.eq a b = false := by
  cases heq : Item.eq a b with
  | false => rfl
  | true =>
    simp only [Item.lt, Item.eq, Bool.or_eq_true, Bool.and_eq_true, decide_eq_true_eq] at h heq
    omega

/-- The item order respects item equality on the right. -/
theorem Item.lt_of_lt_of_eq (a b c : Item) (h1 : Item.lt a b = true) (h2 : Item.eq b c = true) :
    Item.lt a c = true := by
  simp only [Item.lt, Item.eq, Bool.or_eq_true, Bool.and_eq_true, decide_eq_true_eq] at h1 h2 ⊢
  omega

/-- Item equality is reflexive. -/
theorem Item.eq_self (a : Item) : Item.eq a a = true := by
  simp [Item.eq]

/-- The position `lower_bound` returns splits the list into the items below
the needle and the rest: the element at that position is the head of the rest
and inserting there places the needle between the two parts. -/
theorem lower_bound_split (x : Item) : ∀ l : List Item,
    l.get? (lower_bound l x) = (l.dropWhile (fun left => Item.lt left x)).head? ∧
      insert_at l (lower_bound l x) x =
        l.takeWhile (fun left => Item.lt left x) ++
          x :: l.dropWhile (fun left => Item.lt left x) := by
  intro l
  induction l with
  | nil => simp [lower_bound, insert_at]
  | cons a rest ih =>
    unfold lower_bound insert_at at ih ⊢
    by_cases hp : Item.lt a x = true
    · simp only [List.takeWhile_cons, hp, if_true, List.length_cons, List.get?_cons_succ,
        List.dropWhile_cons, List.take_succ_cons, List.drop_succ_cons, List.cons_append]
      exact ⟨ih.1, congrArg (List.cons a) ih.2⟩
    · simp [List.takeWhile_cons, List.dropWhile_cons, hp]

/-- The first element `dropWhile` keeps fails the predicate. -/
theorem dropWhile_head_false {α : Type} (p : α → Bool) (found : α) (rest : List α) :
    ∀ l : List α, l.dropWhile p = found :: rest → p found = false := by
  intro l
  induction l with
  | nil => intro h; simp at h
  | cons a l ih =>
    intro h
    by_cases hp : p a = true
    · rw [List.dropWhile_cons, if_pos hp] at h
      exact ih h
    · rw [List.dropWhile_cons, if_neg hp] at h
      injection h with h1 _
      rw [← h1]
      simpa using hp

/-- C10. `State::add_item` reports novelty and implements set insertion: on a
state whose items are strictly increasing in the item order, the flag is true
if and only if no item equal to `x` was in the state; when it is true the new
items are the old items plus `x` and the size grows by one; when it is false
the item sequence is unchanged; in both cases the returned item equals `x`. -/
theorem add_item_set_insertion (s : State) (x : Item)
    (hsorted : s.items.Pairwise (fun a b => Item.lt a b = true)) :
    ((s.add_item x).2.2 = true ↔ ∀ y ∈ s.items, Item.eq y x = false) ∧
    ((s.add_item x).2.2 = true →
      (s.add_item x).1.items.Perm (x :: s.items) ∧ (s.add_item x).1.size = s.size + 1) ∧
    ((s.add_item x).2.2 = false → (s.add_item x).1.items = s.items) ∧
    Item.eq (s.add_item x).2.1 x = true := by
  obtain ⟨hget, hins⟩ := lower_bound_split x s.items
  have htd := List.takeWhile_append_dropWhile (fun left => Item.lt left x) s.items
  have htw : ∀ y ∈ s.items.takeWhile (fun left => Item.lt left x), Item.lt y x = true := by
    intro y hy
    have hp := List.mem_takeWhile_imp hy
    exact hp
  have hperm : (insert_at s.items (lower_bound s.items x) x).Perm (x :: s.items) := by
    rw [hins]
    conv_rhs => rw [← htd]
    exact List.perm_middle
  have hlen : (insert_at s.items (lower_bound s.items x) x).length = s.items.length + 1 := by
    rw [hperm.length_eq, List.length_cons]
  cases hdw : s.items.dropWhile (fun left => Item.lt left x) with
  | nil =>
    rw [hdw, List.head?_nil] at hget
    have hall : ∀ y ∈ s.items, Item.eq y x = false := by
      intro y hy
      rw [← htd, hdw, List.append_nil] at hy
      exact Item.eq_false_of_lt y x (htw y hy)
    have hadd : s.add_item x =
        ({ s with items := insert_at s.items (lower_bound s.items x) x }, x, true) := by
      simp only [State.add_item, hget]
    rw [hadd]
    exact ⟨⟨fun _ => hall, fun _ => rfl⟩, fun _ => ⟨hperm, hlen⟩,
      fun h => Bool.noConfusion h, Item.eq_self x⟩
  | cons found rest =>
    rw [hdw, List.head?_cons] at hget
    have hnlt : Item.lt found x = false :=
      dropWhile_head_false (fun left => Item.lt left x) found rest s.items hdw
    by_cases hne : Item.ne found x = true
    · have hfx : Item.eq found x = false := by
        simpa [Item.ne] using hne
      have hall : ∀ y ∈ s.items, Item.eq y x = false := by
        intro y hy
        rw [← htd, hdw, List.mem_append, List.mem_cons] at hy
        rcases hy with hy | hy | hy
        · exact Item.eq_false_of_lt y x (htw y hy)
        · rw [hy]
          exact hfx
        · cases hyx : Item.eq y x with
          | false => rfl
          | true =>
            rw [← htd, hdw] at hsorted
            have hfy : Item.lt found y = true :=
              List.rel_of_pairwise_cons (List.pairwise_append.mp hsorted).2.1 hy
            rw [Item.lt_of_lt_of_eq found y x hfy hyx] at hnlt
            exact absurd hnlt (by simp)
      have hadd : s.add_item x =
          ({ s with items := insert_at s.items (lower_bound s.items x) x }, x, true) := by
        simp only [State.add_item, hget, hne, if_true]
      rw [hadd]
      exact ⟨⟨fun _ => hall, fun _ => rfl⟩, fun _ => ⟨hperm, hlen⟩,
        fun h => Bool.noConfusion h, Item.eq_self x⟩
    · have hfx : Item.eq found x = true := by
        simpa [Item.ne] using hne
      have hfound : found ∈ s.items := by
        rw [← htd, hdw]
        exact List.mem_append_right _ (List.mem_cons_self _ _)
      have hadd : s.add_item x = (s, found, false) := by
        simp only [State.add_item, hget, hne, if_false, Bool.false_eq_true]
      rw [hadd]
      refine ⟨⟨fun h => Bool.noConfusion h, fun h => ?_⟩, fun h => Bool.noConfusion h,
        fun _ => rfl, hfx⟩
      rw [h found hfound] at hfx
      exact Bool.noConfusion hfx

/-- Witness of C10: inserting `E -> E * E .` after position 1 into a sorted
state that holds `E -> E + E .` (dot at 3) and `E -> . E * E`. -/
theorem add_item_set_insertion_witness :
    ((State.add_item ⟨0, [⟨rule_plus, 3⟩, ⟨rule_star, 0⟩], [], []⟩ ⟨rule_star, 3⟩).2.2 = true ↔
      ∀ y ∈ [(⟨rule_plus, 3⟩ : Item), ⟨rule_star, 0⟩], Item.eq y ⟨rule_star, 3⟩ = false) ∧
    ((State.add_item ⟨0, [⟨rule_plus, 3⟩, ⟨rule_star, 0⟩], [], []⟩ ⟨rule_star, 3⟩).2.2 = true →
      (State.add_item ⟨0, [⟨rule_plus, 3⟩, ⟨rule_star, 0⟩], [], []⟩ ⟨rule_star, 3⟩).1.items.Perm
          [⟨rule_star, 3⟩, ⟨rule_plus, 3⟩, ⟨rule_star, 0⟩] ∧
        (State.add_item ⟨0, [⟨rule_plus, 3⟩, ⟨rule_star, 0⟩], [], []⟩ ⟨rule_star, 3⟩).1.size =
          2 + 1) ∧
    ((State.add_item ⟨0, [⟨rule_plus, 3⟩, ⟨rule_star, 0⟩], [], []⟩ ⟨rule_star, 3⟩).2.2 = false →
      (State.add_item ⟨0, [⟨rule_plus, 3⟩, ⟨rule_star, 0⟩], [], []⟩ ⟨rule_star, 3⟩).1.items =
        [⟨rule_plus, 3⟩, ⟨rule_star, 0⟩]) ∧
    Item.eq (State.add_item ⟨0, [⟨rule_plus, 3⟩, ⟨rule_star, 0⟩], [], []⟩ ⟨rule_star, 3⟩).2.1
      ⟨rule_star, 3⟩ = true :=
  add_item_set_insertion ⟨0, [⟨rule_plus, 3⟩, ⟨rule_star, 0⟩], [], []⟩ ⟨rule_star, 3⟩
    (by decide)

/-! ## The sorted item invariant -/

/-- The item order is transitive. -/
theorem Item.lt_trans (a b c : Item) (h1 : Item.lt a b = true) (h2 : Item.lt b c = true) :
    Item.lt a c = true := by
  simp only [Item.lt, Bool.or_eq_true, Bool.and_eq_true, decide_eq_true_eq] at h1 h2 ⊢
  omega

/-- The item order is total up to item equality. -/
theorem Item.lt_of_not_lt_of_ne (a b : Item) (h1 : Item.lt a b = false)
    (h2 : Item.eq a b = false) : Item.lt b a = true := by
  cases h3 : Item.lt b a with
  | true => rfl
  | false =>
    have e1 : ¬ (Item.lt a b = true) := by simp [h1]
    have e2 : ¬ (Item.eq a b = true) := by simp [h2]
    have e3 : ¬ (Item.lt b a = true) := by simp [h3]
    simp only [Item.lt, Item.eq, Bool.or_eq_true, Bool.and_eq_true, decide_eq_true_eq] at e1 e2 e3
    omega

/-- The two outcomes of `add_item`: either the item at the lower bound equals
the needle and the state is returned as it is, or the needle is placed between
the items below it and the rest, whose first item is not equal to it. -/
theorem add_item_cases (s : State) (x : Item) :
    ((s.add_item x).2.2 = false ∧ (s.add_item x).1 = s ∧
      ∃ found rest, s.items.dropWhile (fun left => Item.lt left x) = found :: rest ∧
        Item.eq found x = true) ∨
    ((s.add_item x).2.2 = true ∧
      (s.add_item x).1 = State.mk s.index (s.items.takeWhile (fun left => Item.lt left x) ++
        x :: s.items.dropWhile (fun left => Item.lt left x)) s.transitions s.back_transitions ∧
      ∀ found rest, s.items.dropWhile (fun left => Item.lt left x) = found :: rest →
        Item.eq found x = false) := by
  obtain ⟨hget, hins⟩ := lower_bound_split x s.items
  cases hdw : s.items.dropWhile (fun left => Item.lt left x) with
  | nil =>
    rw [hdw, List.head?_nil] at hget
    rw [hdw] at hins
    right
    have hadd : s.add_item x =
        ({ s with items := insert_at s.items (lower_bound s.items x) x }, x, true) := by
      simp only [State.add_item, hget]
    rw [hadd, hins]
    exact ⟨rfl, rfl, fun _ _ h => List.noConfusion h⟩
  | cons found rest =>
    rw [hdw, List.head?_cons] at hget
    rw [hdw] at hins
    by_cases hne : Item.ne found x = true
    · right
      have hfx : Item.eq found x = false := by
        simpa [Item.ne] using hne
      have hadd : s.add_item x =
          ({ s with items := insert_at s.items (lower_bound s.items x) x }, x, true) := by
        simp only [State.add_item, hget, hne, if_true]
      rw [hadd, hins]
      refine ⟨rfl, rfl, ?_⟩
      intro f r h
      injection h with h1 _
      rw [← h1]
      exact hfx
    · left
      have hfx : Item.eq found x = true := by
        simpa [Item.ne] using hne
      have hadd : s.add_item x = (s, found, false) := by
        simp only [State.add_item, hget, hne, if_false, Bool.false_eq_true]
      rw [hadd]
      exact ⟨rfl, rfl, found, rest, rfl, hfx⟩

/-- The member `add_item` keeps the items strictly increasing. -/
theorem add_item_sorted (s : State) (x : Item)
    (hsorted : s.items.Pairwise (fun a b => Item.lt a b = true)) :
    (s.add_item x).1.items.Pairwise (fun a b => Item.lt a b = true) := by
  rcases add_item_cases s x with ⟨_, hsame, _⟩ | ⟨_, hnew, hhead⟩
  · rw [hsame]
    exact hsorted
  · rw [hnew]
    have htd := List.takeWhile_append_dropWhile (fun left => Item.lt left x) s.items
    rw [← htd] at hsorted
    obtain ⟨htw, hdw, hcross⟩ := List.pairwise_append.mp hsorted
    have hbelow : ∀ y ∈ s.items.takeWhile (fun left => Item.lt left x),
        Item.lt y x = true := by
      intro y hy
      have hp := List.mem_takeWhile_imp hy
      exact hp
    have habove : ∀ y ∈ s.items.dropWhile (fun left => Item.lt left x),
        Item.lt x y = true := by
      intro y hy
      cases hd : s.items.dropWhile (fun left => Item.lt left x) with
      | nil => rw [hd] at hy; exact absurd hy (List.not_mem_nil y)
      | cons found rest =>
        have hnlt : Item.lt found x = false :=
          dropWhile_head_false (fun left => Item.lt left x) found rest s.items hd
        have hxf : Item.lt x found = true :=
          Item.lt_of_not_lt_of_ne found x hnlt (hhead found rest hd)
        rw [hd] at hy hdw
        rcases List.mem_cons.mp hy with hy | hy
        · rw [hy]
          exact hxf
        · exact Item.lt_trans x found y hxf (List.rel_of_pairwise_cons hdw hy)
    show (s.items.takeWhile (fun left => Item.lt left x) ++
      x :: s.items.dropWhile (fun left => Item.lt left x)).Pairwise
        (fun a b => Item.lt a b = true)
    refine List.pairwise_append.mpr ⟨htw, List.pairwise_cons.mpr ⟨habove, hdw⟩, ?_⟩
    intro a ha b hb
    rcases List.mem_cons.mp hb with hb | hb
    · rw [hb]
      exact hbelow a ha
    · exact hcross a ha b hb

/-- A sequence of `add_item` calls keeps the items strictly increasing. -/
theorem add_items_sorted (xs : List Item) : ∀ s : State,
    s.items.Pairwise (fun a b => Item.lt a b = true) →
    (s.add_items xs).items.Pairwise (fun a b => Item.lt a b = true) := by
  induction xs with
  | nil => intro s h; exact h
  | cons x rest ih =>
    intro s h
    exact ih (s.add_item x).1 (add_item_sorted s x h)

/-- C11. The sorted, duplicate-free item invariant: `add_item` keeps the items
strictly increasing in the item order (rule identity, then dot position), and
every state obtained from a state without items by any sequence of `add_item`
calls has its items strictly increasing, hence no two of them equal. -/
theorem add_item_sorted_invariant :
    (∀ (s : State) (x : Item), s.items.Pairwise (fun a b => Item.lt a b = true) →
      (s.add_item x).1.items.Pairwise (fun a b => Item.lt a b = true)) ∧
    (∀ (s0 : State) (xs : List Item), s0.items = [] →
      (s0.add_items xs).items.Pairwise (fun a b => Item.lt a b = true) ∧
      (s0.add_items xs).items.Pairwise (fun a b => Item.eq a b = false)) := by
  refine ⟨add_item_sorted, ?_⟩
  intro s0 xs hempty
  have hsorted : (s0.add_items xs).items.Pairwise (fun a b => Item.lt a b = true) := by
    apply add_items_sorted
    rw [hempty]
    exact List.Pairwise.nil
  exact ⟨hsorted, hsorted.imp (fun {a b} h => Item.eq_false_of_lt a b h)⟩

/-- Witness of C11: three items added out of order, one of them twice, to a
state without items. -/
theorem add_item_sorted_invariant_witness :
    (State.add_items ⟨0, [], [], []⟩
        [⟨rule_star, 3⟩, ⟨rule_plus, 3⟩, ⟨rule_star, 3⟩, ⟨rule_star, 0⟩]).items.Pairwise
      (fun a b => Item.lt a b = true) ∧
    (State.add_items ⟨0, [], [], []⟩
        [⟨rule_star, 3⟩, ⟨rule_plus, 3⟩, ⟨rule_star, 3⟩, ⟨rule_star, 0⟩]).items.Pairwise
      (fun a b => Item.eq a b = false) :=
  add_item_sorted_invariant.2 ⟨0, [], [], []⟩
    [⟨rule_star, 3⟩, ⟨rule_plus, 3⟩, ⟨rule_star, 3⟩, ⟨rule_star, 0⟩] rfl

/-! ## State equality -/

/-- Item equality is symmetric. -/
theorem Item.eq_symm (a b : Item) (h : Item.eq a b = true) : Item.eq b a = true := by
  simp only [Item.eq, Bool.and_eq_true, decide_eq_true_eq] at h ⊢
  omega

/-- Item equality is transitive. -/
theorem Item.eq_trans (a b c : Item) (h1 : Item.eq a b = true) (h2 : Item.eq b c = true) :
    Item.eq a c = true := by
  simp only [Item.eq, Bool.and_eq_true, decide_eq_true_eq] at h1 h2 ⊢
  omega

/-- The item order is asymmetric. -/
theorem Item.lt_asymm (a b : Item) (h1 : Item.lt a b = true) (h2 : Item.lt b a = true) :
    False := by
  simp only [Item.lt, Bool.or_eq_true, Bool.and_eq_true, decide_eq_true_eq] at h1 h2
  omega

/-- The set of items of a list, up to item equality. -/
theorem std_equal_same_items (xs : List Item) : ∀ ys : List Item,
    std_equal xs ys = true →
    ∀ x, (∃ y ∈ xs, Item.eq y x = true) ↔ (∃ y ∈ ys, Item.eq y x = true) := by
  induction xs with
  | nil =>
    intro ys h x
    cases ys with
    | nil => exact Iff.rfl
    | cons b ys' => simp [std_equal] at h
  | cons a xs' ih =>
    intro ys h x
    cases ys with
    | nil => simp [std_equal] at h
    | cons b ys' =>
      simp only [std_equal, Bool.and_eq_true] at h
      have htail := ih ys' h.2 x
      constructor
      · rintro ⟨y, hy, hyx⟩
        rcases List.mem_cons.mp hy with hy | hy
        · subst hy
          exact ⟨b, List.mem_cons_self _ _, Item.eq_trans b y x (Item.eq_symm y b h.1) hyx⟩
        · obtain ⟨w, hw, hwx⟩ := htail.mp ⟨y, hy, hyx⟩
          exact ⟨w, List.mem_cons_of_mem _ hw, hwx⟩
      · rintro ⟨y, hy, hyx⟩
        rcases List.mem_cons.mp hy with hy | hy
        · subst hy
          exact ⟨a, List.mem_cons_self _ _, Item.eq_trans a y x h.1 hyx⟩
        · obtain ⟨w, hw, hwx⟩ := htail.mpr ⟨y, hy, hyx⟩
          exact ⟨w, List.mem_cons_of_mem _ hw, hwx⟩

/-- In a strictly increasing list headed by `a`, an item of the tail is not
equal to anything `a` is equal to. -/
theorem tail_item_ne_head (a x y : Item) (rest : List Item)
    (hsorted : (a :: rest).Pairwise (fun p q => Item.lt p q = true))
    (hy : y ∈ rest) (hyx : Item.eq y x = true) (hax : Item.eq a x = true) : False := by
  have hlt : Item.lt a y = true := List.rel_of_pairwise_cons hsorted hy
  have hlt2 : Item.lt a x = true := Item.lt_of_lt_of_eq a y x hlt hyx
  rw [Item.eq_false_of_lt a x hlt2] at hax
  exact Bool.noConfusion hax

/-- Two strictly increasing lists with the same items up to item equality are
equal position by position. -/
theorem std_equal_of_same_items (xs : List Item) : ∀ ys : List Item,
    xs.Pairwise (fun a b => Item.lt a b = true) →
    ys.Pairwise (fun a b => Item.lt a b = true) →
    (∀ x, (∃ y ∈ xs, Item.eq y x = true) ↔ (∃ y ∈ ys, Item.eq y x = true)) →
    std_equal xs ys = true := by
  induction xs with
  | nil =>
    intro ys _ _ hset
    cases ys with
    | nil => rfl
    | cons b ys' =>
      obtain ⟨y, hy, _⟩ := (hset b).mpr ⟨b, List.mem_cons_self _ _, Item.eq_self b⟩
      exact absurd hy (List.not_mem_nil y)
  | cons a xs' ih =>
    intro ys hxs hys hset
    cases ys with
    | nil =>
      obtain ⟨y, hy, _⟩ := (hset a).mp ⟨a, List.mem_cons_self _ _, Item.eq_self a⟩
      exact absurd hy (List.not_mem_nil y)
    | cons b ys' =>
      have hab : Item.eq a b = true := by
        obtain ⟨y, hy, hya⟩ := (hset a).mp ⟨a, List.mem_cons_self _ _, Item.eq_self a⟩
        obtain ⟨z, hz, hzb⟩ := (hset b).mpr ⟨b, List.mem_cons_self _ _, Item.eq_self b⟩
        rcases List.mem_cons.mp hy with hy | hy
        · subst hy
          exact Item.eq_symm y a hya
        · rcases List.mem_cons.mp hz with hz | hz
          · subst hz
            exact hzb
          · have h1 : Item.lt b a = true :=
              Item.lt_of_lt_of_eq b y a (List.rel_of_pairwise_cons hys hy) hya
            have h2 : Item.lt a b = true :=
              Item.lt_of_lt_of_eq a z b (List.rel_of_pairwise_cons hxs hz) hzb
            exact absurd (Item.lt_asymm a b h2 h1) id
      have htail : ∀ x, (∃ y ∈ xs', Item.eq y x = true) ↔ (∃ y ∈ ys', Item.eq y x = true) := by
        intro x
        constructor
        · rintro ⟨y, hy, hyx⟩
          obtain ⟨w, hw, hwx⟩ := (hset x).mp ⟨y, List.mem_cons_of_mem _ hy, hyx⟩
          rcases List.mem_cons.mp hw with hw | hw
          · subst hw
            exact absurd (tail_item_ne_head a x y xs' hxs hy hyx (Item.eq_trans a w x hab hwx)) id
          · exact ⟨w, hw, hwx⟩
        · rintro ⟨y, hy, hyx⟩
          obtain ⟨w, hw, hwx⟩ := (hset x).mpr ⟨y, List.mem_cons_of_mem _ hy, hyx⟩
          rcases List.mem_cons.mp hw with hw | hw
          · subst hw
            exact absurd (tail_item_ne_head b x y ys' hys hy hyx
              (Item.eq_trans b w x (Item.eq_symm w b hab) hwx)) id
          · exact ⟨w, hw, hwx⟩
      simp only [std_equal, Bool.and_eq_true]
      exact ⟨hab, ih ys' (List.Pairwise.of_cons hxs) (List.Pairwise.of_cons hys) htail⟩

/-- The items after `add_item`, up to item equality, are the items before and
the added item. -/
theorem add_item_same_items (s : State) (x z : Item) :
    (∃ y ∈ (s.add_item x).1.items, Item.eq y z = true) ↔
      ((∃ y ∈ s.items, Item.eq y z = true) ∨ Item.eq x z = true) := by
  have htd := List.takeWhile_append_dropWhile (fun left => Item.lt left x) s.items
  rcases add_item_cases s x with ⟨_, hsame, found, rest, hdw, hfx⟩ | ⟨_, hnew, _⟩
  · rw [hsame]
    constructor
    · exact fun h => Or.inl h
    · rintro (h | h)
      · exact h
      · refine ⟨found, ?_, Item.eq_trans found x z hfx h⟩
        rw [← htd, hdw]
        exact List.mem_append_right _ (List.mem_cons_self _ _)
  · rw [hnew]
    show (∃ y ∈ s.items.takeWhile (fun left => Item.lt left x) ++
      x :: s.items.dropWhile (fun left => Item.lt left x), Item.eq y z = true) ↔ _
    constructor
    · rintro ⟨y, hy, hyz⟩
      rcases List.mem_append.mp hy with hy | hy
      · left
        refine ⟨y, ?_, hyz⟩
        rw [← htd]
        exact List.mem_append_left _ hy
      · rcases List.mem_cons.mp hy with hy | hy
        · right
          rw [← hy]
          exact hyz
        · left
          refine ⟨y, ?_, hyz⟩
          rw [← htd]
          exact List.mem_append_right _ hy
    · rintro (⟨y, hy, hyz⟩ | h)
      · rw [← htd] at hy
        refine ⟨y, ?_, hyz⟩
        rcases List.mem_append.mp hy with hy | hy
        · exact List.mem_append_left _ hy
        · exact List.mem_append_right _ (List.mem_cons_of_mem _ hy)
      · exact ⟨x, List.mem_append_right _ (List.mem_cons_self _ _), h⟩

/-- The items after a sequence of `add_item` calls, up to item equality, are
the items before and the added items. -/
theorem add_items_same_items (xs : List Item) : ∀ (s : State) (z : Item),
    (∃ y ∈ (s.add_items xs).items, Item.eq y z = true) ↔
      ((∃ y ∈ s.items, Item.eq y z = true) ∨ (∃ y ∈ xs, Item.eq y z = true)) := by
  induction xs with
  | nil =>
    intro s z
    constructor
    · exact fun h => Or.inl h
    · rintro (h | ⟨y, hy, _⟩)
      · exact h
      · exact absurd hy (List.not_mem_nil y)
  | cons x rest ih =>
    intro s z
    show (∃ y ∈ ((s.add_item x).1.add_items rest).items, Item.eq y z = true) ↔ _
    rw [ih (s.add_item x).1 z, add_item_same_items s x z]
    constructor
    · rintro ((h | h) | ⟨y, hy, hyz⟩)
      · exact Or.inl h
      · exact Or.inr ⟨x, List.mem_cons_self _ _, h⟩
      · exact Or.inr ⟨y, List.mem_cons_of_mem _ hy, hyz⟩
    · rintro (h | ⟨y, hy, hyz⟩)
      · exact Or.inl (Or.inl h)
      · rcases List.mem_cons.mp hy with hy | hy
        · subst hy
          exact Or.inl (Or.inr hyz)
        · exact Or.inr ⟨y, hy, hyz⟩

/-- C12. State equality is item-set equality: for two states with strictly
sorted items, `s1 == s2` holds if and only if they hold the same items (up to
item equality); `!=` is its negation; the result is the same whatever the
indices, the forward transitions and the back-transitions are; and two states
built by `add_item` from the same items in any two orders are equal. -/
theorem state_eq_iff_same_items (s1 s2 : State)
    (h1 : s1.items.Pairwise (fun a b => Item.lt a b = true))
    (h2 : s2.items.Pairwise (fun a b => Item.lt a b = true)) :
    (State.eq s1 s2 = true ↔
      ∀ x, (∃ y ∈ s1.items, Item.eq y x = true) ↔ (∃ y ∈ s2.items, Item.eq y x = true)) ∧
    (State.ne s1 s2 = !(State.eq s1 s2)) ∧
    (∀ (i1 i2 : Nat) (t1 t2 : List (Symbol × Nat)) (b1 b2 : List (Symbol × List Nat)),
      State.eq ⟨i1, s1.items, t1, b1⟩ ⟨i2, s2.items, t2, b2⟩ = State.eq s1 s2) ∧
    (∀ (e1 e2 : State) (xs ys : List Item), e1.items = [] → e2.items = [] → xs.Perm ys →
      State.eq (e1.add_items xs) (e2.add_items ys) = true) := by
  refine ⟨⟨std_equal_same_items s1.items s2.items, std_equal_of_same_items s1.items s2.items h1 h2⟩,
    rfl, fun _ _ _ _ _ _ => rfl, ?_⟩
  intro e1 e2 xs ys he1 he2 hperm
  apply std_equal_of_same_items
  · apply add_items_sorted
    rw [he1]
    exact List.Pairwise.nil
  · apply add_items_sorted
    rw [he2]
    exact List.Pairwise.nil
  · intro x
    rw [add_items_same_items xs e1 x, add_items_same_items ys e2 x, he1, he2]
    constructor
    · rintro (⟨y, hy, _⟩ | ⟨y, hy, hyx⟩)
      · exact absurd hy (List.not_mem_nil y)
      · exact Or.inr ⟨y, hperm.mem_iff.mp hy, hyx⟩
    · rintro (⟨y, hy, _⟩ | ⟨y, hy, hyx⟩)
      · exact absurd hy (List.not_mem_nil y)
      · exact Or.inr ⟨y, hperm.mem_iff.mpr hy, hyx⟩

/-- Witness of C12: two states with the same two items, different indices and
different transitions. -/
theorem state_eq_iff_same_items_witness :
    State.eq ⟨0, [⟨rule_plus, 3⟩, ⟨rule_star, 0⟩], [(sym_plus, 3)], []⟩
        ⟨7, [⟨rule_plus, 3⟩, ⟨rule_star, 0⟩], [], [(sym_E, [0])]⟩ = true ↔
      ∀ x, (∃ y ∈ [(⟨rule_plus, 3⟩ : Item), ⟨rule_star, 0⟩], Item.eq y x = true) ↔
        (∃ y ∈ [(⟨rule_plus, 3⟩ : Item), ⟨rule_star, 0⟩], Item.eq y x = true) :=
  (state_eq_iff_same_items ⟨0, [⟨rule_plus, 3⟩, ⟨rule_star, 0⟩], [(sym_plus, 3)], []⟩
    ⟨7, [⟨rule_plus, 3⟩, ⟨rule_star, 0⟩], [], [(sym_E, [0])]⟩ (by decide) (by decide)).1

/-! ## Hash maps kept as association lists -/

/-- A key has no entry exactly when it is not among the keys. -/
theorem map_find_eq_none_iff {K V : Type} [DecidableEq K] (k : K) :
    ∀ m : List (K × V), map_find m k = none ↔ k ∉ m.map Prod.fst := by
  intro m
  induction m with
  | nil => simp [map_find]
  | cons e rest ih =>
    unfold map_find
    by_cases he : e.1 = k
    · simp [he]
    · simp only [he, if_false, ih, List.map_cons, List.mem_cons, not_or]
      exact ⟨fun h => ⟨fun hk => he hk.symm, h⟩, fun h => h.2⟩

/-- The value found for a key is the value of an entry of the map. -/
theorem mem_of_map_find {K V : Type} [DecidableEq K] (k : K) (v : V) :
    ∀ m : List (K × V), map_find m k = some v → (k, v) ∈ m := by
  intro m
  induction m with
  | nil => intro h; simp [map_find] at h
  | cons e rest ih =>
    intro h
    unfold map_find at h
    by_cases he : e.1 = k
    · simp only [he, if_true, Option.some.injEq] at h
      rw [← he, ← h]
      exact List.mem_cons_self _ _
    · simp only [he, if_false] at h
      exact List.mem_cons_of_mem _ (ih h)

/-- When the keys are pairwise distinct, every entry is found under its key. -/
theorem map_find_of_mem {K V : Type} [DecidableEq K] (k : K) (v : V) :
    ∀ m : List (K × V), (m.map Prod.fst).Nodup → (k, v) ∈ m → map_find m k = some v := by
  intro m
  induction m with
  | nil => intro _ h; exact absurd h (List.not_mem_nil _)
  | cons e rest ih =>
    intro hnodup hmem
    rw [List.map_cons, List.nodup_cons] at hnodup
    unfold map_find
    rcases List.mem_cons.mp hmem with hmem | hmem
    · rw [← hmem]
      simp
    · have hne : e.1 ≠ k := by
        intro he
        apply hnodup.1
        rw [he]
        exact List.mem_map_of_mem Prod.fst hmem
      simp only [hne, if_false]
      exact ih hnodup.2 hmem

/-- Lookup after a new entry is appended. -/
theorem map_find_append_single {K V : Type} [DecidableEq K] (k k' : K) (v : V) :
    ∀ m : List (K × V), map_find (m ++ [(k, v)]) k' =
      match map_find m k' with
      | some w => some w
      | none => if k = k' then some v else none := by
  intro m
  induction m with
  | nil => simp [map_find]
  | cons e rest ih =>
    rw [List.cons_append]
    unfold map_find
    by_cases he : e.1 = k'
    · simp [he]
    · simp only [he, if_false]
      exact ih

/-- Lookup after a write through the iterator of a key. -/
theorem map_find_update {K V : Type} [DecidableEq K] (k k' : K) (f : V → V) :
    ∀ m : List (K × V), map_find (map_update m k f) k' =
      if k' = k then (map_find m k).map f else map_find m k' := by
  intro m
  induction m with
  | nil => simp [map_find, map_update]
  | cons e rest ih =>
    unfold map_update
    by_cases he : e.1 = k
    · by_cases hk : k' = k
      · simp [map_find, he, hk]
      · have hk2 : ¬ (k = k') := fun h => hk h.symm
        simp [map_find, he, hk, hk2]
    · by_cases hk : k' = k
      · have he2 : ¬ (e.1 = k') := by rw [hk]; exact he
        simp only [he, if_false, hk, if_true]
        rw [hk] at ih
        simp only [if_true] at ih
        unfold map_find
        simp only [he, if_false]
        exact ih
      · simp only [he, if_false, hk]
        simp only [hk, if_false] at ih
        unfold map_find
        by_cases he3 : e.1 = k'
        · simp [he3]
        · simp only [he3, if_false]
          exact ih

/-- A write through an iterator keeps the keys of the map. -/
theorem map_update_keys {K V : Type} [DecidableEq K] (k : K) (f : V → V) :
    ∀ m : List (K × V), (map_update m k f).map Prod.fst = m.map Prod.fst := by
  intro m
  induction m with
  | nil => rfl
  | cons e rest ih =>
    unfold map_update
    by_cases he : e.1 = k
    · simp [he]
    · simp only [he, if_false, List.map_cons, ih]

/-- A write that stores the value already there changes nothing. -/
theorem map_update_same {K V : Type} [DecidableEq K] (k : K) (f : V → V) (v : V) :
    ∀ m : List (K × V), map_find m k = some v → f v = v → map_update m k f = m := by
  intro m
  induction m with
  | nil => intro _ _; rfl
  | cons e rest ih =>
    intro hfind hf
    unfold map_find at hfind
    unfold map_update
    by_cases he : e.1 = k
    · simp only [he, if_true, Option.some.injEq] at hfind
      simp only [he, if_true]
      rw [hfind, hf, ← hfind, ← he]
    · simp only [he, if_false] at hfind
      simp only [he, if_false]
      rw [ih hfind hf]

/-- Lookup after `emplace`: the old value when the key has one, the new value
under the new key otherwise. -/
theorem map_find_emplace {K V : Type} [DecidableEq K] (k k' : K) (v : V) (m : List (K × V)) :
    map_find (map_emplace m k v) k' =
      match map_find m k' with
      | some w => some w
      | none => if k = k' then some v else none := by
  unfold map_emplace
  cases hk : map_find m k with
  | some w =>
    simp only
    cases hk' : map_find m k' with
    | some w' => rfl
    | none =>
      have hne : ¬ (k = k') := by
        intro h
        rw [h, hk'] at hk
        exact Option.noConfusion hk
      simp [hne]
  | none =>
    simp only
    exact map_find_append_single k k' v m

/-- The call `emplace` keeps the keys pairwise distinct. -/
theorem map_emplace_nodup {K V : Type} [DecidableEq K] (k : K) (v : V) (m : List (K × V))
    (h : (m.map Prod.fst).Nodup) : ((map_emplace m k v).map Prod.fst).Nodup := by
  unfold map_emplace
  cases hk : map_find m k with
  | some w => exact h
  | none =>
    simp only
    rw [List.map_append, List.map_cons, List.map_nil]
    refine List.nodup_append.mpr ⟨h, List.nodup_singleton _, ?_⟩
    intro a ha hb
    rw [List.mem_singleton] at hb
    have hb' : a = k := hb
    rw [hb'] at ha
    exact (map_find_eq_none_iff k m).mp hk ha

/-! ## `State::add_transition` -/

/-- A sequence of `add_transition` calls changes the forward transitions
only. -/
theorem add_transitions_frame (calls : List (Symbol × Nat)) : ∀ s0 : State,
    (s0.add_transitions calls).items = s0.items ∧
      (s0.add_transitions calls).back_transitions = s0.back_transitions ∧
      (s0.add_transitions calls).index = s0.index := by
  induction calls with
  | nil => intro s0; exact ⟨rfl, rfl, rfl⟩
  | cons c rest ih =>
    intro s0
    exact ih (s0.add_transition c.1 c.2)

/-- A sequence of `add_transition` calls keeps the symbols of the forward
transitions pairwise distinct. -/
theorem add_transitions_nodup (calls : List (Symbol × Nat)) : ∀ s0 : State,
    (s0.transitions.map Prod.fst).Nodup →
    ((s0.add_transitions calls).transitions.map Prod.fst).Nodup := by
  induction calls with
  | nil => intro s0 h; exact h
  | cons c rest ih =>
    intro s0 h
    exact ih (s0.add_transition c.1 c.2) (map_emplace_nodup c.1 c.2 s0.transitions h)

/-- The destination of a symbol after a sequence of `add_transition` calls: the
one the state had, else the first one registered by the calls. -/
theorem add_transitions_find (calls : List (Symbol × Nat)) : ∀ (s0 : State) (sym : Symbol),
    map_find (s0.add_transitions calls).transitions sym =
      match map_find s0.transitions sym with
      | some d => some d
      | none => (calls.find? (fun c => decide (c.1 = sym))).map Prod.snd := by
  induction calls with
  | nil =>
    intro s0 sym
    show map_find s0.transitions sym = _
    cases map_find s0.transitions sym <;> rfl
  | cons c rest ih =>
    intro s0 sym
    show map_find ((s0.add_transition c.1 c.2).add_transitions rest).transitions sym = _
    rw [ih (s0.add_transition c.1 c.2) sym]
    show (match map_find (map_emplace s0.transitions c.1 c.2) sym with
      | some d => some d
      | none => (rest.find? (fun (c : Symbol × Nat) => decide (c.1 = sym))).map Prod.snd) = _
    rw [map_find_emplace]
    cases map_find s0.transitions sym with
    | some d => rfl
    | none =>
      by_cases hc : c.1 = sym
      · simp [hc, List.find?_cons]
      · simp [hc, List.find?_cons]

/-- C14. Transition functionality of a state: after any sequence of
`add_transition` calls on a state whose transition symbols are pairwise
distinct (a new state has none), the symbols are pairwise distinct, so a symbol
has at most one destination; the destination of a symbol is the one the state
had, else the first one the calls registered for it; `add_transition` on a
symbol that already has a destination leaves the state unchanged; and the
items, the back-transitions and the index are never changed. -/
theorem add_transition_functional (s0 : State) (calls : List (Symbol × Nat))
    (hnodup : (s0.transitions.map Prod.fst).Nodup) :
    ((s0.add_transitions calls).transitions.map Prod.fst).Nodup ∧
    (∀ sym d d', (sym, d) ∈ (s0.add_transitions calls).transitions →
      (sym, d') ∈ (s0.add_transitions calls).transitions → d = d') ∧
    (∀ sym, map_find (s0.add_transitions calls).transitions sym =
      match map_find s0.transitions sym with
      | some d => some d
      | none => (calls.find? (fun c => decide (c.1 = sym))).map Prod.snd) ∧
    (∀ sym d, (sym, d) ∈ (s0.add_transitions calls).transitions ↔
      map_find (s0.add_transitions calls).transitions sym = some d) ∧
    (∀ sym d1 d2, map_find s0.transitions sym = some d1 → s0.add_transition sym d2 = s0) ∧
    (s0.add_transitions calls).items = s0.items ∧
    (s0.add_transitions calls).back_transitions = s0.back_transitions ∧
    (s0.add_transitions calls).index = s0.index := by
  have hn := add_transitions_nodup calls s0 hnodup
  refine ⟨hn, ?_, add_transitions_find calls s0, ?_, ?_, add_transitions_frame calls s0⟩
  · intro sym d d' h1 h2
    have e1 := map_find_of_mem sym d _ hn h1
    have e2 := map_find_of_mem sym d' _ hn h2
    rw [e1] at e2
    exact Option.some.inj e2
  · intro sym d
    exact ⟨map_find_of_mem sym d _ hn, mem_of_map_find sym d _⟩
  · intro sym d1 d2 h
    simp [State.add_transition, map_emplace, h]

/-- Witness of C14: `+` is registered twice on a new state; it keeps the first
destination. -/
theorem add_transition_functional_witness :
    map_find (State.add_transitions ⟨0, [], [], []⟩
      [(sym_plus, 3), (sym_star, 4), (sym_plus, 9)]).transitions sym_plus = some 3 :=
  (add_transition_functional ⟨0, [], [], []⟩ [(sym_plus, 3), (sym_star, 4), (sym_plus, 9)]
    (by decide)).2.2.1 sym_plus

/-! ## `State::add_back_transition` -/

/-- The position `lower_bound_index` returns splits the vector into the states
of lower index and the rest. -/
theorem lower_bound_index_split (x : Nat) : ∀ l : List Nat,
    l.get? (lower_bound_index l x) = (l.dropWhile (fun left => decide (left < x))).head? ∧
      l.take (lower_bound_index l x) ++ x :: l.drop (lower_bound_index l x) =
        l.takeWhile (fun left => decide (left < x)) ++
          x :: l.dropWhile (fun left => decide (left < x)) := by
  intro l
  induction l with
  | nil => simp [lower_bound_index]
  | cons a rest ih =>
    unfold lower_bound_index at ih ⊢
    by_cases hp : a < x
    · simp only [List.takeWhile_cons, hp, decide_True, if_true, List.length_cons,
        List.get?_cons_succ, List.dropWhile_cons, List.take_succ_cons, List.drop_succ_cons,
        List.cons_append]
      exact ⟨ih.1, congrArg (List.cons a) ih.2⟩
    · simp [List.takeWhile_cons, List.dropWhile_cons, hp]

/-- The two outcomes of the sorted insertion of a state index: the index is
at the lower bound and the vector is kept, or the index is placed between the
lower indices and the rest, whose first index is another one. -/
theorem insert_back_state_cases (l : List Nat) (x : Nat) :
    ((∃ rest, l.dropWhile (fun left => decide (left < x)) = x :: rest) ∧
      insert_back_state l x = l) ∨
    (insert_back_state l x = l.takeWhile (fun left => decide (left < x)) ++
        x :: l.dropWhile (fun left => decide (left < x)) ∧
      ∀ found rest, l.dropWhile (fun left => decide (left < x)) = found :: rest →
        found ≠ x) := by
  obtain ⟨hget, hins⟩ := lower_bound_index_split x l
  cases hdw : l.dropWhile (fun left => decide (left < x)) with
  | nil =>
    rw [hdw, List.head?_nil] at hget
    rw [hdw] at hins
    right
    refine ⟨?_, fun _ _ h => List.noConfusion h⟩
    simp only [insert_back_state, hget]
    exact hins
  | cons found rest =>
    rw [hdw, List.head?_cons] at hget
    rw [hdw] at hins
    by_cases hne : found = x
    · left
      subst hne
      refine ⟨⟨rest, rfl⟩, ?_⟩
      simp only [insert_back_state, hget, ne_eq, not_true_eq_false, if_false]
    · right
      refine ⟨?_, ?_⟩
      · simp only [insert_back_state, hget, ne_eq, hne, not_false_eq_true, if_true]
        exact hins
      · intro f r h
        injection h with h1 _
        rw [← h1]
        exact hne

/-- The sorted insertion of a state index keeps the vector strictly increasing,
adds the index to its elements and changes nothing when the index is there. -/
theorem insert_back_state_spec (l : List Nat) (x : Nat)
    (hsorted : l.Pairwise (fun a b => a < b)) :
    (insert_back_state l x).Pairwise (fun a b => a < b) ∧
      (∀ i, i ∈ insert_back_state l x ↔ (i ∈ l ∨ i = x)) ∧
      (x ∈ l → insert_back_state l x = l) := by
  have htd := List.takeWhile_append_dropWhile (fun left => decide (left < x)) l
  have hbelow : ∀ y ∈ l.takeWhile (fun left => decide (left < x)), y < x := by
    intro y hy
    have hp := List.mem_takeWhile_imp hy
    simpa using hp
  have hsplit := hsorted
  rw [← htd] at hsplit
  obtain ⟨htw, hdw, hcross⟩ := List.pairwise_append.mp hsplit
  rcases insert_back_state_cases l x with ⟨⟨rest, hrest⟩, hsame⟩ | ⟨hnew, hhead⟩
  · rw [hsame]
    refine ⟨hsorted, ?_, fun _ => rfl⟩
    intro i
    constructor
    · exact fun h => Or.inl h
    · rintro (h | h)
      · exact h
      · rw [h, ← htd, hrest]
        exact List.mem_append_right _ (List.mem_cons_self _ _)
  · have habove : ∀ y ∈ l.dropWhile (fun left => decide (left < x)), x < y := by
      intro y hy
      cases hd : l.dropWhile (fun left => decide (left < x)) with
      | nil => rw [hd] at hy; exact absurd hy (List.not_mem_nil y)
      | cons found rest =>
        have hnlt : decide (found < x) = false :=
          dropWhile_head_false (fun left => decide (left < x)) found rest l hd
        have hnlt' : ¬ found < x := by simpa using hnlt
        have hne := hhead found rest hd
        rw [hd] at hy hdw
        rcases List.mem_cons.mp hy with hy | hy
        · rw [hy]
          omega
        · have := List.rel_of_pairwise_cons hdw hy
          omega
    rw [hnew]
    refine ⟨?_, ?_, ?_⟩
    · refine List.pairwise_append.mpr ⟨htw, List.pairwise_cons.mpr ⟨habove, hdw⟩, ?_⟩
      intro a ha b hb
      rcases List.mem_cons.mp hb with hb | hb
      · rw [hb]
        exact hbelow a ha
      · exact hcross a ha b hb
    · intro i
      rw [List.mem_append, List.mem_cons]
      conv_rhs => rw [← htd, List.mem_append]
      constructor
      · rintro (h | h | h)
        · exact Or.inl (Or.inl h)
        · exact Or.inr h
        · exact Or.inl (Or.inr h)
      · rintro ((h | h) | h)
        · exact Or.inl h
        · exact Or.inr (Or.inr h)
        · exact Or.inr (Or.inl h)
    · intro hx
      rw [← htd] at hx
      rcases List.mem_append.mp hx with hx | hx
      · exact absurd (hbelow x hx) (Nat.lt_irrefl x)
      · exact absurd (habove x hx) (Nat.lt_irrefl x)

/-- Two strictly increasing vectors of indices with the same elements are the
same vector. -/
theorem sorted_indices_ext (l1 l2 : List Nat) (h1 : l1.Pairwise (fun a b => a < b))
    (h2 : l2.Pairwise (fun a b => a < b)) (hmem : ∀ i, i ∈ l1 ↔ i ∈ l2) : l1 = l2 := by
  have n1 : l1.Nodup := h1.imp (fun {a b} h => Nat.ne_of_lt h)
  have n2 : l2.Nodup := h2.imp (fun {a b} h => Nat.ne_of_lt h)
  have hperm : l1.Perm l2 := (List.perm_ext_iff_of_nodup n1 n2).mpr hmem
  exact List.eq_of_perm_of_sorted hperm h1 h2

/-- The back-transition vector of a symbol after `add_back_transition` on that
symbol is the sorted insertion into the vector before. -/
theorem add_back_transition_back_states (s : State) (sym : Symbol) (src : Nat) :
    (s.add_back_transition sym src).back_states sym =
      insert_back_state (s.back_states sym) src := by
  unfold State.add_back_transition State.back_states
  cases hfind : map_find s.back_transitions sym with
  | none =>
    simp only [map_find_emplace, hfind, if_true, Option.getD_some, Option.getD_none]
    simp [insert_back_state, lower_bound_index]
  | some vec =>
    simp only [map_find_update, if_true, hfind, Option.map_some', Option.getD_some]

/-- The member `add_back_transition` changes the back-transition map at its own
symbol only, and nothing else of the state. -/
theorem add_back_transition_frame (s : State) (sym : Symbol) (src : Nat) :
    (∀ other, other ≠ sym →
      map_find (s.add_back_transition sym src).back_transitions other =
        map_find s.back_transitions other) ∧
    (s.add_back_transition sym src).items = s.items ∧
    (s.add_back_transition sym src).transitions = s.transitions ∧
    (s.add_back_transition sym src).index = s.index := by
  unfold State.add_back_transition
  cases hfind : map_find s.back_transitions sym with
  | none =>
    refine ⟨?_, rfl, rfl, rfl⟩
    intro other hne
    simp only [map_find_emplace]
    cases map_find s.back_transitions other with
    | some w => rfl
    | none =>
      have hne' : ¬ (sym = other) := fun h => hne h.symm
      simp [hne']
  | some vec =>
    refine ⟨?_, rfl, rfl, rfl⟩
    intro other hne
    simp only [map_find_update, hne, if_false]

/-- C13. Back-transitions stay sorted by index and deduplicated: when the
back-transition vector of `sym` is strictly increasing by state index, after
`add_back_transition(sym, src)` it is strictly increasing and its indices are
the old ones plus the index of `src`; adding a source that is already there
leaves the whole state unchanged; two sources added in either order give the
same vector; the vectors of all other symbols, the items, the forward
transitions and the index are unchanged. -/
theorem add_back_transition_sorted_dedup (s : State) (sym : Symbol) (src : Nat)
    (hsorted : (s.back_states sym).Pairwise (fun a b => a < b)) :
    ((s.add_back_transition sym src).back_states sym).Pairwise (fun a b => a < b) ∧
    (∀ i, i ∈ (s.add_back_transition sym src).back_states sym ↔
      (i ∈ s.back_states sym ∨ i = src)) ∧
    (src ∈ s.back_states sym → s.add_back_transition sym src = s) ∧
    (∀ other_src,
      ((s.add_back_transition sym src).add_back_transition sym other_src).back_states sym =
        ((s.add_back_transition sym other_src).add_back_transition sym src).back_states sym) ∧
    (∀ other, other ≠ sym →
      map_find (s.add_back_transition sym src).back_transitions other =
        map_find s.back_transitions other) ∧
    (s.add_back_transition sym src).items = s.items ∧
    (s.add_back_transition sym src).transitions = s.transitions ∧
    (s.add_back_transition sym src).index = s.index := by
  obtain ⟨hs1, hm1, hsame⟩ := insert_back_state_spec (s.back_states sym) src hsorted
  refine ⟨?_, ?_, ?_, ?_, add_back_transition_frame s sym src⟩
  · rw [add_back_transition_back_states]
    exact hs1
  · intro i
    rw [add_back_transition_back_states]
    exact hm1 i
  · intro hmem
    have hkeep := hsame hmem
    unfold State.back_states at hmem hkeep
    unfold State.add_back_transition
    cases hfind : map_find s.back_transitions sym with
    | none =>
      rw [hfind] at hmem
      exact absurd hmem (List.not_mem_nil src)
    | some vec =>
      rw [hfind] at hkeep
      simp only [Option.getD_some] at hkeep
      simp only
      rw [map_update_same sym (fun states => insert_back_state states src) vec
        s.back_transitions hfind hkeep]
  · intro other_src
    obtain ⟨hs2, hm2, _⟩ := insert_back_state_spec (s.back_states sym) other_src hsorted
    obtain ⟨hs12, hm12, _⟩ :=
      insert_back_state_spec (insert_back_state (s.back_states sym) src) other_src hs1
    obtain ⟨hs21, hm21, _⟩ :=
      insert_back_state_spec (insert_back_state (s.back_states sym) other_src) src hs2
    rw [add_back_transition_back_states, add_back_transition_back_states,
      add_back_transition_back_states, add_back_transition_back_states]
    apply sorted_indices_ext _ _ hs12 hs21
    intro i
    rw [hm12 i, hm1 i, hm21 i, hm2 i]
    constructor
    · rintro ((h | h) | h)
      · exact Or.inl (Or.inl h)
      · exact Or.inr h
      · exact Or.inl (Or.inr h)
    · rintro ((h | h) | h)
      · exact Or.inl (Or.inl h)
      · exact Or.inr h
      · exact Or.inl (Or.inr h)

/-- Witness of C13: the source 4 is added between the sources 2 and 7 of the
symbol `E`. -/
theorem add_back_transition_sorted_dedup_witness :
    ((State.add_back_transition ⟨9, [], [], [(sym_plus, [1]), (sym_E, [2, 7])]⟩ sym_E
      4).back_states sym_E).Pairwise (fun a b => a < b) :=
  (add_back_transition_sorted_dedup ⟨9, [], [], [(sym_plus, [1]), (sym_E, [2, 7])]⟩ sym_E 4
    (by decide)).1

/-! ## `State::is_accepting` and `State::contains` -/

/-- A predicate counts once in a list exactly when the list splits around one
element that satisfies it, with none before and none after. -/
theorem countP_eq_one_iff_split {α : Type} (p : α → Bool) : ∀ l : List α,
    l.countP p = 1 ↔
      ∃ pre x post, l = pre ++ x :: post ∧ p x = true ∧
        (∀ y ∈ pre, p y = false) ∧ (∀ y ∈ post, p y = false) := by
  intro l
  induction l with
  | nil =>
    constructor
    · intro h
      simp at h
    · rintro ⟨pre, x, post, h, _⟩
      cases pre <;> simp at h
  | cons a rest ih =>
    rw [List.countP_cons]
    by_cases hp : p a = true
    · simp only [hp, if_true, Nat.add_left_eq_self, List.countP_eq_zero]
      constructor
      · intro h
        refine ⟨[], a, rest, rfl, hp, fun y hy => absurd hy (List.not_mem_nil y), ?_⟩
        intro y hy
        simpa using h y hy
      · rintro ⟨pre, x, post, hsplit, _, hpre, hpost⟩
        cases pre with
        | nil =>
          rw [List.nil_append] at hsplit
          injection hsplit with _ h2
          intro y hy
          rw [h2] at hy
          simp [hpost y hy]
        | cons b pre' =>
          rw [List.cons_append] at hsplit
          injection hsplit with h1 _
          have hb := hpre b (List.mem_cons_self _ _)
          rw [← h1, hp] at hb
          exact Bool.noConfusion hb
    · have hpf : p a = false := by simpa using hp
      simp only [hp, if_false, Nat.add_zero, Bool.false_eq_true]
      rw [ih]
      constructor
      · rintro ⟨pre, x, post, hsplit, hx, hpre, hpost⟩
        refine ⟨a :: pre, x, post, by rw [hsplit, List.cons_append], hx, ?_, hpost⟩
        intro y hy
        rcases List.mem_cons.mp hy with hy | hy
        · rw [hy]
          exact hpf
        · exact hpre y hy
      · rintro ⟨pre, x, post, hsplit, hx, hpre, hpost⟩
        cases pre with
        | nil =>
          rw [List.nil_append] at hsplit
          injection hsplit with h1 _
          rw [← h1, hpf] at hx
          exact Bool.noConfusion hx
        | cons b pre' =>
          rw [List.cons_append] at hsplit
          injection hsplit with _ h2
          exact ⟨pre', x, post, h2, hx,
            fun y hy => hpre y (List.mem_cons_of_mem _ hy), hpost⟩

/-- C15. The accepting-state predicate: `is_accepting()` is true if and only if
exactly one position of the item sequence holds an accepting item; it is false
for a state with no accepting item and false for a state with two accepting
items or more; it does not depend on the index or on the transitions. -/
theorem is_accepting_iff_exactly_one (s : State) :
    (s.is_accepting = true ↔
      ∃ pre x post, s.items = pre ++ x :: post ∧ x.is_accepting = true ∧
        (∀ y ∈ pre, y.is_accepting = false) ∧ (∀ y ∈ post, y.is_accepting = false)) ∧
    ((∀ y ∈ s.items, y.is_accepting = false) → s.is_accepting = false) ∧
    ((∃ a x b y c, s.items = a ++ x :: (b ++ y :: c) ∧ x.is_accepting = true ∧
        y.is_accepting = true) → s.is_accepting = false) ∧
    (∀ (i : Nat) (t : List (Symbol × Nat)) (b : List (Symbol × List Nat)),
      State.is_accepting ⟨i, s.items, t, b⟩ = s.is_accepting) := by
  refine ⟨?_, ?_, ?_, fun _ _ _ => rfl⟩
  · unfold State.is_accepting
    rw [decide_eq_true_eq]
    exact countP_eq_one_iff_split Item.is_accepting s.items
  · intro h
    have hzero : s.items.countP Item.is_accepting = 0 := by
      rw [List.countP_eq_zero]
      intro y hy
      simp [h y hy]
    simp [State.is_accepting, hzero]
  · rintro ⟨a, x, b, y, c, hsplit, hx, hy⟩
    have htwo : 2 ≤ s.items.countP Item.is_accepting := by
      rw [hsplit, List.countP_append, List.countP_cons, List.countP_append, List.countP_cons]
      simp only [hx, hy, if_true]
      omega
    have hne : s.items.countP Item.is_accepting ≠ 1 := by omega
    simp [State.is_accepting, hne]

/-- C16 (the code departs from the claim). The state that holds the single item
`E -> . E * E` has strictly sorted items and no item equal to `E -> . E + E`,
yet `contains` answers true for `E -> . E + E`: the lower bound is not the end
of the items, and `contains` does not compare the item found with the needle. -/
theorem contains_without_equal_item :
    State.contains ⟨0, [⟨rule_star, 0⟩], [], []⟩ ⟨rule_plus, 0⟩ = true ∧
      List.Pairwise (fun a b => Item.lt a b = true) [(⟨rule_star, 0⟩ : Item)] ∧
      (∀ y ∈ [(⟨rule_star, 0⟩ : Item)], Item.eq y ⟨rule_plus, 0⟩ = false) ∧
      (State.add_item ⟨0, [⟨rule_star, 0⟩], [], []⟩ ⟨rule_plus, 0⟩).2.2 = true := by
  decide

/-- What `contains` computes: some item of the state is not below the needle. -/
theorem contains_iff_not_all_below (s : State) (x : Item) :
    s.contains x = true ↔ ∃ y ∈ s.items, Item.lt y x = false := by
  have htd := List.takeWhile_append_dropWhile (fun left => Item.lt left x) s.items
  have hlen : s.items.length = lower_bound s.items x +
      (s.items.dropWhile (fun left => Item.lt left x)).length := by
    conv_lhs => rw [← htd]
    rw [List.length_append]
    rfl
  unfold State.contains
  rw [decide_eq_true_eq]
  cases hdw : s.items.dropWhile (fun left => Item.lt left x) with
  | nil =>
    rw [hdw] at hlen htd
    constructor
    · intro h
      exact absurd (by simpa using hlen.symm) h
    · rintro ⟨y, hy, hlt⟩
      rw [← htd, List.append_nil] at hy
      have hp := List.mem_takeWhile_imp hy
      have hp' : Item.lt y x = true := hp
      rw [hlt] at hp'
      exact Bool.noConfusion hp'
  | cons found rest =>
    rw [hdw] at hlen
    constructor
    · intro _
      refine ⟨found, ?_, dropWhile_head_false (fun left => Item.lt left x) found rest s.items hdw⟩
      rw [← htd, hdw]
      exact List.mem_append_right _ (List.mem_cons_self _ _)
    · intro _
      rw [List.length_cons] at hlen
      omega

/-- Witness of C15: the state holding `S' -> S .` alone is accepting, by the
split around that item. -/
theorem is_accepting_iff_exactly_one_witness :
    State.is_accepting ⟨1, [⟨rule_start, 1⟩], [], [(sym_S, [0])]⟩ = true :=
  (is_accepting_iff_exactly_one ⟨1, [⟨rule_start, 1⟩], [], [(sym_S, [0])]⟩).1.mpr
    ⟨[], ⟨rule_start, 1⟩, [], rfl, by decide, by decide, by decide⟩

/-! ## `State::get_partitions` -/

/-- The group the partition must hold for a key after the items `l`: absent
when no item of `l` reads the key, the items that read it otherwise. -/
theorem partition_step_invariant (result : List (Option Symbol × List Item))
    (l : List Item) (item : Item)
    (hkeys : (result.map Prod.fst).Nodup)
    (hfind : ∀ X, map_find result X =
      if l.filter (Item.reads X) = [] then none else some (l.filter (Item.reads X))) :
    ((partition_step result item).map Prod.fst).Nodup ∧
      ∀ X, map_find (partition_step result item) X =
        if (l ++ [item]).filter (Item.reads X) = [] then none
        else some ((l ++ [item]).filter (Item.reads X)) := by
  unfold partition_step
  by_cases hfinal : item.is_final = true
  · simp only [hfinal, if_true]
    refine ⟨hkeys, ?_⟩
    intro X
    have hno : Item.reads X item = false := by simp [Item.reads, hfinal]
    rw [List.filter_append, List.filter_cons, hno]
    simp only [Bool.false_eq_true, if_false, List.filter_nil, List.append_nil]
    exact hfind X
  · simp only [hfinal, if_false, Bool.false_eq_true]
    have hself : Item.reads item.get_read_symbol item = true := by
      simp [Item.reads, hfinal]
    have hother : ∀ X, X ≠ item.get_read_symbol → Item.reads X item = false := by
      intro X hX
      have : ¬ (item.get_read_symbol = X) := fun h => hX h.symm
      simp [Item.reads, this]
    have hfilter_other : ∀ X, X ≠ item.get_read_symbol →
        (l ++ [item]).filter (Item.reads X) = l.filter (Item.reads X) := by
      intro X hX
      rw [List.filter_append, List.filter_cons, hother X hX]
      simp
    have hfilter_self : (l ++ [item]).filter (Item.reads item.get_read_symbol) =
        l.filter (Item.reads item.get_read_symbol) ++ [item] := by
      rw [List.filter_append, List.filter_cons, hself]
      simp
    cases hk : map_find result item.get_read_symbol with
    | none =>
      simp only
      refine ⟨map_emplace_nodup _ _ result hkeys, ?_⟩
      intro X
      rw [map_find_emplace]
      by_cases hX : X = item.get_read_symbol
      · subst hX
        have hempty : l.filter (Item.reads item.get_read_symbol) = [] := by
          have h := hfind item.get_read_symbol
          rw [hk] at h
          by_contra hne
          rw [if_neg hne] at h
          exact Option.noConfusion h
        rw [hk, hfilter_self, hempty]
        simp
      · rw [hfilter_other X hX, hfind X]
        have hX' : ¬ (item.get_read_symbol = X) := fun h => hX h.symm
        by_cases he : l.filter (Item.reads X) = []
        · simp [he, hX']
        · simp [he]
    | some group =>
      simp only
      refine ⟨by rw [map_update_keys]; exact hkeys, ?_⟩
      intro X
      rw [map_find_update]
      by_cases hX : X = item.get_read_symbol
      · subst hX
        have hgroup : l.filter (Item.reads item.get_read_symbol) = group := by
          have h := hfind item.get_read_symbol
          rw [hk] at h
          by_cases he : l.filter (Item.reads item.get_read_symbol) = []
          · rw [if_pos he] at h
            exact Option.noConfusion h
          · rw [if_neg he] at h
            exact (Option.some.inj h).symm
        rw [hk, hfilter_self, hgroup]
        simp
      · rw [if_neg hX, hfilter_other X hX]
        exact hfind X

/-- The invariant of the loop of `get_partitions`, from any point of the
loop to its end. -/
theorem partition_loop_invariant (rest : List Item) :
    ∀ (result : List (Option Symbol × List Item)) (l : List Item),
      (result.map Prod.fst).Nodup →
      (∀ X, map_find result X =
        if l.filter (Item.reads X) = [] then none else some (l.filter (Item.reads X))) →
      ((rest.foldl partition_step result).map Prod.fst).Nodup ∧
        ∀ X, map_find (rest.foldl partition_step result) X =
          if (l ++ rest).filter (Item.reads X) = [] then none
          else some ((l ++ rest).filter (Item.reads X)) := by
  induction rest with
  | nil =>
    intro result l hkeys hfind
    rw [List.append_nil]
    exact ⟨hkeys, hfind⟩
  | cons item rest ih =>
    intro result l hkeys hfind
    obtain ⟨hk, hf⟩ := partition_step_invariant result l item hkeys hfind
    have h := ih (partition_step result item) (l ++ [item]) hk hf
    rw [List.append_assoc, List.singleton_append] at h
    exact h

/-- C18. `get_partitions` partitions the advanceable items by the symbol after
the dot: the keys of the groups are pairwise distinct; the group of a key is
absent when no item reads that key and is otherwise exactly the items of the
state that are not final and whose dot points at the key, in their order in
the state; so every group is non-empty and holds no final item, and every
non-final item is in the group of its read symbol and in no other. -/
theorem get_partitions_groups (s : State) :
    (s.get_partitions.map Prod.fst).Nodup ∧
    (∀ X, map_find s.get_partitions X =
      if s.items.filter (Item.reads X) = [] then none
      else some (s.items.filter (Item.reads X))) ∧
    (∀ e ∈ s.get_partitions, e.2 ≠ [] ∧ e.2 = s.items.filter (Item.reads e.1) ∧
      e.2.Sublist s.items ∧
      ∀ item ∈ e.2, item ∈ s.items ∧ item.is_final = false ∧ item.get_read_symbol = e.1) ∧
    (∀ item ∈ s.items, item.is_final = false →
      (∃ group, (item.get_read_symbol, group) ∈ s.get_partitions ∧ item ∈ group) ∧
      ∀ e ∈ s.get_partitions, item ∈ e.2 → e.1 = item.get_read_symbol) := by
  obtain ⟨hkeys, hfind⟩ := partition_loop_invariant s.items [] []
    List.nodup_nil (fun X => by simp [map_find])
  rw [List.nil_append] at hfind
  have hfind' : ∀ X, map_find s.get_partitions X =
      if s.items.filter (Item.reads X) = [] then none
      else some (s.items.filter (Item.reads X)) := hfind
  have hentry : ∀ e ∈ s.get_partitions,
      e.2 ≠ [] ∧ e.2 = s.items.filter (Item.reads e.1) := by
    intro e he
    have hf := map_find_of_mem e.1 e.2 s.get_partitions hkeys he
    rw [hfind' e.1] at hf
    by_cases hempty : s.items.filter (Item.reads e.1) = []
    · rw [if_pos hempty] at hf
      exact Option.noConfusion hf
    · rw [if_neg hempty] at hf
      have heq := Option.some.inj hf
      exact ⟨by rw [← heq]; exact hempty, heq.symm⟩
  have hreads : ∀ (X : Option Symbol) (item : Item), Item.reads X item = true →
      item.is_final = false ∧ item.get_read_symbol = X := by
    intro X item h
    simp only [Item.reads, Bool.and_eq_true, Bool.not_eq_true', decide_eq_true_eq] at h
    exact h
  refine ⟨hkeys, hfind', ?_, ?_⟩
  · intro e he
    obtain ⟨hne, heq⟩ := hentry e he
    refine ⟨hne, heq, ?_, ?_⟩
    · rw [heq]
      exact List.filter_sublist s.items
    · intro item hitem
      rw [heq, List.mem_filter] at hitem
      exact ⟨hitem.1, hreads e.1 item hitem.2⟩
  · intro item hitem hfinal
    have hself : Item.reads item.get_read_symbol item = true := by
      simp [Item.reads, hfinal]
    have hin : item ∈ s.items.filter (Item.reads item.get_read_symbol) :=
      List.mem_filter.mpr ⟨hitem, hself⟩
    refine ⟨⟨s.items.filter (Item.reads item.get_read_symbol), ?_, hin⟩, ?_⟩
    · apply mem_of_map_find
      rw [hfind' item.get_read_symbol, if_neg (List.ne_nil_of_mem hin)]
    · intro e he hmem
      obtain ⟨_, heq⟩ := hentry e he
      rw [heq, List.mem_filter] at hmem
      exact (hreads e.1 item hmem.2).2.symm

/-- Witness of C18 on state 0 of the expression automaton, which holds `E -> .
E + E`, `E -> . E * E` and `E -> . id`: the items that read `E` form one group,
in state order. -/
theorem get_partitions_groups_witness :
    map_find (State.get_partitions ⟨0, [⟨rule_plus, 0⟩, ⟨rule_star, 0⟩, ⟨rule_id, 0⟩], [],
      []⟩) (some sym_E) = some [⟨rule_plus, 0⟩, ⟨rule_star, 0⟩] :=
  (get_partitions_groups ⟨0, [⟨rule_plus, 0⟩, ⟨rule_star, 0⟩, ⟨rule_id, 0⟩], [], []⟩).2.1
    (some sym_E)

/-! ## Where the actions of the compiled table come from -/

/-- Every action after a successful `add_accept` was there before, or is the
`Accept` just placed. -/
theorem add_accept_action_origin (T T' : ParsingTable) (s : Nat) (t : Symbol)
    (h : T.add_accept s t = Except.ok T') (k : StateAndSymbol) (a : Action)
    (hk : T'.action_table k = some a) :
    T.action_table k = some a ∨ (k = ⟨s, t⟩ ∧ a = Action.Accept) := by
  obtain ⟨_, hset, hframe, _⟩ := add_accept_ok T T' s t h
  by_cases hkey : k = ⟨s, t⟩
  · right
    rw [hkey, hset] at hk
    exact ⟨hkey, (Option.some.inj hk).symm⟩
  · left
    rw [← hframe k hkey]
    exact hk

/-- Every action after a successful `add_state_transition` was there before, or
is the shift just placed for a terminal. -/
theorem add_state_transition_action_origin (T T' : ParsingTable) (s d : Nat) (t : Symbol)
    (h : T.add_state_transition s t d = Except.ok T') (k : StateAndSymbol) (a : Action)
    (hk : T'.action_table k = some a) :
    T.action_table k = some a ∨
      (k = ⟨s, t⟩ ∧ a = Action.Shift d ∧ t.is_terminal = true) := by
  rcases symbol_kind_cases t with ht | ⟨ht, hn⟩ | ⟨ht, hn⟩
  · obtain ⟨_, hset, hframe, _⟩ := add_state_transition_terminal_ok T T' s d t ht h
    by_cases hkey : k = ⟨s, t⟩
    · right
      rw [hkey, hset] at hk
      exact ⟨hkey, (Option.some.inj hk).symm, ht⟩
    · left
      rw [← hframe k hkey]
      exact hk
  · obtain ⟨_, _, _, hact⟩ := add_state_transition_nonterminal_ok T T' s d t hn h
    left
    rw [← hact]
    exact hk
  · left
    rw [add_state_transition_other_ok T T' s d t ht hn h] at hk
    exact hk

/-- Every action after a successful `add_reduction` was there before, or is the
reduction just registered. -/
theorem add_reduction_action_origin (T T' : ParsingTable) (s : Nat) (t : Symbol) (r : Rule)
    (h : T.add_reduction s t r = Except.ok T') (k : StateAndSymbol) (a : Action)
    (hk : T'.action_table k = some a) :
    T.action_table k = some a ∨ (k = ⟨s, t⟩ ∧ a = Action.Reduce r) := by
  by_cases hkey : k = ⟨s, t⟩
  · subst hkey
    unfold ParsingTable.add_reduction at h
    cases hfind : T.action_table ⟨s, t⟩ with
    | none =>
      simp only [hfind, Except.ok.injEq] at h
      subst h
      simp only [TableMap.emplace, hfind, if_true, Option.some.injEq] at hk
      exact Or.inr ⟨rfl, hk.symm⟩
    | some old =>
      simp only [hfind] at h
      split at h
      · split at h
        · simp only [Except.ok.injEq] at h
          subst h
          rw [hfind] at hk
          exact Or.inl hk
        · split at h
          · simp only [Except.ok.injEq] at h
            subst h
            simp only [TableMap.assign, if_true, Option.some.injEq] at hk
            exact Or.inr ⟨rfl, hk.symm⟩
          · simp at h
      · simp at h
  · left
    rw [← (add_reduction_ok_frame T T' s t r h).1 k hkey]
    exact hk

/-- Every action after the completed transition loop was there before, or is
the shift of a terminal transition of the list. -/
theorem add_state_transitions_action_origin (idx : Nat) (trs : List (Symbol × Nat))
    (T T' : ParsingTable) (h : add_state_transitions idx trs T = Except.ok T')
    (k : StateAndSymbol) (a : Action) (hk : T'.action_table k = some a) :
    T.action_table k = some a ∨
      (k.state = idx ∧ ∃ d, a = Action.Shift d ∧ (k.symbol, d) ∈ trs ∧
        k.symbol.is_terminal = true) := by
  have hinv := foldlM_ok_invariant
    (fun (acc : ParsingTable) (tr : Symbol × Nat) => acc.add_state_transition idx tr.1 tr.2)
    (fun acc : ParsingTable => acc.action_table k = some a → T.action_table k = some a ∨
      (k.state = idx ∧ ∃ d, a = Action.Shift d ∧ (k.symbol, d) ∈ trs ∧
        k.symbol.is_terminal = true)) trs T T'
    (fun h0 => Or.inl h0)
    (fun acc tr acc' hmem hacc hstep hk' => by
      rcases add_state_transition_action_origin acc acc' idx tr.2 tr.1 hstep k a hk' with
        hold | ⟨hkey, ha, ht⟩
      · exact hacc hold
      · right
        subst hkey
        exact ⟨rfl, tr.2, ha, hmem, ht⟩) h
  exact hinv hk

/-- Every action after the completed reduction loop of a state was there
before, or is the reduction of one of the items on a symbol of its
lookahead. -/
theorem add_reductions_action_origin (L : Lookahead) (idx : Nat) (items : List Item)
    (T T' : ParsingTable) (h : add_reductions L idx items T = Except.ok T')
    (k : StateAndSymbol) (a : Action) (hk : T'.action_table k = some a) :
    T.action_table k = some a ∨
      (k.state = idx ∧ ∃ item ∈ items, a = Action.Reduce item.get_rule ∧
        k.symbol ∈ L idx item.get_rule) := by
  have hinv := foldlM_ok_invariant
    (fun (acc : ParsingTable) (item : Item) =>
      add_reductions_of_rule idx item.get_rule (L idx item.get_rule) acc)
    (fun acc : ParsingTable => acc.action_table k = some a → T.action_table k = some a ∨
      (k.state = idx ∧ ∃ item ∈ items, a = Action.Reduce item.get_rule ∧
        k.symbol ∈ L idx item.get_rule)) items T T'
    (fun h0 => Or.inl h0)
    (fun acc item acc' hmem hacc hstep hk' => by
      have hinner := foldlM_ok_invariant
        (fun (acc2 : ParsingTable) (sym : Symbol) => acc2.add_reduction idx sym item.get_rule)
        (fun acc2 : ParsingTable => acc2.action_table k = some a →
          acc.action_table k = some a ∨
            (k.state = idx ∧ a = Action.Reduce item.get_rule ∧
              k.symbol ∈ L idx item.get_rule)) (L idx item.get_rule) acc acc'
        (fun h0 => Or.inl h0)
        (fun acc2 sym acc3 hsym hacc2 hstep2 hk2 => by
          rcases add_reduction_action_origin acc2 acc3 idx sym item.get_rule hstep2 k a hk2 with
            hold | ⟨hkey, ha⟩
          · exact hacc2 hold
          · right
            subst hkey
            exact ⟨rfl, ha, hsym⟩) hstep
      rcases hinner hk' with hold | ⟨h1, h2, h3⟩
      · exact hacc hold
      · exact Or.inr ⟨h1, item, hmem, h2, h3⟩) h
  exact hinv hk

/-- Every action after a completed pass over one state was there before, or has
its source in that state. -/
theorem calculate_state_action_origin (G : Grammar) (L : Lookahead) (T T' : ParsingTable)
    (st : State) (h : T.calculate_state G L st = Except.ok T')
    (k : StateAndSymbol) (a : Action) (hk : T'.action_table k = some a) :
    T.action_table k = some a ∨ Justified G L st k a := by
  obtain ⟨T1, T2, h1, h2, h3⟩ := calculate_state_ok G L T T' st h
  rcases add_reductions_action_origin L _ _ T2 T' h3 k a hk with hold | ⟨hidx, item, hitem, ha, hsym⟩
  · rcases add_state_transitions_action_origin _ _ T1 T2 h2 k a hold with
      hold1 | ⟨hidx, d, ha, hmem, ht⟩
    · by_cases hacc : st.is_accepting = true
      · simp only [hacc, if_true] at h1
        rcases add_accept_action_origin T T1 st.index _ h1 k a hold1 with hold0 | ⟨hkey, ha⟩
        · exact Or.inl hold0
        · right
          subst hkey
          subst ha
          exact ⟨rfl, hacc, rfl⟩
      · simp only [hacc, if_false, Except.ok.injEq, Bool.false_eq_true] at h1
        subst h1
        exact Or.inl hold1
    · right
      subst ha
      exact ⟨hidx.symm, ht, hmem⟩
  · right
    subst ha
    obtain ⟨hi, hf⟩ := (mem_get_production_items st item).mp hitem
    exact ⟨hidx.symm, ⟨item, hi, hf, rfl⟩, hsym⟩

/-- Every action of the compiled table has its source in a state of the
automaton. -/
theorem calculate_action_origin (A : Automaton) (G : Grammar) (L : Lookahead)
    (T : ParsingTable) (hok : ParsingTable.empty.calculate A G L = Except.ok T)
    (k : StateAndSymbol) (a : Action) (hk : T.action_table k = some a) :
    ∃ st ∈ A.states, Justified G L st k a := by
  have hinv := foldlM_ok_invariant
    (fun (acc : ParsingTable) (state : State) => acc.calculate_state G L state)
    (fun acc : ParsingTable => acc.action_table k = some a →
      ∃ st ∈ A.states, Justified G L st k a)
    A.get_states ParsingTable.empty T
    (fun h0 => by simp [ParsingTable.empty] at h0)
    (fun acc st acc' hmem hacc hstep hk' => by
      rcases calculate_state_action_origin G L acc acc' st hstep k a hk' with hold | hnew
      · exact hacc hold
      · exact ⟨st, hmem, hnew⟩) hok
  exact hinv hk

/-- C17. Every action in the compiled table is justified by its source: when
`calculate` completes without a conflict on an automaton whose states have
pairwise distinct indices, for every state `s` and symbol `t`, a `Shift d` at
`(s, t)` means `t` is terminal and `s` has the transition `t -> d`; a
`Reduce r` means `s` holds a final item of `r` and `t` is in `lookahead(s, r)`;
`Accept` means `s` is accepting and `t` is the end-of-input symbol. So the
action is absent when `s` has no terminal transition on `t`, no final item
whose lookahead holds `t`, and is not accepting with `t` the end of input. -/
theorem calculate_actions_justified (A : Automaton) (G : Grammar) (L : Lookahead)
    (T : ParsingTable) (hdistinct : (A.states.map State.index).Nodup)
    (hok : ParsingTable.empty.calculate A G L = Except.ok T)
    (s : State) (hs : s ∈ A.states) (t : Symbol) :
    (∀ d, T.get_action s.index t = some (Action.Shift d) →
      t.is_terminal = true ∧ (t, d) ∈ s.transitions) ∧
    (∀ r, T.get_action s.index t = some (Action.Reduce r) →
      (∃ item ∈ s.items, item.is_final = true ∧ item.get_rule = r) ∧ t ∈ L s.index r) ∧
    (T.get_action s.index t = some Action.Accept →
      s.is_accepting = true ∧ t = G.end_of_input_symbol) ∧
    ((∀ d, (t, d) ∈ s.transitions → t.is_terminal = false) →
      (∀ item ∈ s.items, item.is_final = true → t ∉ L s.index item.get_rule) →
      ¬ (s.is_accepting = true ∧ t = G.end_of_input_symbol) →
      T.get_action s.index t = none) := by
  have horigin : ∀ a, T.get_action s.index t = some a → Justified G L s ⟨s.index, t⟩ a := by
    intro a ha
    obtain ⟨st, hst, hj⟩ := calculate_action_origin A G L T hok ⟨s.index, t⟩ a ha
    have hsame : st = s := List.inj_on_of_nodup_map hdistinct hst hs hj.1
    rw [hsame] at hj
    exact hj
  have hshift : ∀ d, T.get_action s.index t = some (Action.Shift d) →
      t.is_terminal = true ∧ (t, d) ∈ s.transitions := fun d h => (horigin _ h).2
  have hreduce : ∀ r, T.get_action s.index t = some (Action.Reduce r) →
      (∃ item ∈ s.items, item.is_final = true ∧ item.get_rule = r) ∧ t ∈ L s.index r :=
    fun r h => (horigin _ h).2
  have haccept : T.get_action s.index t = some Action.Accept →
      s.is_accepting = true ∧ t = G.end_of_input_symbol := fun h => (horigin _ h).2
  refine ⟨hshift, hreduce, haccept, ?_⟩
  intro hnoshift hnoreduce hnoaccept
  cases hget : T.get_action s.index t with
  | none => rfl
  | some a =>
    cases a with
    | Shift d =>
      obtain ⟨ht, hmem⟩ := hshift d hget
      rw [hnoshift d hmem] at ht
      exact Bool.noConfusion ht
    | Reduce r =>
      obtain ⟨⟨item, hitem, hfinal, hrule⟩, hmem⟩ := hreduce r hget
      rw [← hrule] at hmem
      exact absurd hmem (hnoreduce item hitem hfinal)
    | Accept => exact absurd (haccept hget) hnoaccept

/-- Witness of C17 on the tiny automaton: state 2 has no terminal transition on
`id`, no final item with `id` in its lookahead and is not accepting, so it has
no action on `id`. -/
theorem calculate_actions_justified_witness :
    tiny_table.get_action 2 sym_id = none :=
  (calculate_actions_justified tiny_automaton tiny_grammar tiny_lookahead tiny_table
    (by decide) rfl ⟨2, [⟨rule_S_id, 1⟩], [], [(sym_id, [0])]⟩ (by decide) sym_id).2.2.2
    (fun d h => absurd h (List.not_mem_nil (sym_id, d))) (by decide) (by decide)

/-! ## Which assertion can stop the compilation -/

/-- A loop that fails fails with an error one of its steps raised. -/
theorem foldlM_error_origin {α β ε : Type} (f : β → α → Except ε β) (Q : ε → Prop)
    (hstep : ∀ acc x e, f acc x = Except.error e → Q e) :
    ∀ (xs : List α) (init : β) (e : ε), xs.foldlM f init = Except.error e → Q e := by
  intro xs
  induction xs with
  | nil =>
    intro init e h
    simp [List.foldlM_nil, pure, Except.pure] at h
  | cons x xs ih =>
    intro init e h
    rw [List.foldlM_cons] at h
    cases hfx : f init x with
    | error e' =>
      rw [hfx] at h
      simp only [bind, Except.bind, Except.error.injEq] at h
      rw [← h]
      exact hstep init x e' hfx
    | ok acc' =>
      rw [hfx] at h
      simp only [bind, Except.bind] at h
      exact ih acc' e h

/-- The only assertion `add_reduction` can raise is the conflict one. -/
theorem add_reduction_error_kind (T : ParsingTable) (s : Nat) (t : Symbol) (r : Rule)
    (e : Conflict × ParsingTable) (h : T.add_reduction s t r = Except.error e) :
    e.1 = Conflict.conflict := by
  unfold ParsingTable.add_reduction at h
  cases hfind : T.action_table ⟨s, t⟩ with
  | none => simp [hfind] at h
  | some old =>
    simp only [hfind] at h
    split at h
    · split at h
      · simp at h
      · split at h
        · simp at h
        · simp only [Except.error.injEq] at h
          rw [← h]
    · simp only [Except.error.injEq] at h
      rw [← h]

/-- The only assertion the reduction loop of a state can raise is the conflict
one. -/
theorem add_reductions_error_kind (L : Lookahead) (idx : Nat) (items : List Item)
    (T : ParsingTable) (e : Conflict × ParsingTable)
    (h : add_reductions L idx items T = Except.error e) : e.1 = Conflict.conflict :=
  foldlM_error_origin
    (fun (acc : ParsingTable) (item : Item) =>
      add_reductions_of_rule idx item.get_rule (L idx item.get_rule) acc)
    (fun e => e.1 = Conflict.conflict)
    (fun acc item e' hstep =>
      foldlM_error_origin
        (fun (acc2 : ParsingTable) (sym : Symbol) => acc2.add_reduction idx sym item.get_rule)
        (fun e => e.1 = Conflict.conflict)
        (fun acc2 sym e2 h2 => add_reduction_error_kind acc2 idx sym item.get_rule e2 h2)
        (L idx item.get_rule) acc e' hstep)
    items T e h

/-- The transition loop completes when the symbols of the list are pairwise
distinct and the slots it writes are free. -/
theorem add_state_transitions_completes (idx : Nat) (trs : List (Symbol × Nat)) :
    ∀ T : ParsingTable, (trs.map Prod.fst).Nodup →
      (∀ tr ∈ trs, tr.1.is_terminal = true → T.action_table ⟨idx, tr.1⟩ = none) →
      (∀ tr ∈ trs, tr.1.is_nonterminal = true → T.goto_table ⟨idx, tr.1⟩ = none) →
      ∃ T', add_state_transitions idx trs T = Except.ok T' := by
  induction trs with
  | nil => intro T _ _ _; exact ⟨T, rfl⟩
  | cons tr rest ih =>
    intro T hnodup hact hgoto
    rw [List.map_cons, List.nodup_cons] at hnodup
    have hne : ∀ tr' ∈ rest, (⟨idx, tr'.1⟩ : StateAndSymbol) ≠ ⟨idx, tr.1⟩ := by
      intro tr' hmem heq
      injection heq with _ h2
      apply hnodup.1
      rw [← h2]
      exact List.mem_map_of_mem Prod.fst hmem
    have hstep : ∃ T1, T.add_state_transition idx tr.1 tr.2 = Except.ok T1 := by
      unfold ParsingTable.add_state_transition
      rcases symbol_kind_cases tr.1 with ht | ⟨ht, hn⟩ | ⟨ht, hn⟩
      · simp only [ht, if_true, hact tr (List.mem_cons_self _ _) ht]
        exact ⟨_, rfl⟩
      · simp only [ht, hn, if_true, Bool.false_eq_true, if_false,
          hgoto tr (List.mem_cons_self _ _) hn]
        exact ⟨_, rfl⟩
      · simp only [ht, hn, Bool.false_eq_true, if_false]
        exact ⟨_, rfl⟩
    obtain ⟨T1, hT1⟩ := hstep
    have hact1 : ∀ tr' ∈ rest, tr'.1.is_terminal = true →
        T1.action_table ⟨idx, tr'.1⟩ = none := by
      intro tr' hmem ht'
      cases hval : T1.action_table ⟨idx, tr'.1⟩ with
      | none => rfl
      | some a =>
        rcases add_state_transition_action_origin T T1 idx tr.2 tr.1 hT1 _ a hval with
          hold | ⟨hkey, _, _⟩
        · rw [hact tr' (List.mem_cons_of_mem _ hmem) ht'] at hold
          exact Option.noConfusion hold
        · exact absurd hkey (hne tr' hmem)
    have hgoto1 : ∀ tr' ∈ rest, tr'.1.is_nonterminal = true →
        T1.goto_table ⟨idx, tr'.1⟩ = none := by
      intro tr' hmem hn'
      cases hval : T1.goto_table ⟨idx, tr'.1⟩ with
      | none => rfl
      | some v =>
        rcases add_state_transition_goto_origin T T1 idx tr.2 tr.1 hT1 _ v hval with
          hold | ⟨hkey, _, _⟩
        · rw [hgoto tr' (List.mem_cons_of_mem _ hmem) hn'] at hold
          exact Option.noConfusion hold
        · exact absurd hkey (hne tr' hmem)
    obtain ⟨T2, hT2⟩ := ih T1 hnodup.2 hact1 hgoto1
    refine ⟨T2, ?_⟩
    unfold add_state_transitions at hT2 ⊢
    rw [List.foldlM_cons, hT1]
    exact hT2

/-- A pass over one state, once the accept step and the transition loop have
completed, is the reduction loop. -/
theorem calculate_state_of_steps (G : Grammar) (L : Lookahead) (T T1 T2 : ParsingTable)
    (st : State)
    (h1 : (if st.is_accepting then T.add_accept st.index G.get_end_of_input_symbol
        else Except.ok T) = Except.ok T1)
    (h2 : add_state_transitions st.index st.get_transitions T1 = Except.ok T2) :
    T.calculate_state G L st = add_reductions L st.index st.get_production_items T2 := by
  unfold ParsingTable.calculate_state
  by_cases hacc : st.is_accepting = true
  · simp only [hacc, if_true] at h1 ⊢
    rw [h1]
    simp only [bind, Except.bind]
    rw [h2]
  · simp only [hacc, if_false, Bool.false_eq_true, Except.ok.injEq] at h1 ⊢
    subst h1
    simp only [bind, Except.bind, pure, Except.pure]
    rw [h2]

/-- A completed pass over one state changes no entry of another state. -/
theorem calculate_state_frame_other (G : Grammar) (L : Lookahead) (T T' : ParsingTable)
    (st : State) (h : T.calculate_state G L st = Except.ok T')
    (k : StateAndSymbol) (hk : k.state ≠ st.index) :
    T'.action_table k = T.action_table k ∧ T'.goto_table k = T.goto_table k := by
  constructor
  · cases hold : T.action_table k with
    | some a => exact calculate_state_keeps_actions G L T T' st h k a hold (Or.inl hk)
    | none =>
      cases hnew : T'.action_table k with
      | none => rfl
      | some a =>
        rcases calculate_state_action_origin G L T T' st h k a hnew with h0 | hj
        · rw [hold] at h0
          exact Option.noConfusion h0
        · exact absurd hj.1.symm hk
  · cases hold : T.goto_table k with
    | some v => exact calculate_state_keeps_gotos G L T T' st h k v hold
    | none =>
      cases hnew : T'.goto_table k with
      | none => rfl
      | some v =>
        rcases calculate_state_goto_origin G L T T' st h k v hnew with h0 | hj
        · rw [hold] at h0
          exact Option.noConfusion h0
        · exact absurd hj.1 hk

/-- A pass over a state none of whose slots is written yet, whose transition
symbols are pairwise distinct and which, when accepting, has no terminal
transition on the end of input, completes or stops at the conflict assertion
of `add_reduction`. -/
theorem calculate_state_outcome (G : Grammar) (L : Lookahead) (T : ParsingTable) (st : State)
    (hfree : ∀ k : StateAndSymbol, k.state = st.index →
      T.action_table k = none ∧ T.goto_table k = none)
    (hnodup : (st.transitions.map Prod.fst).Nodup)
    (hend : st.is_accepting = true → ∀ d, (G.end_of_input_symbol, d) ∈ st.transitions →
      G.end_of_input_symbol.is_terminal = false) :
    (∃ T', T.calculate_state G L st = Except.ok T') ∨
      (∃ T', T.calculate_state G L st = Except.error (Conflict.conflict, T')) := by
  have hstep1 : ∃ T1, (if st.is_accepting then
      T.add_accept st.index G.get_end_of_input_symbol else Except.ok T) = Except.ok T1 ∧
      (∀ k a, T1.action_table k = some a →
        T.action_table k = some a ∨
          (st.is_accepting = true ∧ k = ⟨st.index, G.end_of_input_symbol⟩)) ∧
      T1.goto_table = T.goto_table := by
    by_cases hacc : st.is_accepting = true
    · simp only [hacc, if_true]
      have hslot := (hfree ⟨st.index, G.get_end_of_input_symbol⟩ rfl).1
      have hok : T.add_accept st.index G.get_end_of_input_symbol =
          Except.ok { T with action_table :=
            T.action_table.emplace ⟨st.index, G.get_end_of_input_symbol⟩ Action.Accept } := by
        simp [ParsingTable.add_accept, hslot]
      refine ⟨_, hok, ?_, rfl⟩
      intro k a hk
      rcases add_accept_action_origin T _ st.index _ hok k a hk with h0 | ⟨hkey, _⟩
      · exact Or.inl h0
      · exact Or.inr ⟨trivial, hkey⟩
    · simp only [hacc, if_false, Bool.false_eq_true]
      exact ⟨T, rfl, fun k a hk => Or.inl hk, rfl⟩
  obtain ⟨T1, h1, horigin1, hgoto1⟩ := hstep1
  have hact : ∀ tr ∈ st.get_transitions, tr.1.is_terminal = true →
      T1.action_table ⟨st.index, tr.1⟩ = none := by
    intro tr hmem ht
    cases hval : T1.action_table ⟨st.index, tr.1⟩ with
    | none => rfl
    | some a =>
      rcases horigin1 _ a hval with h0 | ⟨hacc, hkey⟩
      · rw [(hfree ⟨st.index, tr.1⟩ rfl).1] at h0
        exact Option.noConfusion h0
      · injection hkey with _ hsym
        have hmem' : (G.end_of_input_symbol, tr.2) ∈ st.transitions := by
          have : (tr.1, tr.2) ∈ st.transitions := hmem
          rw [hsym] at this
          exact this
        have hnot := hend hacc tr.2 hmem'
        rw [hsym] at ht
        have ht' : G.end_of_input_symbol.is_terminal = true := ht
        rw [hnot] at ht'
        exact Bool.noConfusion ht'
  have hgoto : ∀ tr ∈ st.get_transitions, tr.1.is_nonterminal = true →
      T1.goto_table ⟨st.index, tr.1⟩ = none := by
    intro tr _ _
    rw [hgoto1]
    exact (hfree ⟨st.index, tr.1⟩ rfl).2
  obtain ⟨T2, h2⟩ := add_state_transitions_completes st.index st.get_transitions T1 hnodup
    hact hgoto
  rw [calculate_state_of_steps G L T T1 T2 st h1 h2]
  cases hred : add_reductions L st.index st.get_production_items T2 with
  | ok T' => exact Or.inl ⟨T', rfl⟩
  | error e =>
    right
    have hkind := add_reductions_error_kind L _ _ T2 e hred
    refine ⟨e.2, ?_⟩
    rw [← hkind]

/-- The outer loop of `calculate` over states that are not written yet
completes or stops at the conflict assertion of `add_reduction`. -/
theorem calculate_outcome_from (G : Grammar) (L : Lookahead) (states : List State) :
    ∀ T : ParsingTable, (states.map State.index).Nodup →
      (∀ s ∈ states, (s.transitions.map Prod.fst).Nodup) →
      (∀ s ∈ states, s.is_accepting = true → ∀ d, (G.end_of_input_symbol, d) ∈ s.transitions →
        G.end_of_input_symbol.is_terminal = false) →
      (∀ k : StateAndSymbol, k.state ∈ states.map State.index →
        T.action_table k = none ∧ T.goto_table k = none) →
      (∃ T', states.foldlM (fun acc state => acc.calculate_state G L state) T = Except.ok T') ∨
        (∃ T', states.foldlM (fun acc state => acc.calculate_state G L state) T =
          Except.error (Conflict.conflict, T')) := by
  induction states with
  | nil => intro T _ _ _ _; exact Or.inl ⟨T, rfl⟩
  | cons st rest ih =>
    intro T hdistinct hfunctional hend hfree
    rw [List.map_cons, List.nodup_cons] at hdistinct
    have hfree_st : ∀ k : StateAndSymbol, k.state = st.index →
        T.action_table k = none ∧ T.goto_table k = none := by
      intro k hk
      apply hfree k
      rw [hk, List.map_cons]
      exact List.mem_cons_self _ _
    rcases calculate_state_outcome G L T st hfree_st
      (hfunctional st (List.mem_cons_self _ _)) (hend st (List.mem_cons_self _ _)) with
      ⟨T1, hT1⟩ | ⟨T1, hT1⟩
    · have hfree1 : ∀ k : StateAndSymbol, k.state ∈ rest.map State.index →
          T1.action_table k = none ∧ T1.goto_table k = none := by
        intro k hk
        have hne : k.state ≠ st.index := by
          intro heq
          rw [heq] at hk
          exact hdistinct.1 hk
        obtain ⟨ha, hg⟩ := calculate_state_frame_other G L T T1 st hT1 k hne
        have hold := hfree k (by rw [List.map_cons]; exact List.mem_cons_of_mem _ hk)
        rw [ha, hg]
        exact hold
      rcases ih T1 hdistinct.2 (fun s hs => hfunctional s (List.mem_cons_of_mem _ hs))
        (fun s hs => hend s (List.mem_cons_of_mem _ hs)) hfree1 with ⟨T2, hT2⟩ | ⟨T2, hT2⟩
      · left
        refine ⟨T2, ?_⟩
        rw [List.foldlM_cons, hT1]
        exact hT2
      · right
        refine ⟨T2, ?_⟩
        rw [List.foldlM_cons, hT1]
        exact hT2
    · right
      refine ⟨T1, ?_⟩
      rw [List.foldlM_cons, hT1]
      rfl

/-- C19. Only reductions can make the table compilation fail: on an automaton
whose states have pairwise distinct indices, in which every state has at most
one forward transition per symbol and no accepting state has a terminal
forward transition on the end-of-input symbol, `calculate` on a new table
completes or stops at the conflict assertion of `add_reduction`; the
assertions of `add_accept` and `add_state_transition` never fire. -/
theorem calculate_only_reduction_conflicts (A : Automaton) (G : Grammar) (L : Lookahead)
    (hdistinct : (A.states.map State.index).Nodup)
    (hfunctional : ∀ s ∈ A.states, (s.transitions.map Prod.fst).Nodup)
    (hend : ∀ s ∈ A.states, s.is_accepting = true →
      ∀ d, (G.end_of_input_symbol, d) ∈ s.transitions →
        G.end_of_input_symbol.is_terminal = false) :
    ((∃ T', ParsingTable.empty.calculate A G L = Except.ok T') ∨
      (∃ T', ParsingTable.empty.calculate A G L = Except.error (Conflict.conflict, T'))) ∧
    (∀ c T', ParsingTable.empty.calculate A G L = Except.error (c, T') →
      c ≠ Conflict.placing_accepting ∧ c ≠ Conflict.placing_shifts ∧
        c ≠ Conflict.filling_goto) := by
  have hout := calculate_outcome_from G L A.states ParsingTable.empty hdistinct hfunctional hend
    (fun _ _ => ⟨rfl, rfl⟩)
  refine ⟨hout, ?_⟩
  intro c T' herr
  have hrun : A.states.foldlM (fun acc state => acc.calculate_state G L state)
      ParsingTable.empty = Except.error (c, T') := herr
  rcases hout with ⟨T1, hT1⟩ | ⟨T1, hT1⟩
  · rw [hT1] at hrun
    exact Except.noConfusion hrun
  · rw [hT1] at hrun
    simp only [Except.error.injEq, Prod.mk.injEq] at hrun
    rw [← hrun.1]
    exact ⟨by decide, by decide, by decide⟩

/-- Witness of C19 on the tiny automaton with the lookahead that reduces the
start rule on the end of input: the compilation stops, and it stops at the
conflict assertion of `add_reduction`. -/
theorem calculate_only_reduction_conflicts_witness :
    ((∃ T', ParsingTable.empty.calculate tiny_automaton tiny_grammar tiny_conflict_lookahead =
        Except.ok T') ∨
      (∃ T', ParsingTable.empty.calculate tiny_automaton tiny_grammar tiny_conflict_lookahead =
        Except.error (Conflict.conflict, T'))) :=
  (calculate_only_reduction_conflicts tiny_automaton tiny_grammar tiny_conflict_lookahead
    (by decide) (by decide) (fun _ _ _ _ _ => rfl)).1

/-! ## Independence of the iteration order -/

/-- Agreement is reflexive. -/
theorem agree_refl {ε β : Type} (r : Except ε β) : agree r r := by
  cases r <;> simp [agree]

/-- Agreement is symmetric. -/
theorem agree_symm {ε β : Type} {r1 r2 : Except ε β} (h : agree r1 r2) : agree r2 r1 := by
  cases r1 <;> cases r2 <;> simp_all [agree]

/-- Agreement is transitive. -/
theorem agree_trans {ε β : Type} {r1 r2 r3 : Except ε β} (h1 : agree r1 r2)
    (h2 : agree r2 r3) : agree r1 r3 := by
  cases r1 <;> cases r2 <;> cases r3 <;> simp_all [agree]

/-- Agreeing outcomes followed by agreeing continuations agree. -/
theorem agree_bind {ε β γ : Type} {r1 r2 : Except ε β} {g1 g2 : β → Except ε γ}
    (h : agree r1 r2) (hg : ∀ b, agree (g1 b) (g2 b)) : agree (r1.bind g1) (r2.bind g2) := by
  cases r1 <;> cases r2 <;> simp_all [agree, Except.bind]

/-- Agreement with a completed run: the other run completed with the same
result. -/
theorem agree_ok_iff {ε β : Type} (r1 r2 : Except ε β) (h : agree r1 r2) (b : β) :
    r1 = Except.ok b ↔ r2 = Except.ok b := by
  cases r1 <;> cases r2 <;> simp_all [agree]

/-- Agreement with a failed run: the other run failed. -/
theorem agree_error_iff {ε β : Type} (r1 r2 : Except ε β) (h : agree r1 r2) :
    (∃ e, r1 = Except.error e) ↔ (∃ e, r2 = Except.error e) := by
  cases r1 <;> cases r2 <;> simp_all [agree]

/-- One round of a loop, as a bind. -/
theorem foldlM_cons_bind {α β ε : Type} (f : β → α → Except ε β) (x : α) (xs : List α)
    (init : β) : (x :: xs).foldlM f init = (f init x).bind (fun b => xs.foldlM f b) := by
  rw [List.foldlM_cons]
  rfl

/-- Binds of outcomes associate. -/
theorem except_bind_assoc {ε β γ δ : Type} (r : Except ε β) (g : β → Except ε γ)
    (h : γ → Except ε δ) : (r.bind g).bind h = r.bind (fun b => (g b).bind h) := by
  cases r <;> rfl

/-- A loop whose steps commute up to agreement gives agreeing outcomes on two
orders of the same elements. -/
theorem foldlM_perm_agree {α β ε : Type} (f : β → α → Except ε β)
    (hcomm : ∀ acc x y,
      agree ((f acc x).bind (fun b => f b y)) ((f acc y).bind (fun b => f b x)))
    {xs ys : List α} (h : xs.Perm ys) :
    ∀ init, agree (xs.foldlM f init) (ys.foldlM f init) := by
  induction h with
  | nil => intro init; exact agree_refl _
  | cons x _ ih =>
    intro init
    rw [foldlM_cons_bind, foldlM_cons_bind]
    exact agree_bind (agree_refl _) ih
  | swap x y l =>
    intro init
    rw [foldlM_cons_bind, foldlM_cons_bind]
    have e1 : (f init y).bind (fun b => (x :: l).foldlM f b) =
        ((f init y).bind (fun b => f b x)).bind (fun c => l.foldlM f c) := by
      rw [except_bind_assoc]
      congr 1
    have e2 : (f init x).bind (fun b => (y :: l).foldlM f b) =
        ((f init x).bind (fun b => f b y)).bind (fun c => l.foldlM f c) := by
      rw [except_bind_assoc]
      congr 1
    rw [e1, e2]
    exact agree_bind (hcomm init y x) (fun c => agree_refl _)
  | trans _ _ ih1 ih2 =>
    intro init
    exact agree_trans (ih1 init) (ih2 init)

/-- Two loops over the same elements whose steps agree give agreeing
outcomes. -/
theorem foldlM_congr_agree {α β ε : Type} (f g : β → α → Except ε β)
    (hstep : ∀ acc x, agree (f acc x) (g acc x)) :
    ∀ (xs : List α) (init : β), agree (xs.foldlM f init) (xs.foldlM g init) := by
  intro xs
  induction xs with
  | nil => intro init; exact agree_refl _
  | cons x xs ih =>
    intro init
    rw [foldlM_cons_bind, foldlM_cons_bind]
    exact agree_bind (hstep init x) ih

/-- Two loops over element-wise related lists whose steps agree on related
elements give agreeing outcomes. -/
theorem foldlM_forall2_agree {α β ε : Type} (f g : β → α → Except ε β) (R : α → α → Prop)
    (hstep : ∀ acc x y, R x y → agree (f acc x) (g acc y))
    {xs ys : List α} (h : List.Forall₂ R xs ys) :
    ∀ init, agree (xs.foldlM f init) (ys.foldlM g init) := by
  induction h with
  | nil => intro init; exact agree_refl _
  | cons hxy _ ih =>
    intro init
    rw [foldlM_cons_bind, foldlM_cons_bind]
    exact agree_bind (hstep init _ _ hxy) ih

/-- Two tables with the same actions and the same gotos at every key are the
same table. -/
theorem table_eq_of_entries (a b : ParsingTable)
    (h1 : ∀ k, a.action_table k = b.action_table k)
    (h2 : ∀ k, a.goto_table k = b.goto_table k) : a = b := by
  cases a with
  | mk aa ag =>
    cases b with
    | mk ba bg =>
      have e1 : aa = ba := funext h1
      have e2 : ag = bg := funext h2
      rw [e1, e2]

/-- Two optional values with the same `some` cases are equal. -/
theorem option_eq_of_some_iff {V : Type} (o1 o2 : Option V)
    (h12 : ∀ v, o1 = some v → o2 = some v) (h21 : ∀ v, o2 = some v → o1 = some v) :
    o1 = o2 := by
  cases o1 with
  | none =>
    cases o2 with
    | none => rfl
    | some v => exact h21 v rfl
  | some v => exact (h12 v rfl).symm

/-- The member `add_reduction` reads its own slot only: it fails exactly when
`reduction_outcome` of the slot is the assertion, and otherwise writes the
content `reduction_outcome` gives into the slot and nothing else. -/
theorem add_reduction_outcome (T : ParsingTable) (s : Nat) (t : Symbol) (r : Rule) :
    (reduction_outcome (T.action_table ⟨s, t⟩) t r = none →
      T.add_reduction s t r = Except.error (Conflict.conflict, T)) ∧
    (∀ v, reduction_outcome (T.action_table ⟨s, t⟩) t r = some v →
      ∃ T', T.add_reduction s t r = Except.ok T' ∧ T'.action_table ⟨s, t⟩ = v ∧
        (∀ k, k ≠ ⟨s, t⟩ → T'.action_table k = T.action_table k) ∧
        T'.goto_table = T.goto_table) := by
  cases hfind : T.action_table ⟨s, t⟩ with
  | none =>
    have hred : T.add_reduction s t r = Except.ok
        { T with action_table := T.action_table.emplace ⟨s, t⟩ (Action.Reduce r) } := by
      simp [ParsingTable.add_reduction, hfind]
    have hout : reduction_outcome none t r = some (some (Action.Reduce r)) := rfl
    rw [hred, hout]
    refine ⟨fun h => Option.noConfusion h, ?_⟩
    intro v hv
    refine ⟨_, rfl, ?_, ?_, rfl⟩
    · rw [← Option.some.inj hv]
      simp [TableMap.emplace, hfind]
    · intro k hk
      simp [TableMap.emplace, hfind, hk]
  | some a =>
    cases hsp : stack_prec r with
    | none =>
      have hred : T.add_reduction s t r = Except.error (Conflict.conflict, T) := by
        simp [ParsingTable.add_reduction, hfind, hsp]
      have hout : reduction_outcome (some a) t r = none := by
        simp [reduction_outcome, hsp]
      rw [hred, hout]
      exact ⟨fun _ => rfl, fun v hv => Option.noConfusion hv⟩
    | some sp =>
      cases hip : t.precedence with
      | none =>
        have hred : T.add_reduction s t r = Except.error (Conflict.conflict, T) := by
          simp [ParsingTable.add_reduction, hfind, hsp, hip]
        have hout : reduction_outcome (some a) t r = none := by
          simp [reduction_outcome, hsp, hip]
        rw [hred, hout]
        exact ⟨fun _ => rfl, fun v hv => Option.noConfusion hv⟩
      | some ip =>
        by_cases hlt : Precedence.lt sp ip = true
        · have hred : T.add_reduction s t r = Except.ok T := by
            simp [ParsingTable.add_reduction, hfind, hsp, hip, hlt]
          have hout : reduction_outcome (some a) t r = some (some a) := by
            simp [reduction_outcome, hsp, hip, hlt]
          rw [hred, hout]
          refine ⟨fun h => Option.noConfusion h, ?_⟩
          intro v hv
          exact ⟨T, rfl, by rw [hfind]; exact Option.some.inj hv, fun _ _ => rfl, rfl⟩
        · by_cases hgt : Precedence.gt sp ip = true
          · have hred : T.add_reduction s t r = Except.ok
                { T with action_table := T.action_table.assign ⟨s, t⟩ (Action.Reduce r) } := by
              simp [ParsingTable.add_reduction, hfind, hsp, hip, hlt, hgt]
            have hout : reduction_outcome (some a) t r = some (some (Action.Reduce r)) := by
              simp [reduction_outcome, hsp, hip, hlt, hgt]
            rw [hred, hout]
            refine ⟨fun h => Option.noConfusion h, ?_⟩
            intro v hv
            refine ⟨_, rfl, ?_, ?_, rfl⟩
            · rw [← Option.some.inj hv]
              simp [TableMap.assign]
            · intro k hk
              simp [TableMap.assign, hk]
          · have hred : T.add_reduction s t r = Except.error (Conflict.conflict, T) := by
              simp [ParsingTable.add_reduction, hfind, hsp, hip, hlt, hgt]
            have hout : reduction_outcome (some a) t r = none := by
              simp [reduction_outcome, hsp, hip, hlt, hgt]
            rw [hred, hout]
            exact ⟨fun _ => rfl, fun v hv => Option.noConfusion hv⟩

/-- Two reductions of one rule on two lookahead symbols of one state commute up
to agreement. -/
theorem add_reduction_comm (T : ParsingTable) (idx : Nat) (r : Rule) (x y : Symbol) :
    agree ((T.add_reduction idx x r).bind (fun b => b.add_reduction idx y r))
      ((T.add_reduction idx y r).bind (fun b => b.add_reduction idx x r)) := by
  by_cases hxy : x = y
  · subst hxy
    exact agree_refl _
  have hk : (⟨idx, x⟩ : StateAndSymbol) ≠ ⟨idx, y⟩ := by
    intro h
    injection h with _ h2
    exact hxy h2
  obtain ⟨hxe, hxo⟩ := add_reduction_outcome T idx x r
  obtain ⟨hye, hyo⟩ := add_reduction_outcome T idx y r
  cases hox : reduction_outcome (T.action_table ⟨idx, x⟩) x r with
  | none =>
    rw [hxe hox]
    cases hoy : reduction_outcome (T.action_table ⟨idx, y⟩) y r with
    | none =>
      rw [hye hoy]
      simp [agree, Except.bind]
    | some vy =>
      obtain ⟨Ty, hTy, _, hframe, _⟩ := hyo vy hoy
      rw [hTy]
      have hslot : Ty.action_table ⟨idx, x⟩ = T.action_table ⟨idx, x⟩ := hframe _ hk
      have hfail := (add_reduction_outcome Ty idx x r).1 (by rw [hslot]; exact hox)
      simp [agree, Except.bind, hfail]
  | some vx =>
    obtain ⟨Tx, hTx, hvx, hframex, hgotox⟩ := hxo vx hox
    rw [hTx]
    have hsloty : Tx.action_table ⟨idx, y⟩ = T.action_table ⟨idx, y⟩ := hframex _ hk.symm
    cases hoy : reduction_outcome (T.action_table ⟨idx, y⟩) y r with
    | none =>
      rw [hye hoy]
      have hfail := (add_reduction_outcome Tx idx y r).1 (by rw [hsloty]; exact hoy)
      simp [agree, Except.bind, hfail]
    | some vy =>
      obtain ⟨Ty, hTy, hvy, hframey, hgotoy⟩ := hyo vy hoy
      rw [hTy]
      have hslotx : Ty.action_table ⟨idx, x⟩ = T.action_table ⟨idx, x⟩ := hframey _ hk
      obtain ⟨Txy, hTxy, hvxy, hframexy, hgotoxy⟩ :=
        (add_reduction_outcome Tx idx y r).2 vy (by rw [hsloty]; exact hoy)
      obtain ⟨Tyx, hTyx, hvyx, hframeyx, hgotoyx⟩ :=
        (add_reduction_outcome Ty idx x r).2 vx (by rw [hslotx]; exact hox)
      simp only [Except.bind, hTxy, hTyx, agree]
      apply table_eq_of_entries
      · intro k
        by_cases hkx : k = ⟨idx, x⟩
        · rw [hkx, hframexy _ hk, hvx, hvyx]
        · by_cases hky : k = ⟨idx, y⟩
          · rw [hky, hvxy, hframeyx _ hk.symm, hvy]
          · rw [hframexy k hky, hframex k hkx, hframeyx k hkx, hframey k hky]
      · intro k
        rw [hgotoxy, hgotox, hgotoyx, hgotoy]

/-- The inner reduction loop gives agreeing outcomes on two orders of one
lookahead set. -/
theorem add_reductions_of_rule_perm (idx : Nat) (r : Rule) (xs ys : List Symbol)
    (h : xs.Perm ys) (T : ParsingTable) :
    agree (add_reductions_of_rule idx r xs T) (add_reductions_of_rule idx r ys T) :=
  foldlM_perm_agree (fun (acc : ParsingTable) (sym : Symbol) => acc.add_reduction idx sym r)
    (fun acc x y => add_reduction_comm acc idx r x y) h T

/-- The reduction loop of a state gives agreeing outcomes for two lookahead
oracles that return the same sets in two orders. -/
theorem add_reductions_perm (L L' : Lookahead) (hlook : ∀ idx rule, (L idx rule).Perm (L' idx rule))
    (idx : Nat) (items : List Item) (T : ParsingTable) :
    agree (add_reductions L idx items T) (add_reductions L' idx items T) :=
  foldlM_congr_agree
    (fun (acc : ParsingTable) (item : Item) =>
      add_reductions_of_rule idx item.get_rule (L idx item.get_rule) acc)
    (fun (acc : ParsingTable) (item : Item) =>
      add_reductions_of_rule idx item.get_rule (L' idx item.get_rule) acc)
    (fun acc item => add_reductions_of_rule_perm idx item.get_rule _ _
      (hlook idx item.get_rule) acc) items T

/-- A completed transition loop found free every slot it wrote. -/
theorem add_state_transitions_ok_free (idx : Nat) (trs : List (Symbol × Nat))
    (T T' : ParsingTable) (h : add_state_transitions idx trs T = Except.ok T')
    (tr : Symbol × Nat) (hmem : tr ∈ trs) :
    (tr.1.is_terminal = true → T.action_table ⟨idx, tr.1⟩ = none) ∧
      (tr.1.is_nonterminal = true → T.goto_table ⟨idx, tr.1⟩ = none) := by
  obtain ⟨pre, post, hsplit⟩ := List.append_of_mem hmem
  unfold add_state_transitions at h
  rw [hsplit] at h
  obtain ⟨a, b, hpre, hstep, _⟩ := foldlM_ok_split _ tr post pre T T' h
  constructor
  · intro ht
    obtain ⟨hfree, _, _, _⟩ := add_state_transition_terminal_ok a b idx tr.2 tr.1 ht hstep
    cases hval : T.action_table ⟨idx, tr.1⟩ with
    | none => rfl
    | some v =>
      rw [add_state_transitions_keeps_actions idx pre T a hpre _ v hval] at hfree
      exact Option.noConfusion hfree
  · intro hn
    obtain ⟨hfree, _, _, _⟩ := add_state_transition_nonterminal_ok a b idx tr.2 tr.1 hn hstep
    cases hval : T.goto_table ⟨idx, tr.1⟩ with
    | none => rfl
    | some v =>
      rw [add_state_transitions_keeps_gotos idx pre T a hpre _ v hval] at hfree
      exact Option.noConfusion hfree

/-- Two completed transition loops over lists with the same pairs, from the
same table, give tables with the same entries, one way. -/
theorem add_state_transitions_transfer (idx : Nat) (xs ys : List (Symbol × Nat))
    (hsub : ∀ tr, tr ∈ xs → tr ∈ ys) (T T1 T2 : ParsingTable)
    (h1 : add_state_transitions idx xs T = Except.ok T1)
    (h2 : add_state_transitions idx ys T = Except.ok T2) (k : StateAndSymbol) :
    (∀ a, T1.action_table k = some a → T2.action_table k = some a) ∧
      (∀ v, T1.goto_table k = some v → T2.goto_table k = some v) := by
  constructor
  · intro a ha
    rcases add_state_transitions_action_origin idx xs T T1 h1 k a ha with
      hold | ⟨hidx, d, hshift, hmem, ht⟩
    · exact add_state_transitions_keeps_actions idx ys T T2 h2 k a hold
    · have hset := add_state_transitions_shift_complete idx ys T T2 h2 k.symbol d
        (hsub _ hmem) ht
      rw [hshift, ← hset, ← hidx]
  · intro v hv
    rcases add_state_transitions_goto_origin idx xs T T1 h1 k v hv with
      hold | ⟨hidx, hmem, hn⟩
    · exact add_state_transitions_keeps_gotos idx ys T T2 h2 k v hold
    · have hset := add_state_transitions_goto_complete idx ys T T2 h2 k.symbol v
        (hsub _ hmem) hn
      rw [← hset, ← hidx]

/-- The transition loop gives agreeing outcomes on two orders of transitions
with pairwise distinct symbols. -/
theorem add_state_transitions_perm (idx : Nat) (xs ys : List (Symbol × Nat))
    (hperm : xs.Perm ys) (hnodup : (xs.map Prod.fst).Nodup) (T : ParsingTable) :
    agree (add_state_transitions idx xs T) (add_state_transitions idx ys T) := by
  have hnodup' : (ys.map Prod.fst).Nodup := (hperm.map Prod.fst).nodup_iff.mp hnodup
  cases h1 : add_state_transitions idx xs T with
  | ok T1 =>
    cases h2 : add_state_transitions idx ys T with
    | ok T2 =>
      show T1 = T2
      apply table_eq_of_entries
      · intro k
        exact option_eq_of_some_iff _ _
          (add_state_transitions_transfer idx xs ys (fun _ h => hperm.mem_iff.mp h)
            T T1 T2 h1 h2 k).1
          (add_state_transitions_transfer idx ys xs (fun _ h => hperm.mem_iff.mpr h)
            T T2 T1 h2 h1 k).1
      · intro k
        exact option_eq_of_some_iff _ _
          (add_state_transitions_transfer idx xs ys (fun _ h => hperm.mem_iff.mp h)
            T T1 T2 h1 h2 k).2
          (add_state_transitions_transfer idx ys xs (fun _ h => hperm.mem_iff.mpr h)
            T T2 T1 h2 h1 k).2
    | error e2 =>
      exfalso
      obtain ⟨T2, hT2⟩ := add_state_transitions_completes idx ys T hnodup'
        (fun tr hmem => (add_state_transitions_ok_free idx xs T T1 h1 tr
          (hperm.mem_iff.mpr hmem)).1)
        (fun tr hmem => (add_state_transitions_ok_free idx xs T T1 h1 tr
          (hperm.mem_iff.mpr hmem)).2)
      rw [h2] at hT2
      exact Except.noConfusion hT2
  | error e1 =>
    cases h2 : add_state_transitions idx ys T with
    | ok T2 =>
      exfalso
      obtain ⟨T1, hT1⟩ := add_state_transitions_completes idx xs T hnodup
        (fun tr hmem => (add_state_transitions_ok_free idx ys T T2 h2 tr
          (hperm.mem_iff.mp hmem)).1)
        (fun tr hmem => (add_state_transitions_ok_free idx ys T T2 h2 tr
          (hperm.mem_iff.mp hmem)).2)
      rw [h1] at hT1
      exact Except.noConfusion hT1
    | error e2 => trivial

/-- A pass over one state as a chain of binds. -/
theorem calculate_state_bind (G : Grammar) (L : Lookahead) (T : ParsingTable) (st : State) :
    T.calculate_state G L st =
      ((if st.is_accepting then T.add_accept st.index G.get_end_of_input_symbol
          else Except.ok T).bind
        (fun T1 => add_state_transitions st.index st.get_transitions T1)).bind
        (fun T2 => add_reductions L st.index st.get_production_items T2) := by
  unfold ParsingTable.calculate_state
  by_cases hacc : st.is_accepting = true
  · simp only [hacc, if_true]
    cases T.add_accept st.index G.get_end_of_input_symbol with
    | error e => rfl
    | ok T1 =>
      simp only [bind, Except.bind]
  · simp only [hacc, if_false, Bool.false_eq_true]
    simp only [bind, Except.bind, pure, Except.pure]

/-- A pass over one state gives agreeing outcomes when the forward transitions
(of pairwise distinct symbols) and the lookahead sets are visited in another
order. -/
theorem calculate_state_reordered (G : Grammar) (L L' : Lookahead)
    (hlook : ∀ idx rule, (L idx rule).Perm (L' idx rule)) (T : ParsingTable) (s s' : State)
    (hre : State.reordered s s') (hnodup : (s.transitions.map Prod.fst).Nodup) :
    agree (T.calculate_state G L s) (T.calculate_state G L' s') := by
  obtain ⟨hidx, hitems, hperm⟩ := hre
  have hacc : s'.is_accepting = s.is_accepting := by
    unfold State.is_accepting
    rw [hitems]
  have hprod : s'.get_production_items = s.get_production_items := by
    unfold State.get_production_items
    rw [hitems]
  rw [calculate_state_bind, calculate_state_bind, hacc, hidx, hprod]
  apply agree_bind
  · apply agree_bind (agree_refl _)
    intro T1
    exact add_state_transitions_perm s.index s.transitions s'.transitions hperm.symm hnodup T1
  · intro T2
    exact add_reductions_perm L L' hlook s.index s.get_production_items T2

/-- Element-wise related lists stay related when a property of the left
elements is added to the relation. -/
theorem forall2_and_left {α : Type} (R : α → α → Prop) (P : α → Prop) {xs ys : List α}
    (h : List.Forall₂ R xs ys) (hP : ∀ x ∈ xs, P x) :
    List.Forall₂ (fun x y => R x y ∧ P x) xs ys := by
  induction h with
  | nil => exact List.Forall₂.nil
  | cons hxy _ ih =>
    exact List.Forall₂.cons ⟨hxy, hP _ (List.mem_cons_self _ _)⟩
      (ih (fun x hx => hP x (List.mem_cons_of_mem _ hx)))

/-- C20. The compiled table does not depend on the iteration order of the
hash maps: when every state has its forward transitions (of pairwise distinct
symbols) visited in another order and every lookahead set has its terminals
visited in another order, `calculate` reports a conflict in the one run
exactly when it does in the other, and when it completes it yields the same
table, so the same `get_action` and `get_transition` at every key. -/
theorem calculate_iteration_order (A A' : Automaton) (G : Grammar) (L L' : Lookahead)
    (hstates : List.Forall₂ State.reordered A.states A'.states)
    (hfunctional : ∀ s ∈ A.states, (s.transitions.map Prod.fst).Nodup)
    (hlook : ∀ idx rule, (L idx rule).Perm (L' idx rule)) :
    ((∃ e, ParsingTable.empty.calculate A G L = Except.error e) ↔
      (∃ e, ParsingTable.empty.calculate A' G L' = Except.error e)) ∧
    (∀ T, ParsingTable.empty.calculate A G L = Except.ok T ↔
      ParsingTable.empty.calculate A' G L' = Except.ok T) ∧
    (∀ T T', ParsingTable.empty.calculate A G L = Except.ok T →
      ParsingTable.empty.calculate A' G L' = Except.ok T' →
      ∀ s t, T.get_action s t = T'.get_action s t ∧
        T.get_transition s t = T'.get_transition s t) := by
  have hagree : agree (ParsingTable.empty.calculate A G L)
      (ParsingTable.empty.calculate A' G L') :=
    foldlM_forall2_agree
      (fun (acc : ParsingTable) (state : State) => acc.calculate_state G L state)
      (fun (acc : ParsingTable) (state : State) => acc.calculate_state G L' state)
      (fun s s' => State.reordered s s' ∧ (s.transitions.map Prod.fst).Nodup)
      (fun acc s s' h => calculate_state_reordered G L L' hlook acc s s' h.1 h.2)
      (forall2_and_left State.reordered _ hstates hfunctional) ParsingTable.empty
  refine ⟨agree_error_iff _ _ hagree, agree_ok_iff _ _ hagree, ?_⟩
  intro T T' h1 h2 s t
  have h3 := (agree_ok_iff _ _ hagree T).mp h1
  rw [h2] at h3
  have hsame : T' = T := Except.ok.inj h3
  rw [hsame]
  exact ⟨rfl, rfl⟩

/-- Witness of C20 on the tiny automaton: visiting `id -> 2` before `S -> 1`
in state 0 compiles the same table. -/
theorem calculate_iteration_order_witness :
    ParsingTable.empty.calculate tiny_automaton_reordered tiny_grammar tiny_lookahead =
      Except.ok tiny_table :=
  ((calculate_iteration_order tiny_automaton tiny_automaton_reordered tiny_grammar
    tiny_lookahead tiny_lookahead
    (List.Forall₂.cons ⟨rfl, rfl, List.Perm.swap _ _ _⟩
      (List.Forall₂.cons ⟨rfl, rfl, List.Perm.refl _⟩
        (List.Forall₂.cons ⟨rfl, rfl, List.Perm.refl _⟩ List.Forall₂.nil)))
    (by decide) (fun _ _ => List.Perm.refl _)).2.1 tiny_table).mp rfl

end pog
